import Mathlib

/-!
Verification development for the strapi-content-embeddings plugin.

The development shallowly embeds three subsystems of the plugin:

* `Chunking` — the text chunker of `server/src/utils/chunking.ts`
  (`splitWithSeparator`, `splitText`, `addOverlap`, `chunkContent`,
  `formatChunkTitle`, `needsChunking`, `estimateTokens`), working on
  `List Char` as the model of JavaScript strings, plus a fueled variant
  used to reason about termination of the force-slice loop.
* `Sync` — the reconciler `syncFromNeon` of `server/src/services/sync.ts`
  as a pure function over snapshots of the two stores.
* `Emb` — the embeddings service of `server/src/services/embeddings.ts`
  (`createEmbedding`, `createChunkedEmbedding`, `findRelatedChunks`,
  `deleteRelatedChunks`, `updateChunkedEmbedding`, `updateEmbedding`) and,
  under `Emb.Alt`, the divergent variant of `updateChunkedEmbedding` /
  `updateEmbedding` present in the alternate copy of the embeddings
  service shipped in the repository.  Store writes additionally produce an
  event trace so that ordering properties can be stated.
-/

namespace Chunking

/-- JavaScript whitespace as used by `String.prototype.trim` restricted to the
characters that occur in the plugin's separators and tests. -/
def isWs (c : Char) : Bool :=
  c = ' ' || c = '\n' || c = '\t' || c = '\r'

/-- `text.trimStart()` -/
def trimLeft (s : List Char) : List Char := s.dropWhile isWs

/-- `text.trim()` -/
def trim (s : List Char) : List Char :=
  ((trimLeft s).reverse.dropWhile isWs).reverse

/-- `s.slice(-k)` for `k ≥ 1`: the last `k` characters (or all of `s` if it is
shorter). -/
def takeRight (k : Nat) (s : List Char) : List Char := s.drop (s.length - k)

/-- `DEFAULT_SEPARATORS` from `chunking.ts`. -/
def DEFAULT_SEPARATORS : List (List Char) :=
  [ [ '\n', '\n' ]
  , [ '\n' ]
  , [ '.', ' ' ]
  , [ '!', ' ' ]
  , [ '?', ' ' ]
  , [ ';', ' ' ]
  , [ ',', ' ' ]
  , [ ' ' ]
  , [] ]

/-- `estimateTokens`: `Math.ceil(text.length / 4)`. -/
def estimateTokens (text : List Char) : Nat := (text.length + 3) / 4

/-- `needsChunking`: `content.length > maxChars`. -/
def needsChunking (content : List Char) (maxChars : Nat) : Bool :=
  maxChars < content.length

/-- First index at which `sep` occurs in `s` (the scan of
`String.prototype.split` / `String.prototype.includes`). -/
def firstOcc? (sep s : List Char) : Option Nat :=
  (List.range (s.length + 1)).find? (fun i => (s.drop i).take sep.length == sep)

/-- `text.includes(sep)`. -/
def includes (s sep : List Char) : Bool := (firstOcc? sep s).isSome

/-- The scan of `text.split(separator)` for a non-empty separator, written
with structural fuel (each found occurrence consumes at least one character,
so `s.length` is always enough fuel; `splitString_eq` below recovers the
direct recurrence). -/
def splitStringGo (sep : List Char) : Nat → List Char → List (List Char)
  | 0, s => [s]
  | fuel + 1, s =>
    if sep.length = 0 then [s]
    else
      match firstOcc? sep s with
      | none => [s]
      | some i => s.take i :: splitStringGo sep fuel (s.drop (i + sep.length))

/-- `text.split(separator)` for a non-empty separator (the empty-separator
case is handled separately in `splitWithSeparator`). -/
def splitString (sep : List Char) (s : List Char) : List (List Char) :=
  splitStringGo sep s.length s

/-- The loop of `splitWithSeparator` over `text.split(separator)`: every part
except the last is re-suffixed with the separator; the last part is kept only
when non-empty (`parts[i]` is truthy). -/
def reattach (sep : List Char) : List (List Char) → List (List Char)
  | [] => []
  | [p] => if p = [] then [] else [p]
  | p :: q :: rest => (p ++ sep) :: reattach sep (q :: rest)

/-- `splitWithSeparator` from `chunking.ts`. -/
def splitWithSeparator (text sep : List Char) : List (List Char) :=
  if sep = [] then text.map (fun c => [c])
  else reattach sep (splitString sep text)

/-- The force-slice loop of `splitText`
(`for (let i = 0; i < split.length; i += chunkSize) …`) for a positive step,
written with structural fuel (`s.length` is always enough fuel for a positive
step; `forceSlice_eq` below recovers the direct recurrence).  The
non-positive step makes the JavaScript loop diverge and is modelled
separately by the fueled `forceSliceGo`. -/
def forceSliceT (k : Nat) : Nat → List Char → List (List Char)
  | 0, _ => []
  | fuel + 1, s =>
    if k = 0 then []
    else if s = [] then []
    else s.take k :: forceSliceT k fuel (s.drop k)

/-- The force-slice loop for a positive step, from the start of `s`. -/
def forceSlice (k : Nat) (s : List Char) : List (List Char) :=
  forceSliceT k s.length s

/-- The separator selection of `splitText`: default to the last separator,
then take the first one that occurs in the text. -/
def bestSep (text : List Char) (seps : List (List Char)) : List Char :=
  match seps.find? (fun sep => includes text sep) with
  | some s => s
  | none => seps.getLastD []

/-- One iteration of the greedy packing loop of `splitText`: the accumulator
is the pushed chunks plus the running buffer (`currentChunk`); a piece that
fits is appended to the buffer, otherwise the buffer is flushed and an
oversized piece is handed to `handle` (recursive re-split or force slice). -/
def packStep (cs : Nat) (handle : List Char → List (List Char))
    (acc : List (List Char) × List Char) (split : List Char) :
    List (List Char) × List Char :=
  if (acc.2 ++ split).length ≤ cs then (acc.1, acc.2 ++ split)
  else if cs < split.length then
    ((if acc.2 = [] then acc.1 else acc.1 ++ [acc.2]) ++ handle split, [])
  else ((if acc.2 = [] then acc.1 else acc.1 ++ [acc.2]), split)

/-- The greedy packing loop of `splitText`, with the final flush of the
running buffer. -/
def packPieces (cs : Nat) (handle : List Char → List (List Char))
    (pieces : List (List Char)) : List (List Char) :=
  let r := pieces.foldl (packStep cs handle) ([], [])
  if r.2 = [] then r.1 else r.1 ++ [r.2]

/-- `splitText`, written with structural fuel on the depth of the separator
recursion (the remaining-separator list strictly shrinks at each recursive
call, so `seps.length` is always enough fuel; `splitText_eq` below recovers
the direct recurrence of the source). -/
def splitTextGo (cs : Nat) : Nat → List Char → List (List Char) → List (List Char)
  | 0, text, seps =>
    if text.length ≤ cs then [text]
    else if (seps.drop (seps.indexOf (bestSep text seps) + 1)).length = 0 then
      packPieces cs (forceSlice cs) (splitWithSeparator text (bestSep text seps))
    else []
  | fuel + 1, text, seps =>
    if text.length ≤ cs then [text]
    else if (seps.drop (seps.indexOf (bestSep text seps) + 1)).length = 0 then
      packPieces cs (forceSlice cs) (splitWithSeparator text (bestSep text seps))
    else
      packPieces cs
        (fun s => splitTextGo cs fuel s (seps.drop (seps.indexOf (bestSep text seps) + 1)))
        (splitWithSeparator text (bestSep text seps))

/-- `splitText` from `chunking.ts`. -/
def splitText (text : List Char) (cs : Nat) (seps : List (List Char)) :
    List (List Char) :=
  splitTextGo cs seps.length text seps

/-- `addOverlap`'s loop body: each chunk after the first is prefixed with the
last `overlap` characters of its raw predecessor. -/
def addOverlapGo (overlap : Nat) : List Char → List (List Char) → List (List Char)
  | _, [] => []
  | prev, c :: cs => (takeRight overlap prev ++ c) :: addOverlapGo overlap c cs

/-- `addOverlap` from `chunking.ts`. -/
def addOverlap (chunks : List (List Char)) (overlap : Nat) : List (List Char) :=
  if overlap = 0 ∨ chunks.length ≤ 1 then chunks
  else
    match chunks with
    | [] => []
    | c :: cs => c :: addOverlapGo overlap c cs

/-- `TextChunk` from `chunking.ts`. -/
structure TextChunk where
  text : List Char
  chunkIndex : Nat
  totalChunks : Nat
  startOffset : Nat
  endOffset : Nat
deriving Repr, DecidableEq

/-- The offset/trim loop of `chunkContent`: walks the overlapped chunks zipped
with the raw chunks, drops chunks that are empty after trimming, and assigns
`startOffset`/`endOffset` from the cumulative raw lengths. -/
def buildChunks (n : Nat) : Nat → Nat → List (List Char × List Char) → List TextChunk
  | _, _, [] => []
  | i, off, (w, r) :: rest =>
    let t := trim w
    if t = [] then buildChunks n (i + 1) (off + r.length) rest
    else ⟨t, i, n, off, off + r.length⟩ :: buildChunks n (i + 1) (off + r.length) rest

/-- The final `forEach` of `chunkContent`: re-number `chunkIndex` and reset
`totalChunks` over the surviving chunks. -/
def reindex (n : Nat) : Nat → List TextChunk → List TextChunk
  | _, [] => []
  | i, c :: rest => { c with chunkIndex := i, totalChunks := n } :: reindex n (i + 1) rest

/-- `chunkContent` from `chunking.ts`. -/
def chunkContent (content : List Char) (chunkSize chunkOverlap : Nat)
    (separators : List (List Char)) : List TextChunk :=
  let cleanContent := trim content
  if cleanContent = [] then []
  else if cleanContent.length ≤ chunkSize then
    [⟨cleanContent, 0, 1, 0, cleanContent.length⟩]
  else
    let rawChunks := splitText cleanContent (chunkSize - chunkOverlap) separators
    let chunksWithOverlap := addOverlap rawChunks chunkOverlap
    let pre := buildChunks chunksWithOverlap.length 0 0 (chunksWithOverlap.zip rawChunks)
    reindex pre.length 0 pre

/-- `formatChunkTitle` from `chunking.ts`. -/
def formatChunkTitle (baseTitle : String) (chunkIndex totalChunks : Nat) : String :=
  if totalChunks = 1 then baseTitle
  else baseTitle ++ " [Part " ++ toString (chunkIndex + 1) ++ "/" ++ toString totalChunks ++ "]"

/-! ### Fueled model of the force-slice loop

The JavaScript loop `for (let i = 0; i < split.length; i += chunkSize)` does
not terminate when `chunkSize = 0` (which happens exactly when the caller
passes `maxSize <= overlap`).  `forceSliceGo` models the loop faithfully with
explicit fuel: `none` means the fuel ran out before the loop exited. -/

/-- One fueled execution of the force-slice loop from loop index `i`. -/
def forceSliceGo (k : Nat) (s : List Char) : Nat → Nat → Option (List (List Char))
  | 0, _ => none
  | fuel + 1, i =>
    if i < s.length then
      (forceSliceGo k s fuel (i + k)).map (fun r => (s.drop i).take k :: r)
    else some []

/-- The fueled force-slice loop started at index 0. -/
def forceSliceF (k : Nat) (s : List Char) (fuel : Nat) : Option (List (List Char)) :=
  forceSliceGo k s fuel 0

/-- One iteration of the fueled greedy packing loop: identical to `packStep`
except that the handler for oversized pieces may run out of fuel. -/
def packStepF (cs : Nat) (handle : List Char → Option (List (List Char)))
    (acc : Option (List (List Char) × List Char)) (split : List Char) :
    Option (List (List Char) × List Char) :=
  match acc with
  | none => none
  | some (chs, cur) =>
    if (cur ++ split).length ≤ cs then some (chs, cur ++ split)
    else if cs < split.length then
      match handle split with
      | none => none
      | some hs => some ((if cur = [] then chs else chs ++ [cur]) ++ hs, [])
    else some ((if cur = [] then chs else chs ++ [cur]), split)

/-- Fueled greedy packing: identical to `packPieces` except that the handler
for oversized pieces may run out of fuel. -/
def packPiecesF (cs : Nat) (handle : List Char → Option (List (List Char)))
    (pieces : List (List Char)) : Option (List (List Char)) :=
  let r := pieces.foldl (packStepF cs handle) (some ([], []))
  r.map (fun r => if r.2 = [] then r.1 else r.1 ++ [r.2])

/-- Fueled `splitText`, structural on the depth of the separator recursion
(which always terminates — only the force-slice loop can diverge, on the
`lf` fuel). -/
def splitTextFGo (lf cs : Nat) : Nat → List Char → List (List Char) → Option (List (List Char))
  | 0, text, seps =>
    if text.length ≤ cs then some [text]
    else if (seps.drop (seps.indexOf (bestSep text seps) + 1)).length = 0 then
      packPiecesF cs (fun s => forceSliceF cs s lf) (splitWithSeparator text (bestSep text seps))
    else none
  | fuel + 1, text, seps =>
    if text.length ≤ cs then some [text]
    else if (seps.drop (seps.indexOf (bestSep text seps) + 1)).length = 0 then
      packPiecesF cs (fun s => forceSliceF cs s lf) (splitWithSeparator text (bestSep text seps))
    else
      packPiecesF cs
        (fun s => splitTextFGo lf cs fuel s (seps.drop (seps.indexOf (bestSep text seps) + 1)))
        (splitWithSeparator text (bestSep text seps))

/-- Fueled `splitText`: identical to `splitText` except that the force-slice
loop is run on the fuel `lf`. -/
def splitTextF (lf : Nat) (text : List Char) (cs : Nat) (seps : List (List Char)) :
    Option (List (List Char)) :=
  splitTextFGo lf cs seps.length text seps

/-- Fueled `chunkContent`: the pipeline around the (only potentially
divergent) `splitText` call. -/
def chunkContentF (fuel : Nat) (content : List Char) (chunkSize chunkOverlap : Nat)
    (separators : List (List Char)) : Option (List TextChunk) :=
  let cleanContent := trim content
  if cleanContent = [] then some []
  else if cleanContent.length ≤ chunkSize then
    some [⟨cleanContent, 0, 1, 0, cleanContent.length⟩]
  else
    (splitTextF fuel cleanContent (chunkSize - chunkOverlap) separators).map
      (fun rawChunks =>
        let chunksWithOverlap := addOverlap rawChunks chunkOverlap
        let pre := buildChunks chunksWithOverlap.length 0 0 (chunksWithOverlap.zip rawChunks)
        reindex pre.length 0 pre)

end Chunking

namespace Sync

/-! ### Model of `syncFromNeon` (`server/src/services/sync.ts`)

The reconciler is modelled as a pure function over snapshots of the two
stores.  JavaScript string truthiness (`!neon.strapiId`,
`!existingStrapi.embeddingId`) is modelled by comparing with the empty
string.  `Map.set` in iteration order (later entries overwrite earlier ones)
is modelled by `strapiLookup`, which returns the *last* matching record.
Store writes are modelled as always succeeding (the pure happy-path
semantics); the classification itself never depends on a write's outcome. -/

/-- A row of the Neon (vector) store as read by the reconciler. -/
structure NeonRec where
  id : String
  strapiId : String
  title : String
  content : String
  collectionType : String
  fieldName : String
deriving Repr, DecidableEq

/-- A document of the Strapi (mirror) store as read by the reconciler. -/
structure StrapiRec where
  documentId : String
  title : String
  content : String
  embeddingId : String
  collectionType : String
  fieldName : String
deriving Repr, DecidableEq

/-- The two store snapshots. -/
structure SyncState where
  neon : List NeonRec
  strapi : List StrapiRec
deriving Repr, DecidableEq

/-- The action counters of the sync report. -/
structure Actions where
  created : Nat
  updated : Nat
  orphansRemoved : Nat
deriving Repr, DecidableEq

/-- `strapiByDocumentId.get d`: the last snapshot record with the given
`documentId` (insertion into a `Map` overwrites earlier entries). -/
def strapiLookup (l : List StrapiRec) (d : String) : Option StrapiRec :=
  l.foldl (fun acc r => if r.documentId = d then some r else acc) none

/-- `neonBystrapiId.has d`: some Neon record with a truthy `strapiId` maps to
`d`. -/
def neonHas (l : List NeonRec) (d : String) : Bool :=
  l.any (fun n => decide (n.strapiId ≠ "") && decide (n.strapiId = d))

/-- `strapi.documents(...).create` with an explicit `documentId`. -/
def storeCreate (l : List StrapiRec) (r : StrapiRec) : List StrapiRec := l ++ [r]

/-- `strapi.documents(...).update` by `documentId`. -/
def storeUpdate (l : List StrapiRec) (d : String) (f : StrapiRec → StrapiRec) :
    List StrapiRec :=
  l.map (fun r => if r.documentId = d then f r else r)

/-- `strapi.documents(...).delete` by `documentId`. -/
def storeDelete (l : List StrapiRec) (d : String) : List StrapiRec :=
  l.filter (fun r => r.documentId ≠ d)

/-- The Strapi record created for a Neon record with no mirror counterpart
(step 3, create branch). -/
def createdRec (n : NeonRec) : StrapiRec :=
  { documentId := n.strapiId
  , title := n.title
  , content := n.content
  , embeddingId := n.id
  , collectionType := n.collectionType
  , fieldName := n.fieldName }

/-- The update applied to a mirror record whose content/title differ or whose
`embeddingId` is missing (step 3, update branch). -/
def updatedRec (n : NeonRec) (r : StrapiRec) : StrapiRec :=
  { r with title := n.title, content := n.content, embeddingId := n.id }

/-- Classification of step 3 for one Neon record against the snapshot map. -/
def changed (n : NeonRec) (ex : StrapiRec) : Bool :=
  decide (ex.content ≠ n.content) || decide (ex.title ≠ n.title) ||
    decide (ex.embeddingId = "")

/-- Accumulator of the reconciliation loops: current mirror store, action
counters and error count. -/
structure Acc where
  store : List StrapiRec
  acts : Actions
  errs : Nat
deriving Repr, DecidableEq

/-- Step 3 of `syncFromNeon` for one Neon record.  `snap` is the Strapi
snapshot the lookup map was built from; writes go to the evolving store. -/
def neonStep (dryRun : Bool) (snap : List StrapiRec) (acc : Acc) (n : NeonRec) : Acc :=
  if n.strapiId = "" then { acc with errs := acc.errs + 1 }
  else
    match strapiLookup snap n.strapiId with
    | none =>
      if dryRun then
        { acc with acts := { acc.acts with created := acc.acts.created + 1 } }
      else
        { acc with
          store := storeCreate acc.store (createdRec n)
          acts := { acc.acts with created := acc.acts.created + 1 } }
    | some ex =>
      if changed n ex then
        if dryRun then
          { acc with acts := { acc.acts with updated := acc.acts.updated + 1 } }
        else
          { acc with
            store := storeUpdate acc.store n.strapiId (updatedRec n)
            acts := { acc.acts with updated := acc.acts.updated + 1 } }
      else acc

/-- Step 4 of `syncFromNeon` for one snapshot record: orphan removal. -/
def orphanStep (dryRun : Bool) (neon : List NeonRec) (acc : Acc) (r : StrapiRec) : Acc :=
  if neonHas neon r.documentId then acc
  else if dryRun then
    { acc with acts := { acc.acts with orphansRemoved := acc.acts.orphansRemoved + 1 } }
  else
    { acc with
      store := storeDelete acc.store r.documentId
      acts := { acc.acts with orphansRemoved := acc.acts.orphansRemoved + 1 } }

/-- `syncFromNeon` from `sync.ts` over a pair of snapshots: step 3 over every
Neon record (lookups against the initial Strapi snapshot), then optional
orphan removal over the initial Strapi snapshot. -/
def syncFromNeon (removeOrphans dryRun : Bool) (st : SyncState) :
    SyncState × Actions × Nat :=
  let snap := st.strapi
  let acc0 : Acc := { store := st.strapi, acts := ⟨0, 0, 0⟩, errs := 0 }
  let acc1 := st.neon.foldl (neonStep dryRun snap) acc0
  let acc2 := if removeOrphans then snap.foldl (orphanStep dryRun st.neon) acc1 else acc1
  ({ neon := st.neon, strapi := acc2.store }, acc2.acts, acc2.errs)

end Sync

namespace Emb

/-! ### Model of the embeddings service (`server/src/services/embeddings.ts`)

Strapi `documentId`s are modelled as opaque natural numbers handed out by an
id supply (`EmbState.nextId`).  The plugin manager (LangChain / Neon) is an
external collaborator; its behaviour is captured by an environment of
failure oracles.  Every store write additionally emits an event so that
write-ordering properties can be stated.  `Emb.Alt` below models the
alternate copy of the embeddings service present in the repository, whose
`updateChunkedEmbedding` updates a single chunk in place instead of
re-materializing the group. -/

/-- The chunk-specific metadata fields written by `createChunkedEmbedding`. -/
structure ChunkMeta where
  isChunk : Bool
  chunkIndex : Nat
  totalChunks : Nat
  startOffset : Nat
  endOffset : Nat
  originalTitle : String
  parentDocumentId : Option Nat
  estimatedTokens : Nat
deriving Repr, DecidableEq

/-- A mirror (Strapi) embedding document. -/
structure MRec where
  documentId : Nat
  title : String
  content : List Char
  collectionType : String
  fieldName : String
  metadata : Option ChunkMeta
  embeddingId : Option String
  related : Option (String × Nat)
deriving Repr, DecidableEq

/-- A vector-store (Neon) record; `strapiId` is the owning mirror document. -/
structure VRec where
  embeddingId : String
  strapiId : Nat
  title : String
  content : List Char
  collectionType : String
  fieldName : String
deriving Repr, DecidableEq

/-- The two stores plus the id supply for created documents. -/
structure EmbState where
  store : List MRec
  vec : List VRec
  nextId : Nat
deriving Repr, DecidableEq

/-- The external collaborators: plugin-manager initialization, per-document
failure oracles for vector writes/deletes, the vector-store id generator and
the content normalizer. -/
structure Env where
  initialized : Bool
  embedFail : Nat → Bool
  vdelFail : Nat → Bool
  embedIdOf : Nat → String
  preprocess : List Char → List Char

/-- The plugin configuration as consumed by the service. -/
structure Config where
  chunkSize : Nat
  chunkOverlap : Nat
  autoChunk : Bool
  preprocessFlag : Bool

/-- `config.chunkSize || 4000` -/
def effChunkSize (cfg : Config) : Nat := if cfg.chunkSize = 0 then 4000 else cfg.chunkSize

/-- `config.chunkOverlap || 200` -/
def effOverlap (cfg : Config) : Nat := if cfg.chunkOverlap = 0 then 200 else cfg.chunkOverlap

/-- Store events: mirror create/update/delete and vector create/delete with
their outcome. -/
inductive Ev where
  | mCreate (docId : Nat)
  | mUpdate (docId : Nat)
  | mDelete (docId : Nat)
  | vCreate (docId : Nat) (ok : Bool)
  | vDelete (docId : Nat) (ok : Bool)
deriving Repr, DecidableEq

/-- The mirror document a store event refers to. -/
def evDoc : Ev → Nat
  | Ev.mCreate i => i
  | Ev.mUpdate i => i
  | Ev.mDelete i => i
  | Ev.vCreate i _ => i
  | Ev.vDelete i _ => i

/-- The created mirror document of an `mCreate` event. -/
def evCreateId : Ev → Option Nat
  | Ev.mCreate i => some i
  | _ => none

/-- `CreateEmbeddingData.data` -/
structure CreateData where
  title : String
  content : List Char
  collectionType : Option String
  fieldName : Option String
  metadata : Option ChunkMeta
  related : Option (String × Nat)
  autoChunk : Option Bool

/-- `UpdateEmbeddingData.data` -/
structure UpdateData where
  title : Option String
  content : Option (List Char)
  metadata : Option ChunkMeta
  autoChunk : Option Bool

/-- `ChunkedEmbeddingResult` -/
structure ChunkedResult where
  entity : MRec
  chunks : List MRec
  totalChunks : Nat
  wasChunked : Bool

/-- `related && related.__type && related.id` -/
def relatedValid (r : Option (String × Nat)) : Bool :=
  match r with
  | some (t, i) => decide (t ≠ "") && decide (i ≠ 0)
  | none => false

/-- `s || "standalone"` -/
def orStandalone (s : String) : String := if s = "" then "standalone" else s

/-- `s || "content"` -/
def orContent (s : String) : String := if s = "" then "content" else s

/-- `strapi.documents(...).findOne({documentId})` -/
def findOne (store : List MRec) (d : Nat) : Option MRec :=
  store.find? (fun r => r.documentId == d)

/-- `strapi.documents(...).update({documentId, data})` -/
def storeUpdate (store : List MRec) (d : Nat) (f : MRec → MRec) : List MRec :=
  store.map (fun r => if r.documentId == d then f r else r)

/-- `strapi.documents(...).delete({documentId})` -/
def storeDelete (store : List MRec) (d : Nat) : List MRec :=
  store.filter (fun r => r.documentId != d)

/-- Vector-store deletion by owning mirror id (`metadata->>'id' = X`). -/
def vecDelete (vec : List VRec) (d : Nat) : List VRec :=
  vec.filter (fun v => v.strapiId != d)

/-- `metadata?.parentDocumentId` -/
def metaParent (r : MRec) : Option Nat := r.metadata.bind (fun m => m.parentDocumentId)

/-- `metadata?.isChunk === true` -/
def metaIsChunk (r : MRec) : Bool :=
  match r.metadata with
  | some m => m.isChunk
  | none => false

/-- Placeholder record for the (unreachable) `createdChunks[0]` access on an
empty list. -/
def dummyMRec : MRec :=
  { documentId := 0, title := "", content := [], collectionType := ""
  , fieldName := "", metadata := none, embeddingId := none, related := none }

/-- Split a title into the part before a trailing `\s*\[Part i/N\]` match and
the matched portion (the regex `/\s*\[Part \d+\/\d+\]$/`). -/
def partSuffixSplit (cs : List Char) : List Char × Option (List Char) :=
  match cs.reverse with
  | ']' :: r1 =>
    let d2 := r1.takeWhile Char.isDigit
    let r2 := r1.dropWhile Char.isDigit
    if d2 = [] then (cs, none)
    else
      match r2 with
      | '/' :: r3 =>
        let d1 := r3.takeWhile Char.isDigit
        let r4 := r3.dropWhile Char.isDigit
        if d1 = [] then (cs, none)
        else if r4.take 6 = [' ', 't', 'r', 'a', 'P', '['] then
          let r5 := r4.drop 6
          let r6 := r5.dropWhile Chunking.isWs
          (cs.take r6.length, some (cs.drop r6.length))
        else (cs, none)
      | _ => (cs, none)
  | _ => (cs, none)

/-- `title.replace(/\s*\[Part \d+\/\d+\]$/, '')` -/
def stripPartSuffix (s : String) : String := String.mk (partSuffixSplit s.data).1

/-- The single-embedding path of `createEmbedding` (after the chunking check
has decided against chunking): create the mirror document, then best-effort
create the vector record and back-reference it. -/
def createEmbeddingCore (env : Env) (st : EmbState) (cd : CreateData) :
    EmbState × MRec × List Ev :=
  let did := st.nextId
  let entity : MRec :=
    { documentId := did
    , title := cd.title
    , content := cd.content
    , collectionType := cd.collectionType.getD "standalone"
    , fieldName := cd.fieldName.getD "content"
    , metadata := cd.metadata
    , embeddingId := none
    , related := if relatedValid cd.related then cd.related else none }
  let st1 := { st with store := st.store ++ [entity], nextId := did + 1 }
  if env.initialized then
    if env.embedFail did then (st1, entity, [Ev.mCreate did, Ev.vCreate did false])
    else
      let eid := env.embedIdOf did
      ( { st1 with
          vec := st1.vec ++
            [⟨eid, did, cd.title, cd.content, cd.collectionType.getD "standalone",
              cd.fieldName.getD "content"⟩]
          store := storeUpdate st1.store did (fun r => { r with embeddingId := some eid }) }
      , { entity with embeddingId := some eid }
      , [Ev.mCreate did, Ev.vCreate did true, Ev.mUpdate did] )
  else (st1, entity, [Ev.mCreate did])

/-- The per-chunk loop of `createChunkedEmbedding`, in chunk order: create the
mirror record (chunk 0 captures the anchor id first), re-write the parent
reference for later chunks, then best-effort create the vector record;
failures leave `embeddingId` null and do not stop the loop. -/
def chunkLoop (env : Env) (cd : CreateData) :
    EmbState → Option Nat → List Chunking.TextChunk →
      EmbState × Option Nat × List MRec × List Ev
  | st, parentId, [] => (st, parentId, [], [])
  | st, parentId, c :: rest =>
    let chunkTitle := Chunking.formatChunkTitle cd.title c.chunkIndex c.totalChunks
    let meta0 : ChunkMeta :=
      { isChunk := true
      , chunkIndex := c.chunkIndex
      , totalChunks := c.totalChunks
      , startOffset := c.startOffset
      , endOffset := c.endOffset
      , originalTitle := cd.title
      , parentDocumentId := parentId
      , estimatedTokens := Chunking.estimateTokens c.text }
    let did := st.nextId
    let entity0 : MRec :=
      { documentId := did
      , title := chunkTitle
      , content := c.text
      , collectionType := cd.collectionType.getD "standalone"
      , fieldName := cd.fieldName.getD "content"
      , metadata := some meta0
      , embeddingId := none
      , related := if c.chunkIndex == 0 && relatedValid cd.related then cd.related else none }
    let st1 := { st with store := st.store ++ [entity0], nextId := did + 1 }
    let parentId' := if c.chunkIndex = 0 then some did else parentId
    let st2 :=
      if c.chunkIndex = 0 then st1
      else
        { st1 with
          store := storeUpdate st1.store did
            (fun r => { r with metadata := some { meta0 with parentDocumentId := parentId } }) }
    let evs2 := if c.chunkIndex = 0 then [Ev.mCreate did] else [Ev.mCreate did, Ev.mUpdate did]
    let (st3, entity3, evs3) :=
      if env.initialized then
        if env.embedFail did then (st2, entity0, evs2 ++ [Ev.vCreate did false])
        else
          let eid := env.embedIdOf did
          ( { st2 with
              vec := st2.vec ++
                [⟨eid, did, chunkTitle, c.text, cd.collectionType.getD "standalone",
                  cd.fieldName.getD "content"⟩]
              store := storeUpdate st2.store did (fun r => { r with embeddingId := some eid }) }
          , { entity0 with embeddingId := some eid }
          , evs2 ++ [Ev.vCreate did true, Ev.mUpdate did] )
      else (st2, entity0, evs2)
    let (st4, p4, recs, evs4) := chunkLoop env cd st3 parentId' rest
    (st4, p4, entity3 :: recs, evs3 ++ evs4)

/-- `createChunkedEmbedding` from `embeddings.ts`. -/
def createChunkedEmbedding (env : Env) (cfg : Config) (st : EmbState) (cd : CreateData) :
    Except String (EmbState × ChunkedResult × List Ev) :=
  let chunks :=
    Chunking.chunkContent cd.content (effChunkSize cfg) (effOverlap cfg)
      Chunking.DEFAULT_SEPARATORS
  if chunks.length = 0 then Except.error "Content is empty or could not be chunked"
  else if chunks.length = 1 then
    -- `this.createEmbedding({...data, autoChunk: false})`: with a false
    -- `autoChunk` the chunking check in `createEmbedding` is skipped, so the
    -- call is exactly the single-embedding path.
    let r := createEmbeddingCore env st { cd with autoChunk := some false }
    Except.ok (r.1, ⟨r.2.1, [r.2.1], 1, false⟩, r.2.2)
  else
    let r := chunkLoop env cd st none chunks
    Except.ok (r.1, ⟨r.2.2.1.headD dummyMRec, r.2.2.1, r.2.2.1.length, true⟩, r.2.2.2)

/-- `createEmbedding` from `embeddings.ts`: delegates to the chunked path when
`autoChunk` is on and the content exceeds the chunk size. -/
def createEmbedding (env : Env) (cfg : Config) (st : EmbState) (cd : CreateData) :
    Except String (EmbState × MRec × List Ev) :=
  let shouldChunk := cd.autoChunk.getD cfg.autoChunk
  if shouldChunk && Chunking.needsChunking cd.content (effChunkSize cfg) then
    match createChunkedEmbedding env cfg st cd with
    | Except.error e => Except.error e
    | Except.ok (st', res, tr) => Except.ok (st', res.entity, tr)
  else
    let r := createEmbeddingCore env st cd
    Except.ok (r.1, r.2.1, r.2.2)

/-- `?? 0` key used to sort a group by chunk index. -/
def chunkIndexKey (r : MRec) : Nat :=
  match r.metadata with
  | some m => m.chunkIndex
  | none => 0

/-- Stable insertion used to model the (stable) `Array.prototype.sort`. -/
def insertSorted (x : MRec) : List MRec → List MRec
  | [] => [x]
  | y :: ys => if chunkIndexKey x < chunkIndexKey y then x :: y :: ys else y :: insertSorted x ys

/-- Stable sort by `metadata.chunkIndex ?? 0`. -/
def sortByChunkIndex (l : List MRec) : List MRec :=
  l.foldl (fun acc r => insertSorted r acc) []

/-- `findRelatedChunks` from `embeddings.ts`. -/
def findRelatedChunks (store : List MRec) (d : Nat) : List MRec :=
  match findOne store d with
  | none => []
  | some entry =>
    let parentId := (metaParent entry).getD d
    if metaIsChunk entry = false ∧ metaParent entry = none then
      let children := store.filter (fun r => metaParent r == some d)
      if children.length = 0 then [entry] else entry :: children
    else
      let allChunks :=
        store.filter (fun r => r.documentId == parentId || metaParent r == some parentId)
      sortByChunkIndex allChunks

/-- The deletion loop of `deleteRelatedChunks`: per member, attempt the
vector-store deletion (tolerating failure), then delete the mirror record. -/
def deleteLoop (env : Env) : EmbState → List MRec → EmbState × List Ev
  | st, [] => (st, [])
  | st, c :: rest =>
    let did := c.documentId
    let (st1, evs1) :=
      if env.initialized then
        if env.vdelFail did then (st, [Ev.vDelete did false])
        else ({ st with vec := vecDelete st.vec did }, [Ev.vDelete did true])
      else (st, [])
    let st2 := { st1 with store := storeDelete st1.store did }
    let r := deleteLoop env st2 rest
    (r.1, evs1 ++ [Ev.mDelete did] ++ r.2)

/-- `deleteRelatedChunks` from `embeddings.ts`. -/
def deleteRelatedChunks (env : Env) (st : EmbState) (d : Nat) :
    EmbState × Nat × List Ev :=
  let chunks := findRelatedChunks st.store d
  let r := deleteLoop env st chunks
  (r.1, chunks.length, r.2)

/-- `updateChunkedEmbedding` from `server/src/services/embeddings.ts`: delete
the entire existing group, then re-create from the new content (chunked again
only when the new content needs chunking). -/
def updateChunkedEmbedding (env : Env) (cfg : Config) (st : EmbState) (id : Nat)
    (data : UpdateData) : Except String (EmbState × ChunkedResult × List Ev) :=
  match findOne st.store id with
  | none => Except.error "Embedding not found"
  | some currentEntry =>
    let parentDocumentId := (metaParent currentEntry).getD id
    let newContent := data.content.getD currentEntry.content
    let newTitle :=
      match data.title with
      | some t => t
      | none =>
        match currentEntry.metadata with
        | some m => m.originalTitle
        | none => currentEntry.title
    let shouldChunk := data.autoChunk.getD cfg.autoChunk
    let contentNeedsChunking :=
      shouldChunk && Chunking.needsChunking newContent (effChunkSize cfg)
    let existingChunks := findRelatedChunks st.store id
    let firstChunk := existingChunks.find?
      (fun c =>
        (match c.metadata with
         | some m => m.chunkIndex == 0
         | none => false) || c.documentId == parentDocumentId)
    let originalRelated := firstChunk.bind (fun c => c.related)
    let del := deleteRelatedChunks env st id
    -- `preservedMetadata` is the incoming metadata with every chunk-specific
    -- field deleted; `ChunkMeta` models exactly those fields, so nothing
    -- remains of it.
    let base : CreateData :=
      { title := stripPartSuffix newTitle
      , content := newContent
      , collectionType := some (orStandalone currentEntry.collectionType)
      , fieldName := some (orContent currentEntry.fieldName)
      , metadata := none
      , related := originalRelated
      , autoChunk := some true }
    if contentNeedsChunking then
      match createChunkedEmbedding env cfg del.1 base with
      | Except.error e => Except.error e
      | Except.ok (st2, res, tr2) => Except.ok (st2, res, del.2.2 ++ tr2)
    else
      match createEmbedding env cfg del.1 { base with autoChunk := some false } with
      | Except.error e => Except.error e
      | Except.ok (st2, entity, tr2) =>
        Except.ok (st2, ⟨entity, [entity], 1, false⟩, del.2.2 ++ tr2)

/-- `updateEmbedding` from `server/src/services/embeddings.ts`. -/
def updateEmbedding (env : Env) (cfg : Config) (st : EmbState) (id : Nat)
    (data : UpdateData) : Except String (EmbState × MRec × List Ev) :=
  match findOne st.store id with
  | none => Except.error "Embedding not found"
  | some currentEntry =>
    let isCurrentlyChunked := metaIsChunk currentEntry
    let hasRelatedChunks := (metaParent currentEntry).isSome || isCurrentlyChunked
    let shouldChunk := data.autoChunk.getD cfg.autoChunk
    let newContent := data.content.getD currentEntry.content
    let contentNeedsChunking :=
      shouldChunk && Chunking.needsChunking newContent (effChunkSize cfg)
    let contentChanged :=
      match data.content with
      | some c => decide (c ≠ currentEntry.content)
      | none => false
    if hasRelatedChunks || contentNeedsChunking then
      match updateChunkedEmbedding env cfg st id data with
      | Except.error e => Except.error e
      | Except.ok (st', res, tr) => Except.ok (st', res.entity, tr)
    else
      let f : MRec → MRec := fun r =>
        { r with
          title := data.title.getD r.title
          content := data.content.getD r.content
          metadata := match data.metadata with | some m => some m | none => r.metadata }
      let st1 := { st with store := storeUpdate st.store id f }
      let updatedEntity := f currentEntry
      if contentChanged && env.initialized then
        if env.vdelFail id then
          Except.ok (st1, updatedEntity, [Ev.mUpdate id, Ev.vDelete id false])
        else
          let st2 := { st1 with vec := vecDelete st1.vec id }
          if env.embedFail id then
            Except.ok (st2, updatedEntity, [Ev.mUpdate id, Ev.vDelete id true, Ev.vCreate id false])
          else
            let eid := env.embedIdOf id
            let vtitle :=
              match data.title with
              | some t => if t = "" then currentEntry.title else t
              | none => currentEntry.title
            let st3 :=
              { st2 with
                vec := st2.vec ++
                  [⟨eid, id, vtitle, newContent, orStandalone currentEntry.collectionType,
                    orContent currentEntry.fieldName⟩]
                store := storeUpdate st2.store id (fun r => { r with embeddingId := some eid }) }
            Except.ok (st3, { updatedEntity with embeddingId := some eid },
              [Ev.mUpdate id, Ev.vDelete id true, Ev.vCreate id true, Ev.mUpdate id])
      else Except.ok (st1, updatedEntity, [Ev.mUpdate id])

end Emb

namespace Emb.Alt

/-! ### The alternate embeddings service

The repository also ships a second copy of the embeddings service whose
`updateChunkedEmbedding` updates *one* chunk in place (preserving a trailing
`[Part i/N]` title suffix) instead of deleting and re-materializing the
group, and whose `updateEmbedding` optionally preprocesses incoming content
before delegating. -/

/-- `updateChunkedEmbedding` from the alternate embeddings service: update
only the targeted chunk's mirror record, preserving a `[Part i/N]` title
suffix, then refresh its vector record. -/
def updateChunkedEmbedding (env : Emb.Env) (st : Emb.EmbState) (id : Nat)
    (data : Emb.UpdateData) : Except String (Emb.EmbState × Emb.ChunkedResult × List Emb.Ev) :=
  match Emb.findOne st.store id with
  | none => Except.error "Embedding not found"
  | some currentEntry =>
    let contentChanged :=
      match data.content with
      | some c => decide (c ≠ currentEntry.content)
      | none => false
    let newTitleField : Option String :=
      data.title.map (fun t =>
        match (Emb.partSuffixSplit currentEntry.title.data).2 with
        | some suf => t ++ String.mk suf
        | none => t)
    -- `updateData.content || currentEntry.content`
    let effContent :=
      match data.content with
      | some c => if c = [] then currentEntry.content else c
      | none => currentEntry.content
    -- `{...currentMetadata, ...metadata}` with `estimatedTokens` refreshed
    -- when the content changed
    let metaField : Option Emb.ChunkMeta :=
      data.metadata.map (fun m =>
        if contentChanged then { m with estimatedTokens := Chunking.estimateTokens effContent }
        else m)
    let f : Emb.MRec → Emb.MRec := fun r =>
      { r with
        title := newTitleField.getD r.title
        content := data.content.getD r.content
        metadata := match metaField with | some m => some m | none => r.metadata }
    let st1 := { st with store := Emb.storeUpdate st.store id f }
    let updatedEntity := f currentEntry
    let stp :=
      if env.initialized && (contentChanged || data.title.isSome) then
        if env.vdelFail id then (st1, [Emb.Ev.mUpdate id, Emb.Ev.vDelete id false])
        else
          let st2 := { st1 with vec := Emb.vecDelete st1.vec id }
          if env.embedFail id then
            (st2, [Emb.Ev.mUpdate id, Emb.Ev.vDelete id true, Emb.Ev.vCreate id false])
          else
            let eid := env.embedIdOf id
            let vtitle := if updatedEntity.title = "" then currentEntry.title else updatedEntity.title
            ( { st2 with
                vec := st2.vec ++
                  [⟨eid, id, vtitle, effContent, Emb.orStandalone currentEntry.collectionType,
                    Emb.orContent currentEntry.fieldName⟩]
                store := Emb.storeUpdate st2.store id
                  (fun r => { r with embeddingId := some eid }) }
            , [Emb.Ev.mUpdate id, Emb.Ev.vDelete id true, Emb.Ev.vCreate id true,
               Emb.Ev.mUpdate id] )
      else (st1, [Emb.Ev.mUpdate id])
    let allChunks := Emb.findRelatedChunks stp.1.store id
    Except.ok
      (stp.1, ⟨updatedEntity, allChunks, allChunks.length, decide (1 < allChunks.length)⟩, stp.2)

/-- `updateEmbedding` from the alternate embeddings service: preprocess the
incoming content when configured, then route chunk-group members (and content
that newly needs chunking) to `updateChunkedEmbedding`. -/
def updateEmbedding (env : Emb.Env) (cfg : Emb.Config) (st : Emb.EmbState) (id : Nat)
    (data : Emb.UpdateData) : Except String (Emb.EmbState × Emb.MRec × List Emb.Ev) :=
  let content :=
    match data.content with
    | some c => if cfg.preprocessFlag then some (env.preprocess c) else some c
    | none => none
  match Emb.findOne st.store id with
  | none => Except.error "Embedding not found"
  | some currentEntry =>
    let isCurrentlyChunked := Emb.metaIsChunk currentEntry
    let hasRelatedChunks := (Emb.metaParent currentEntry).isSome || isCurrentlyChunked
    let shouldChunk := data.autoChunk.getD cfg.autoChunk
    let newContent := content.getD currentEntry.content
    let contentNeedsChunking :=
      shouldChunk && Chunking.needsChunking newContent (Emb.effChunkSize cfg)
    let contentChanged :=
      match content with
      | some c => decide (c ≠ currentEntry.content)
      | none => false
    if hasRelatedChunks || contentNeedsChunking then
      match updateChunkedEmbedding env st id { data with content := content } with
      | Except.error e => Except.error e
      | Except.ok (st', res, tr) => Except.ok (st', res.entity, tr)
    else
      let f : Emb.MRec → Emb.MRec := fun r =>
        { r with
          title := data.title.getD r.title
          content := content.getD r.content
          metadata := match data.metadata with | some m => some m | none => r.metadata }
      let st1 := { st with store := Emb.storeUpdate st.store id f }
      let updatedEntity := f currentEntry
      if contentChanged && env.initialized then
        if env.vdelFail id then
          Except.ok (st1, updatedEntity, [Emb.Ev.mUpdate id, Emb.Ev.vDelete id false])
        else
          let st2 := { st1 with vec := Emb.vecDelete st1.vec id }
          if env.embedFail id then
            Except.ok (st2, updatedEntity,
              [Emb.Ev.mUpdate id, Emb.Ev.vDelete id true, Emb.Ev.vCreate id false])
          else
            let eid := env.embedIdOf id
            let vtitle :=
              match data.title with
              | some t => if t = "" then currentEntry.title else t
              | none => currentEntry.title
            let st3 :=
              { st2 with
                vec := st2.vec ++
                  [⟨eid, id, vtitle, newContent, Emb.orStandalone currentEntry.collectionType,
                    Emb.orContent currentEntry.fieldName⟩]
                store := Emb.storeUpdate st2.store id (fun r => { r with embeddingId := some eid }) }
            Except.ok (st3, { updatedEntity with embeddingId := some eid },
              [Emb.Ev.mUpdate id, Emb.Ev.vDelete id true, Emb.Ev.vCreate id true,
               Emb.Ev.mUpdate id])
      else Except.ok (st1, updatedEntity, [Emb.Ev.mUpdate id])

end Emb.Alt

/-! ## Theorems -/

namespace Chunking

theorem firstOcc?_bound {sep s : List Char} {i : Nat}
    (h : firstOcc? sep s = some i) : i + sep.length ≤ s.length := by
  have hp := List.find?_some h
  have he : (s.drop i).take sep.length = sep := by
    simpa using hp
  have hmem := List.mem_of_find?_eq_some h
  have hi : i < s.length + 1 := by simpa using hmem
  have hl : ((s.drop i).take sep.length).length = sep.length := by
    rw [he]
  simp only [List.length_take, List.length_drop] at hl
  omega

theorem firstOcc?_decomp {sep s : List Char} {i : Nat}
    (h : firstOcc? sep s = some i) :
    s = s.take i ++ sep ++ s.drop (i + sep.length) := by
  have hp := List.find?_some h
  have he : (s.drop i).take sep.length = sep := by
    simpa using hp
  have h2 : s.drop i = sep ++ s.drop (i + sep.length) := by
    conv_lhs => rw [← List.take_append_drop sep.length (s.drop i)]
    rw [he, List.drop_drop]
  conv_lhs => rw [← List.take_append_drop i s, h2]
  rw [List.append_assoc]

theorem firstOcc?_nil {sep : List Char} (h : sep.length ≠ 0) :
    firstOcc? sep ([] : List Char) = none := by
  cases sep with
  | nil => simp at h
  | cons a l => rfl

theorem splitStringGo_nil (sep : List Char) (fuel : Nat) :
    splitStringGo sep fuel [] = [[]] := by
  cases fuel with
  | zero => rfl
  | succ fuel =>
    by_cases h : sep.length = 0
    · simp [splitStringGo, h]
    · simp [splitStringGo, h, firstOcc?_nil h]

theorem splitStringGo_congr (sep : List Char) :
    ∀ fuel fuel' s, s.length ≤ fuel → s.length ≤ fuel' →
      splitStringGo sep fuel s = splitStringGo sep fuel' s := by
  intro fuel
  induction fuel with
  | zero =>
    intro fuel' s hs _
    have : s = [] := by
      cases s with
      | nil => rfl
      | cons a l => simp at hs
    subst this
    rw [splitStringGo_nil, splitStringGo_nil]
  | succ fuel ih =>
    intro fuel' s hs hs'
    cases fuel' with
    | zero =>
      have : s = [] := by
        cases s with
        | nil => rfl
        | cons a l => simp at hs'
      subst this
      rw [splitStringGo_nil, splitStringGo_nil]
    | succ fuel' =>
      show (if sep.length = 0 then [s] else _) = (if sep.length = 0 then [s] else _)
      by_cases h : sep.length = 0
      · simp [h]
      · simp only [h, if_false]
        cases hocc : firstOcc? sep s with
        | none => rfl
        | some i =>
          have hb := firstOcc?_bound hocc
          have hd : (s.drop (i + sep.length)).length ≤ fuel := by
            simp only [List.length_drop]
            omega
          have hd' : (s.drop (i + sep.length)).length ≤ fuel' := by
            simp only [List.length_drop]
            omega
          show s.take i :: splitStringGo sep fuel (s.drop (i + sep.length)) =
            s.take i :: splitStringGo sep fuel' (s.drop (i + sep.length))
          rw [ih fuel' _ hd hd']

theorem splitString_eq (sep s : List Char) :
    splitString sep s =
      if sep.length = 0 then [s]
      else
        match firstOcc? sep s with
        | none => [s]
        | some i => s.take i :: splitString sep (s.drop (i + sep.length)) := by
  show splitStringGo sep s.length s = _
  cases hs : s.length with
  | zero =>
    have : s = [] := by
      cases s with
      | nil => rfl
      | cons a l => simp at hs
    subst this
    rw [splitStringGo_nil]
    by_cases h : sep.length = 0
    · simp [h]
    · simp [h, firstOcc?_nil h]
  | succ n =>
    show (if sep.length = 0 then [s] else _) = _
    by_cases h : sep.length = 0
    · simp [h]
    · simp only [h, if_false]
      cases hocc : firstOcc? sep s with
      | none => rfl
      | some i =>
        have hb := firstOcc?_bound hocc
        have hd : (s.drop (i + sep.length)).length ≤ n := by
          simp only [List.length_drop]
          omega
        show s.take i :: splitStringGo sep n (s.drop (i + sep.length)) =
          s.take i :: splitString sep (s.drop (i + sep.length))
        unfold splitString
        rw [splitStringGo_congr sep n _ _ hd (le_refl _)]

theorem forceSliceT_nil (k : Nat) (fuel : Nat) : forceSliceT k fuel [] = [] := by
  cases fuel with
  | zero => rfl
  | succ fuel =>
    by_cases h : k = 0
    · simp [forceSliceT, h]
    · simp [forceSliceT, h]

theorem forceSliceT_congr (k : Nat) :
    ∀ fuel fuel' s, s.length ≤ fuel → s.length ≤ fuel' →
      forceSliceT k fuel s = forceSliceT k fuel' s := by
  intro fuel
  induction fuel with
  | zero =>
    intro fuel' s hs _
    have : s = [] := by
      cases s with
      | nil => rfl
      | cons a l => simp at hs
    subst this
    rw [forceSliceT_nil, forceSliceT_nil]
  | succ fuel ih =>
    intro fuel' s hs hs'
    cases fuel' with
    | zero =>
      have : s = [] := by
        cases s with
        | nil => rfl
        | cons a l => simp at hs'
      subst this
      rw [forceSliceT_nil, forceSliceT_nil]
    | succ fuel' =>
      show (if k = 0 then [] else _) = (if k = 0 then [] else _)
      by_cases hk : k = 0
      · simp [hk]
      · simp only [hk, if_false]
        by_cases hsnil : s = []
        · simp [hsnil]
        · simp only [hsnil, if_false]
          have hlen : 0 < s.length := List.length_pos.mpr hsnil
          have hd : (s.drop k).length ≤ fuel := by
            simp only [List.length_drop]
            omega
          have hd' : (s.drop k).length ≤ fuel' := by
            simp only [List.length_drop]
            omega
          rw [ih fuel' _ hd hd']

theorem forceSlice_eq (k : Nat) (s : List Char) :
    forceSlice k s =
      if k = 0 then []
      else if s = [] then []
      else s.take k :: forceSlice k (s.drop k) := by
  show forceSliceT k s.length s = _
  cases hs : s.length with
  | zero =>
    have : s = [] := by
      cases s with
      | nil => rfl
      | cons a l => simp at hs
    subst this
    rw [forceSliceT_nil]
    by_cases h : k = 0 <;> simp [h]
  | succ n =>
    show (if k = 0 then [] else _) = _
    by_cases hk : k = 0
    · simp [hk]
    · have hsnil : s ≠ [] := by
        intro he
        rw [he] at hs
        simp at hs
      simp only [hk, hsnil, if_false]
      have hd : (s.drop k).length ≤ n := by
        simp only [List.length_drop]
        omega
      unfold forceSlice
      rw [forceSliceT_congr k n _ _ hd (le_refl _)]

theorem splitTextGo_zero_eq (cs : Nat) (text : List Char) (seps : List (List Char))
    (hr : (seps.drop (seps.indexOf (bestSep text seps) + 1)).length = 0) (fuel : Nat) :
    splitTextGo cs fuel text seps = splitTextGo cs 0 text seps := by
  cases fuel with
  | zero => rfl
  | succ fuel =>
    by_cases hb : text.length ≤ cs
    · simp [splitTextGo, hb]
    · simp [splitTextGo, hb, hr]

theorem splitTextGo_congr (cs : Nat) :
    ∀ fuel fuel' text seps, seps.length ≤ fuel → seps.length ≤ fuel' →
      splitTextGo cs fuel text seps = splitTextGo cs fuel' text seps := by
  intro fuel
  induction fuel with
  | zero =>
    intro fuel' text seps hs _
    have hseps : seps = [] := by
      cases seps with
      | nil => rfl
      | cons a l => simp at hs
    subst hseps
    have hr : (([] : List (List Char)).drop
        (([] : List (List Char)).indexOf (bestSep text []) + 1)).length = 0 := by
      simp
    rw [splitTextGo_zero_eq cs text [] hr fuel']
  | succ fuel ih =>
    intro fuel' text seps hs hs'
    cases fuel' with
    | zero =>
      have hseps : seps = [] := by
        cases seps with
        | nil => rfl
        | cons a l => simp at hs'
      subst hseps
      have hr : (([] : List (List Char)).drop
          (([] : List (List Char)).indexOf (bestSep text []) + 1)).length = 0 := by
        simp
      rw [splitTextGo_zero_eq cs text [] hr (fuel + 1)]
    | succ fuel' =>
      by_cases hb : text.length ≤ cs
      · simp [splitTextGo, hb]
      · by_cases hr : (seps.drop (seps.indexOf (bestSep text seps) + 1)).length = 0
        · simp [splitTextGo, hb, hr]
        · have hne : seps.length ≠ 0 := by
            intro h0
            have : seps = [] := by
              cases seps with
              | nil => rfl
              | cons a l => simp at h0
            subst this
            simp at hr
          have hlen : (seps.drop (seps.indexOf (bestSep text seps) + 1)).length ≤
              seps.length - 1 := by
            simp only [List.length_drop]
            omega
          have hfun :
              (fun s => splitTextGo cs fuel s (seps.drop (seps.indexOf (bestSep text seps) + 1))) =
              (fun s => splitTextGo cs fuel' s
                (seps.drop (seps.indexOf (bestSep text seps) + 1))) := by
            funext s
            exact ih fuel' s _ (by omega) (by omega)
          simp only [splitTextGo, hb, if_false, hr]
          rw [hfun]

theorem splitText_eq (text : List Char) (cs : Nat) (seps : List (List Char)) :
    splitText text cs seps =
      if text.length ≤ cs then [text]
      else if (seps.drop (seps.indexOf (bestSep text seps) + 1)).length = 0 then
        packPieces cs (forceSlice cs) (splitWithSeparator text (bestSep text seps))
      else
        packPieces cs
          (fun s => splitText s cs (seps.drop (seps.indexOf (bestSep text seps) + 1)))
          (splitWithSeparator text (bestSep text seps)) := by
  show splitTextGo cs seps.length text seps = _
  by_cases hb : text.length ≤ cs
  · cases hs : seps.length with
    | zero => simp [splitTextGo, hb]
    | succ n => simp [splitTextGo, hb]
  · by_cases hr : (seps.drop (seps.indexOf (bestSep text seps) + 1)).length = 0
    · cases hs : seps.length with
      | zero => simp [splitTextGo, hb, hr]
      | succ n => simp [splitTextGo, hb, hr]
    · have hne : seps.length ≠ 0 := by
        intro h0
        have : seps = [] := by
          cases seps with
          | nil => rfl
          | cons a l => simp at h0
        subst this
        simp at hr
      cases hs : seps.length with
      | zero => omega
      | succ n =>
        simp only [splitTextGo, hb, if_false, hr]
        have hlen : (seps.drop (seps.indexOf (bestSep text seps) + 1)).length ≤ n := by
          simp only [List.length_drop]
          omega
        have hfun :
            (fun s => splitTextGo cs n s (seps.drop (seps.indexOf (bestSep text seps) + 1))) =
            (fun s => splitText s cs (seps.drop (seps.indexOf (bestSep text seps) + 1))) := by
          funext s
          show _ = splitTextGo cs (seps.drop (seps.indexOf (bestSep text seps) + 1)).length s _
          exact splitTextGo_congr cs n _ s _ hlen (le_refl _)
        rw [hfun]

theorem splitTextFGo_zero_eq (lf cs : Nat) (text : List Char) (seps : List (List Char))
    (hr : (seps.drop (seps.indexOf (bestSep text seps) + 1)).length = 0) (fuel : Nat) :
    splitTextFGo lf cs fuel text seps = splitTextFGo lf cs 0 text seps := by
  cases fuel with
  | zero => rfl
  | succ fuel =>
    by_cases hb : text.length ≤ cs
    · simp [splitTextFGo, hb]
    · simp [splitTextFGo, hb, hr]

theorem splitTextFGo_congr (lf cs : Nat) :
    ∀ fuel fuel' text seps, seps.length ≤ fuel → seps.length ≤ fuel' →
      splitTextFGo lf cs fuel text seps = splitTextFGo lf cs fuel' text seps := by
  intro fuel
  induction fuel with
  | zero =>
    intro fuel' text seps hs _
    have hseps : seps = [] := by
      cases seps with
      | nil => rfl
      | cons a l => simp at hs
    subst hseps
    have hr : (([] : List (List Char)).drop
        (([] : List (List Char)).indexOf (bestSep text []) + 1)).length = 0 := by
      simp
    rw [splitTextFGo_zero_eq lf cs text [] hr fuel']
  | succ fuel ih =>
    intro fuel' text seps hs hs'
    cases fuel' with
    | zero =>
      have hseps : seps = [] := by
        cases seps with
        | nil => rfl
        | cons a l => simp at hs'
      subst hseps
      have hr : (([] : List (List Char)).drop
          (([] : List (List Char)).indexOf (bestSep text []) + 1)).length = 0 := by
        simp
      rw [splitTextFGo_zero_eq lf cs text [] hr (fuel + 1)]
    | succ fuel' =>
      by_cases hb : text.length ≤ cs
      · simp [splitTextFGo, hb]
      · by_cases hr : (seps.drop (seps.indexOf (bestSep text seps) + 1)).length = 0
        · simp [splitTextFGo, hb, hr]
        · have hne : seps.length ≠ 0 := by
            intro h0
            have : seps = [] := by
              cases seps with
              | nil => rfl
              | cons a l => simp at h0
            subst this
            simp at hr
          have hfun :
              (fun s => splitTextFGo lf cs fuel s
                (seps.drop (seps.indexOf (bestSep text seps) + 1))) =
              (fun s => splitTextFGo lf cs fuel' s
                (seps.drop (seps.indexOf (bestSep text seps) + 1))) := by
            funext s
            have hlen : (seps.drop (seps.indexOf (bestSep text seps) + 1)).length ≤
                seps.length - 1 := by
              simp only [List.length_drop]
              omega
            exact ih fuel' s _ (by omega) (by omega)
          simp only [splitTextFGo, hb, if_false, hr]
          rw [hfun]

theorem splitTextF_eq (lf : Nat) (text : List Char) (cs : Nat) (seps : List (List Char)) :
    splitTextF lf text cs seps =
      if text.length ≤ cs then some [text]
      else if (seps.drop (seps.indexOf (bestSep text seps) + 1)).length = 0 then
        packPiecesF cs (fun s => forceSliceF cs s lf) (splitWithSeparator text (bestSep text seps))
      else
        packPiecesF cs
          (fun s => splitTextF lf s cs (seps.drop (seps.indexOf (bestSep text seps) + 1)))
          (splitWithSeparator text (bestSep text seps)) := by
  show splitTextFGo lf cs seps.length text seps = _
  by_cases hb : text.length ≤ cs
  · cases hs : seps.length with
    | zero => simp [splitTextFGo, hb]
    | succ n => simp [splitTextFGo, hb]
  · by_cases hr : (seps.drop (seps.indexOf (bestSep text seps) + 1)).length = 0
    · cases hs : seps.length with
      | zero => simp [splitTextFGo, hb, hr]
      | succ n => simp [splitTextFGo, hb, hr]
    · have hne : seps.length ≠ 0 := by
        intro h0
        have : seps = [] := by
          cases seps with
          | nil => rfl
          | cons a l => simp at h0
        subst this
        simp at hr
      cases hs : seps.length with
      | zero => omega
      | succ n =>
        simp only [splitTextFGo, hb, if_false, hr]
        have hlen : (seps.drop (seps.indexOf (bestSep text seps) + 1)).length ≤ n := by
          simp only [List.length_drop]
          omega
        have hfun :
            (fun s => splitTextFGo lf cs n s (seps.drop (seps.indexOf (bestSep text seps) + 1))) =
            (fun s => splitTextF lf s cs (seps.drop (seps.indexOf (bestSep text seps) + 1))) := by
          funext s
          show _ = splitTextFGo lf cs (seps.drop (seps.indexOf (bestSep text seps) + 1)).length s _
          exact splitTextFGo_congr lf cs n _ s _ hlen (le_refl _)
        rw [hfun]

theorem flatten_map_singleton (l : List Char) :
    (l.map (fun c => [c])).flatten = l := by
  induction l with
  | nil => rfl
  | cons c t ih => simp [ih]

theorem splitString_ne_nil (sep s : List Char) : splitString sep s ≠ [] := by
  rw [splitString_eq]
  by_cases h : sep.length = 0
  · simp [h]
  · simp only [h, if_false]
    cases hocc : firstOcc? sep s with
    | none => simp
    | some i => simp

theorem reattach_cons (sep p : List Char) (L : List (List Char)) (h : L ≠ []) :
    reattach sep (p :: L) = (p ++ sep) :: reattach sep L := by
  cases L with
  | nil => exact absurd rfl h
  | cons q t => rfl

theorem reattach_splitString_flatten (sep : List Char) (hsep : sep.length ≠ 0)
    (s : List Char) : (reattach sep (splitString sep s)).flatten = s := by
  rw [splitString_eq]
  simp only [hsep, if_false]
  cases hocc : firstOcc? sep s with
  | none =>
    by_cases hnil : s = []
    · subst hnil
      simp [reattach]
    · simp [reattach, hnil]
  | some i =>
    have hne := splitString_ne_nil sep (s.drop (i + sep.length))
    rw [reattach_cons sep _ _ hne]
    have ih := reattach_splitString_flatten sep hsep (s.drop (i + sep.length))
    simp only [List.flatten_cons, ih]
    conv_rhs => rw [firstOcc?_decomp hocc]
termination_by s.length
decreasing_by
  have := firstOcc?_bound hocc
  simp only [List.length_drop]
  omega

theorem splitWithSeparator_flatten (text sep : List Char) :
    (splitWithSeparator text sep).flatten = text := by
  unfold splitWithSeparator
  by_cases h : sep = []
  · simp only [h, if_true]
    exact flatten_map_singleton text
  · simp only [h, if_false]
    have hl : sep.length ≠ 0 := by
      intro h0
      exact h (by cases sep with | nil => rfl | cons a l => simp at h0)
    exact reattach_splitString_flatten sep hl text

theorem mem_flatten_length_le {p : List Char} {L : List (List Char)}
    (h : p ∈ L) : p.length ≤ L.flatten.length := by
  induction L with
  | nil => simp at h
  | cons x t ih =>
    rcases List.mem_cons.mp h with h1 | h1
    · subst h1
      simp only [List.flatten_cons, List.length_append]
      omega
    · have := ih h1
      simp only [List.flatten_cons, List.length_append]
      omega

theorem splitWithSeparator_piece_le {text sep p : List Char}
    (h : p ∈ splitWithSeparator text sep) : p.length ≤ text.length := by
  have := mem_flatten_length_le h
  rwa [splitWithSeparator_flatten] at this

theorem reattach_mem_ne_nil (sep : List Char) (hsep : sep ≠ []) :
    ∀ L p, p ∈ reattach sep L → p ≠ [] := by
  intro L
  induction L with
  | nil =>
    intro p hp
    simp [reattach] at hp
  | cons x t ih =>
    intro p hp
    cases t with
    | nil =>
      by_cases hx : x = []
      · simp [reattach, hx] at hp
      · simp [reattach, hx] at hp
        subst hp
        exact hx
    | cons y t' =>
      rw [reattach_cons sep x (y :: t') (by simp)] at hp
      rcases List.mem_cons.mp hp with h1 | h1
      · subst h1
        simp [hsep]
      · exact ih p h1

theorem splitWithSeparator_piece_ne_nil {text sep p : List Char}
    (h : p ∈ splitWithSeparator text sep) : p ≠ [] := by
  unfold splitWithSeparator at h
  by_cases hs : sep = []
  · simp only [hs, if_true] at h
    rcases List.mem_map.mp h with ⟨c, _, hc⟩
    rw [← hc]
    simp
  · simp only [hs, if_false] at h
    exact reattach_mem_ne_nil sep hs _ p h

theorem forceSlice_flatten (k : Nat) (hk : k ≠ 0) (s : List Char) :
    (forceSlice k s).flatten = s := by
  rw [forceSlice_eq]
  simp only [hk, if_false]
  by_cases hnil : s = []
  · simp [hnil]
  · simp only [hnil, if_false, List.flatten_cons]
    rw [forceSlice_flatten k hk (s.drop k)]
    exact List.take_append_drop k s
termination_by s.length
decreasing_by
  have : 0 < s.length := List.length_pos.mpr hnil
  simp only [List.length_drop]
  omega

theorem forceSlice_le (k : Nat) (s : List Char) :
    ∀ c ∈ forceSlice k s, c.length ≤ k := by
  rw [forceSlice_eq]
  by_cases hk : k = 0
  · simp [hk]
  · simp only [hk, if_false]
    by_cases hnil : s = []
    · simp [hnil]
    · simp only [hnil, if_false]
      intro c hc
      rcases List.mem_cons.mp hc with h1 | h1
      · subst h1
        simp
      · exact forceSlice_le k (s.drop k) c h1
termination_by s.length
decreasing_by
  have : 0 < s.length := List.length_pos.mpr hnil
  simp only [List.length_drop]
  omega

theorem forceSlice_ne_nil (k : Nat) (hk : k ≠ 0) (s : List Char) :
    ∀ c ∈ forceSlice k s, c ≠ [] := by
  rw [forceSlice_eq]
  simp only [hk, if_false]
  by_cases hnil : s = []
  · simp [hnil]
  · simp only [hnil, if_false]
    intro c hc
    rcases List.mem_cons.mp hc with h1 | h1
    · subst h1
      simp [hk, hnil]
    · exact forceSlice_ne_nil k hk (s.drop k) c h1
termination_by s.length
decreasing_by
  have : 0 < s.length := List.length_pos.mpr hnil
  simp only [List.length_drop]
  omega

theorem packStep_fits {cs : Nat} {handle : List Char → List (List Char)}
    {chs : List (List Char)} {cur split : List Char}
    (h : (cur ++ split).length ≤ cs) :
    packStep cs handle (chs, cur) split = (chs, cur ++ split) := by
  unfold packStep
  rw [if_pos h]

theorem packStep_big {cs : Nat} {handle : List Char → List (List Char)}
    {chs : List (List Char)} {cur split : List Char}
    (h1 : ¬ (cur ++ split).length ≤ cs) (h2 : cs < split.length) :
    packStep cs handle (chs, cur) split =
      ((if cur = [] then chs else chs ++ [cur]) ++ handle split, []) := by
  unfold packStep
  rw [if_neg h1, if_pos h2]

theorem packStep_small {cs : Nat} {handle : List Char → List (List Char)}
    {chs : List (List Char)} {cur split : List Char}
    (h1 : ¬ (cur ++ split).length ≤ cs) (h2 : ¬ cs < split.length) :
    packStep cs handle (chs, cur) split =
      ((if cur = [] then chs else chs ++ [cur]), split) := by
  unfold packStep
  rw [if_neg h1, if_neg h2]

theorem packStep_foldl_flatten (cs : Nat) (handle : List Char → List (List Char))
    (pieces : List (List Char))
    (hh : ∀ s ∈ pieces, cs < s.length → (handle s).flatten = s) :
    ∀ chs cur,
      ((pieces.foldl (packStep cs handle) (chs, cur)).1).flatten ++
        (pieces.foldl (packStep cs handle) (chs, cur)).2 =
      chs.flatten ++ cur ++ pieces.flatten := by
  induction pieces with
  | nil =>
    intro chs cur
    simp
  | cons p ps ih =>
    intro chs cur
    have hhps : ∀ s ∈ ps, cs < s.length → (handle s).flatten = s := by
      intro s hs
      exact hh s (List.mem_cons_of_mem p hs)
    simp only [List.foldl_cons]
    by_cases h1 : (cur ++ p).length ≤ cs
    · rw [packStep_fits h1, ih hhps]
      simp [List.append_assoc]
    · by_cases h2 : cs < p.length
      · rw [packStep_big h1 h2, ih hhps]
        by_cases h3 : cur = []
        · simp [h3, hh p (List.mem_cons_self p ps) h2, List.append_assoc]
        · simp [h3, hh p (List.mem_cons_self p ps) h2, List.append_assoc]
      · rw [packStep_small h1 h2, ih hhps]
        by_cases h3 : cur = []
        · simp [h3, List.append_assoc]
        · simp [h3, List.append_assoc]

theorem packPieces_flatten (cs : Nat) (handle : List Char → List (List Char))
    (pieces : List (List Char))
    (hh : ∀ s ∈ pieces, cs < s.length → (handle s).flatten = s) :
    (packPieces cs handle pieces).flatten = pieces.flatten := by
  unfold packPieces
  have h := packStep_foldl_flatten cs handle pieces hh [] []
  simp only [List.flatten_nil, List.nil_append] at h
  by_cases h2 : (pieces.foldl (packStep cs handle) ([], [])).2 = []
  · simp only [h2, if_true]
    rw [h2, List.append_nil] at h
    exact h
  · simp only [h2, if_false]
    simp only [List.flatten_append, List.flatten_cons, List.flatten_nil, List.append_nil]
    exact h

theorem packStep_foldl_le (cs : Nat) (handle : List Char → List (List Char))
    (pieces : List (List Char))
    (hh : ∀ s ∈ pieces, cs < s.length → ∀ c ∈ handle s, c.length ≤ cs) :
    ∀ chs cur, (∀ c ∈ chs, c.length ≤ cs) → cur.length ≤ cs →
      (∀ c ∈ (pieces.foldl (packStep cs handle) (chs, cur)).1, c.length ≤ cs) ∧
        (pieces.foldl (packStep cs handle) (chs, cur)).2.length ≤ cs := by
  induction pieces with
  | nil =>
    intro chs cur h1 h2
    exact ⟨h1, h2⟩
  | cons p ps ih =>
    intro chs cur h1 h2
    have hhps : ∀ s ∈ ps, cs < s.length → ∀ c ∈ handle s, c.length ≤ cs := by
      intro s hs
      exact hh s (List.mem_cons_of_mem p hs)
    simp only [List.foldl_cons]
    by_cases hc1 : (cur ++ p).length ≤ cs
    · rw [packStep_fits hc1]
      exact ih hhps chs (cur ++ p) h1 hc1
    · have hchunks : ∀ c ∈ (if cur = [] then chs else chs ++ [cur]), c.length ≤ cs := by
        by_cases h3 : cur = []
        · simp only [h3, if_true]
          exact h1
        · simp only [h3, if_false]
          intro c hc
          rcases List.mem_append.mp hc with h4 | h4
          · exact h1 c h4
          · rcases List.mem_singleton.mp h4 with rfl
            exact h2
      by_cases hc2 : cs < p.length
      · rw [packStep_big hc1 hc2]
        apply ih hhps _ [] _ (by simp)
        intro c hc
        rcases List.mem_append.mp hc with h4 | h4
        · exact hchunks c h4
        · exact hh p (List.mem_cons_self p ps) hc2 c h4
      · rw [packStep_small hc1 hc2]
        exact ih hhps _ p hchunks (by omega)

theorem packPieces_le (cs : Nat) (handle : List Char → List (List Char))
    (pieces : List (List Char))
    (hh : ∀ s ∈ pieces, cs < s.length → ∀ c ∈ handle s, c.length ≤ cs) :
    ∀ c ∈ packPieces cs handle pieces, c.length ≤ cs := by
  unfold packPieces
  have h := packStep_foldl_le cs handle pieces hh [] [] (by simp) (by simp)
  by_cases h2 : (pieces.foldl (packStep cs handle) ([], [])).2 = []
  · simp only [h2, if_true]
    exact h.1
  · simp only [h2, if_false]
    intro c hc
    rcases List.mem_append.mp hc with h3 | h3
    · exact h.1 c h3
    · rcases List.mem_singleton.mp h3 with rfl
      exact h.2

theorem packStep_foldl_ne (cs : Nat) (handle : List Char → List (List Char))
    (pieces : List (List Char))
    (hp : ∀ s ∈ pieces, s ≠ [])
    (hh : ∀ s ∈ pieces, cs < s.length → ∀ c ∈ handle s, c ≠ []) :
    ∀ chs cur, (∀ c ∈ chs, c ≠ []) →
      (∀ c ∈ (pieces.foldl (packStep cs handle) (chs, cur)).1, c ≠ []) := by
  induction pieces with
  | nil =>
    intro chs cur h1
    exact h1
  | cons p ps ih =>
    intro chs cur h1
    have hps : ∀ s ∈ ps, s ≠ [] := by
      intro s hs
      exact hp s (List.mem_cons_of_mem p hs)
    have hhps : ∀ s ∈ ps, cs < s.length → ∀ c ∈ handle s, c ≠ [] := by
      intro s hs
      exact hh s (List.mem_cons_of_mem p hs)
    simp only [List.foldl_cons]
    by_cases hc1 : (cur ++ p).length ≤ cs
    · rw [packStep_fits hc1]
      exact ih hps hhps chs (cur ++ p) h1
    · have hchunks : ∀ c ∈ (if cur = [] then chs else chs ++ [cur]), c ≠ [] := by
        by_cases h3 : cur = []
        · simp only [h3, if_true]
          exact h1
        · simp only [h3, if_false]
          intro c hc
          rcases List.mem_append.mp hc with h4 | h4
          · exact h1 c h4
          · rcases List.mem_singleton.mp h4 with rfl
            exact h3
      by_cases hc2 : cs < p.length
      · rw [packStep_big hc1 hc2]
        apply ih hps hhps _ []
        intro c hc
        rcases List.mem_append.mp hc with h4 | h4
        · exact hchunks c h4
        · exact hh p (List.mem_cons_self p ps) hc2 c h4
      · rw [packStep_small hc1 hc2]
        exact ih hps hhps _ p hchunks

theorem packPieces_ne_nil (cs : Nat) (handle : List Char → List (List Char))
    (pieces : List (List Char))
    (hp : ∀ s ∈ pieces, s ≠ [])
    (hh : ∀ s ∈ pieces, cs < s.length → ∀ c ∈ handle s, c ≠ []) :
    ∀ c ∈ packPieces cs handle pieces, c ≠ [] := by
  unfold packPieces
  have h := packStep_foldl_ne cs handle pieces hp hh [] [] (by simp)
  by_cases h2 : (pieces.foldl (packStep cs handle) ([], [])).2 = []
  · simp only [h2, if_true]
    exact h
  · simp only [h2, if_false]
    intro c hc
    rcases List.mem_append.mp hc with h3 | h3
    · exact h c h3
    · rcases List.mem_singleton.mp h3 with rfl
      exact h2

theorem splitText_rem_lt {text : List Char} {seps : List (List Char)}
    (hr : (seps.drop (seps.indexOf (bestSep text seps) + 1)).length ≠ 0) :
    (seps.drop (seps.indexOf (bestSep text seps) + 1)).length < seps.length := by
  simp only [List.length_drop] at hr ⊢
  omega

theorem splitText_flatten (cs : Nat) (hcs : cs ≠ 0) (seps : List (List Char))
    (text : List Char) : (splitText text cs seps).flatten = text := by
  rw [splitText_eq]
  by_cases hb : text.length ≤ cs
  · simp [hb]
  · simp only [hb, if_false]
    by_cases hr : (seps.drop (seps.indexOf (bestSep text seps) + 1)).length = 0
    · simp only [hr, if_true]
      rw [packPieces_flatten]
      · exact splitWithSeparator_flatten text (bestSep text seps)
      · intro s _ _
        exact forceSlice_flatten cs hcs s
    · simp only [hr, if_false]
      rw [packPieces_flatten]
      · exact splitWithSeparator_flatten text (bestSep text seps)
      · intro s _ _
        exact splitText_flatten cs hcs (seps.drop (seps.indexOf (bestSep text seps) + 1)) s
termination_by seps.length
decreasing_by
  exact splitText_rem_lt hr

theorem splitText_le (cs : Nat) (seps : List (List Char)) (text : List Char) :
    ∀ c ∈ splitText text cs seps, c.length ≤ cs := by
  rw [splitText_eq]
  by_cases hb : text.length ≤ cs
  · simp only [hb, if_true]
    intro c hc
    rcases List.mem_singleton.mp hc with rfl
    exact hb
  · simp only [hb, if_false]
    by_cases hr : (seps.drop (seps.indexOf (bestSep text seps) + 1)).length = 0
    · simp only [hr, if_true]
      apply packPieces_le
      intro s _ _
      exact forceSlice_le cs s
    · simp only [hr, if_false]
      apply packPieces_le
      intro s _ _
      exact splitText_le cs (seps.drop (seps.indexOf (bestSep text seps) + 1)) s
termination_by seps.length
decreasing_by
  exact splitText_rem_lt hr

theorem splitText_ne_nil (cs : Nat) (hcs : cs ≠ 0) (seps : List (List Char))
    (text : List Char) (htext : text ≠ []) :
    ∀ c ∈ splitText text cs seps, c ≠ [] := by
  rw [splitText_eq]
  by_cases hb : text.length ≤ cs
  · simp only [hb, if_true]
    intro c hc
    rcases List.mem_singleton.mp hc with rfl
    exact htext
  · simp only [hb, if_false]
    by_cases hr : (seps.drop (seps.indexOf (bestSep text seps) + 1)).length = 0
    · simp only [hr, if_true]
      apply packPieces_ne_nil
      · intro s hs
        exact splitWithSeparator_piece_ne_nil hs
      · intro s _ _
        exact forceSlice_ne_nil cs hcs s
    · simp only [hr, if_false]
      apply packPieces_ne_nil
      · intro s hs
        exact splitWithSeparator_piece_ne_nil hs
      · intro s hs _
        exact splitText_ne_nil cs hcs (seps.drop (seps.indexOf (bestSep text seps) + 1)) s
          (splitWithSeparator_piece_ne_nil hs)
termination_by seps.length
decreasing_by
  exact splitText_rem_lt hr

theorem takeRight_length_le (k : Nat) (s : List Char) : (takeRight k s).length ≤ k := by
  unfold takeRight
  simp only [List.length_drop]
  omega

theorem addOverlapGo_length (overlap : Nat) :
    ∀ prev l, (addOverlapGo overlap prev l).length = l.length := by
  intro prev l
  induction l generalizing prev with
  | nil => rfl
  | cons c cs ih => simp [addOverlapGo, ih]

theorem addOverlap_length (chunks : List (List Char)) (overlap : Nat) :
    (addOverlap chunks overlap).length = chunks.length := by
  unfold addOverlap
  by_cases h : overlap = 0 ∨ chunks.length ≤ 1
  · simp [h]
  · simp only [h, if_false]
    cases chunks with
    | nil => rfl
    | cons c cs => simp [addOverlapGo_length]

theorem addOverlapGo_le (overlap cs : Nat) :
    ∀ l prev, (∀ c ∈ l, c.length ≤ cs) →
      ∀ w ∈ addOverlapGo overlap prev l, w.length ≤ overlap + cs := by
  intro l
  induction l with
  | nil =>
    intro prev _ w hw
    simp [addOverlapGo] at hw
  | cons c t ih =>
    intro prev hl w hw
    rcases List.mem_cons.mp hw with h1 | h1
    · subst h1
      have h2 := takeRight_length_le overlap prev
      have h3 := hl c (List.mem_cons_self c t)
      simp only [List.length_append]
      omega
    · exact ih c (fun x hx => hl x (List.mem_cons_of_mem c hx)) w h1

theorem addOverlap_le (chunks : List (List Char)) (overlap cs : Nat)
    (hl : ∀ c ∈ chunks, c.length ≤ cs) :
    ∀ w ∈ addOverlap chunks overlap, w.length ≤ overlap + cs := by
  unfold addOverlap
  by_cases h : overlap = 0 ∨ chunks.length ≤ 1
  · simp only [h, if_true]
    intro w hw
    have := hl w hw
    omega
  · simp only [h, if_false]
    cases chunks with
    | nil =>
      intro w hw
      simp at hw
    | cons c cs' =>
      intro w hw
      rcases List.mem_cons.mp hw with h1 | h1
      · subst h1
        have := hl w (List.mem_cons_self w cs')
        omega
      · exact addOverlapGo_le overlap cs cs' c
          (fun x hx => hl x (List.mem_cons_of_mem c hx)) w h1

theorem buildChunks_bounds (n : Nat) (P : List (List Char × List Char))
    (hr : ∀ p ∈ P, p.2 ≠ []) :
    ∀ i off, ∀ c ∈ buildChunks n i off P,
      off ≤ c.startOffset ∧ c.startOffset < c.endOffset ∧
        c.endOffset ≤ off + (P.map (fun p => p.2.length)).sum := by
  induction P with
  | nil =>
    intro i off c hc
    simp [buildChunks] at hc
  | cons p ps ih =>
    intro i off c hc
    obtain ⟨w, r⟩ := p
    have hrs : ∀ q ∈ ps, q.2 ≠ [] := fun q hq => hr q (List.mem_cons_of_mem _ hq)
    have hrlen : 0 < r.length := by
      have := hr (w, r) (List.mem_cons_self _ ps)
      exact List.length_pos.mpr this
    unfold buildChunks at hc
    by_cases ht : trim w = []
    · simp only [ht, if_true] at hc
      have := ih hrs (i + 1) (off + r.length) c hc
      simp only [List.map_cons, List.sum_cons]
      omega
    · simp only [ht, if_false] at hc
      rcases List.mem_cons.mp hc with h1 | h1
      · subst h1
        simp only [List.map_cons, List.sum_cons]
        refine ⟨le_refl _, by omega, by omega⟩
      · have := ih hrs (i + 1) (off + r.length) c h1
        simp only [List.map_cons, List.sum_cons]
        omega

theorem buildChunks_chain (n : Nat) (P : List (List Char × List Char))
    (hr : ∀ p ∈ P, p.2 ≠ []) :
    ∀ i off, List.Chain' (fun a b => a.endOffset ≤ b.startOffset) (buildChunks n i off P) := by
  induction P with
  | nil =>
    intro i off
    simp [buildChunks]
  | cons p ps ih =>
    intro i off
    obtain ⟨w, r⟩ := p
    have hrs : ∀ q ∈ ps, q.2 ≠ [] := fun q hq => hr q (List.mem_cons_of_mem _ hq)
    unfold buildChunks
    by_cases ht : trim w = []
    · simp only [ht, if_true]
      exact ih hrs (i + 1) (off + r.length)
    · simp only [ht, if_false]
      rw [List.chain'_cons']
      constructor
      · intro b hb
        have hmem := List.mem_of_mem_head? hb
        have := (buildChunks_bounds n ps hrs (i + 1) (off + r.length) b hmem).1
        exact this
      · exact ih hrs (i + 1) (off + r.length)

theorem buildChunks_nodrop_cons (n : Nat) (w r : List Char)
    (ps : List (List Char × List Char)) (i off : Nat) (ht : trim w ≠ []) :
    buildChunks n i off ((w, r) :: ps) =
      ⟨trim w, i, n, off, off + r.length⟩ :: buildChunks n (i + 1) (off + r.length) ps := by
  show (if trim w = [] then buildChunks n (i + 1) (off + r.length) ps
    else ⟨trim w, i, n, off, off + r.length⟩ :: buildChunks n (i + 1) (off + r.length) ps) = _
  rw [if_neg ht]

theorem buildChunks_reconstruct (n : Nat) (clean : List Char) :
    ∀ (P : List (List Char × List Char)) (i off : Nat) (pre : List Char),
      (∀ p ∈ P, trim p.1 ≠ []) →
      clean = pre ++ (P.map (fun p => p.2)).flatten →
      off = pre.length →
      ((buildChunks n i off P).map
        (fun c => (clean.drop c.startOffset).take (c.endOffset - c.startOffset))).flatten =
        (P.map (fun p => p.2)).flatten := by
  intro P
  induction P with
  | nil =>
    intro i off pre _ _ _
    simp [buildChunks]
  | cons p ps ih =>
    intro i off pre hnd hsplit hoff
    obtain ⟨w, r⟩ := p
    have ht : trim w ≠ [] := hnd (w, r) (List.mem_cons_self _ ps)
    rw [buildChunks_nodrop_cons n w r ps i off ht]
    simp only [List.map_cons, List.flatten_cons] at hsplit ⊢
    have hdrop : clean.drop off = r ++ (ps.map (fun p => p.2)).flatten := by
      rw [hsplit, hoff, List.drop_left]
    have harith : off + r.length - off = r.length := by omega
    have hextract : (clean.drop off).take (off + r.length - off) = r := by
      rw [harith, hdrop, List.take_left]
    rw [hextract]
    congr 1
    exact ih (i + 1) (off + r.length) (pre ++ r)
      (fun q hq => hnd q (List.mem_cons_of_mem _ hq))
      (by rw [hsplit, List.append_assoc])
      (by simp [hoff])

theorem buildChunks_nodrop_head (n : Nat) :
    ∀ (P : List (List Char × List Char)) (i off : Nat),
      (∀ p ∈ P, trim p.1 ≠ []) → P ≠ [] →
      ∃ c rest, buildChunks n i off P = c :: rest ∧ c.startOffset = off := by
  intro P
  cases P with
  | nil =>
    intro i off _ h
    exact absurd rfl h
  | cons p ps =>
    intro i off hnd _
    obtain ⟨w, r⟩ := p
    have ht : trim w ≠ [] := hnd (w, r) (List.mem_cons_self _ ps)
    exact ⟨_, _, buildChunks_nodrop_cons n w r ps i off ht, rfl⟩

theorem buildChunks_nodrop_chain (n : Nat) :
    ∀ (P : List (List Char × List Char)) (i off : Nat),
      (∀ p ∈ P, trim p.1 ≠ []) →
      List.Chain' (fun a b => a.endOffset = b.startOffset) (buildChunks n i off P) := by
  intro P
  induction P with
  | nil =>
    intro i off _
    simp [buildChunks]
  | cons p ps ih =>
    intro i off hnd
    obtain ⟨w, r⟩ := p
    have ht : trim w ≠ [] := hnd (w, r) (List.mem_cons_self _ ps)
    have hnds : ∀ q ∈ ps, trim q.1 ≠ [] := fun q hq => hnd q (List.mem_cons_of_mem _ hq)
    rw [buildChunks_nodrop_cons n w r ps i off ht, List.chain'_cons']
    constructor
    · intro b hb
      cases hps : ps with
      | nil =>
        subst hps
        simp [buildChunks] at hb
      | cons q qs =>
        obtain ⟨c, rest, hEq, hstart⟩ :=
          buildChunks_nodrop_head n ps (i + 1) (off + r.length) hnds (by rw [hps]; simp)
        rw [hEq] at hb
        simp only [List.head?_cons, Option.mem_def, Option.some.injEq] at hb
        subst hb
        exact hstart.symm
    · exact ih (i + 1) (off + r.length) hnds

theorem buildChunks_nodrop_last (n : Nat) :
    ∀ (P : List (List Char × List Char)) (i off : Nat),
      (∀ p ∈ P, trim p.1 ≠ []) → P ≠ [] →
      (buildChunks n i off P).getLast?.map (fun c => c.endOffset) =
        some (off + (P.map (fun p => p.2.length)).sum) := by
  intro P
  induction P with
  | nil =>
    intro i off _ h
    exact absurd rfl h
  | cons p ps ih =>
    intro i off hnd _
    obtain ⟨w, r⟩ := p
    have ht : trim w ≠ [] := hnd (w, r) (List.mem_cons_self _ ps)
    have hnds : ∀ q ∈ ps, trim q.1 ≠ [] := fun q hq => hnd q (List.mem_cons_of_mem _ hq)
    rw [buildChunks_nodrop_cons n w r ps i off ht]
    cases hps : ps with
    | nil =>
      subst hps
      simp [buildChunks]
    | cons q qs =>
      rw [← hps]
      obtain ⟨c, rest, hEq, _⟩ :=
        buildChunks_nodrop_head n ps (i + 1) (off + r.length) hnds (by rw [hps]; simp)
      rw [hEq, List.getLast?_cons_cons, ← hEq]
      have hih := ih (i + 1) (off + r.length) hnds (by rw [hps]; simp)
      rw [hih]
      simp only [List.map_cons, List.sum_cons]
      congr 1
      omega

theorem buildChunks_text_mem (n : Nat) :
    ∀ (P : List (List Char × List Char)) (i off : Nat),
      ∀ c ∈ buildChunks n i off P, ∃ p ∈ P, c.text = trim p.1 := by
  intro P
  induction P with
  | nil =>
    intro i off c hc
    simp [buildChunks] at hc
  | cons p ps ih =>
    intro i off c hc
    obtain ⟨w, r⟩ := p
    unfold buildChunks at hc
    by_cases ht : trim w = []
    · simp only [ht, if_true] at hc
      obtain ⟨q, hq, hqt⟩ := ih (i + 1) (off + r.length) c hc
      exact ⟨q, List.mem_cons_of_mem _ hq, hqt⟩
    · simp only [ht, if_false] at hc
      rcases List.mem_cons.mp hc with h1 | h1
      · subst h1
        exact ⟨(w, r), List.mem_cons_self _ ps, rfl⟩
      · obtain ⟨q, hq, hqt⟩ := ih (i + 1) (off + r.length) c h1
        exact ⟨q, List.mem_cons_of_mem _ hq, hqt⟩

theorem reindex_length (n : Nat) : ∀ i l, (reindex n i l).length = l.length := by
  intro i l
  induction l generalizing i with
  | nil => rfl
  | cons c rest ih => simp [reindex, ih]

theorem reindex_mem (n : Nat) :
    ∀ l i, ∀ c ∈ reindex n i l,
      ∃ c' ∈ l, c.text = c'.text ∧ c.startOffset = c'.startOffset ∧
        c.endOffset = c'.endOffset := by
  intro l
  induction l with
  | nil =>
    intro i c hc
    simp [reindex] at hc
  | cons x rest ih =>
    intro i c hc
    rcases List.mem_cons.mp hc with h1 | h1
    · subst h1
      exact ⟨x, List.mem_cons_self x rest, rfl, rfl, rfl⟩
    · obtain ⟨c', hc', h'⟩ := ih (i + 1) c h1
      exact ⟨c', List.mem_cons_of_mem _ hc', h'⟩

theorem reindex_total (n : Nat) :
    ∀ l i, ∀ c ∈ reindex n i l, c.totalChunks = n := by
  intro l
  induction l with
  | nil =>
    intro i c hc
    simp [reindex] at hc
  | cons x rest ih =>
    intro i c hc
    rcases List.mem_cons.mp hc with h1 | h1
    · subst h1
      rfl
    · exact ih (i + 1) c h1

theorem reindex_map_chunkIndex (n : Nat) :
    ∀ l i, (reindex n i l).map (fun c => c.chunkIndex) = List.range' i l.length := by
  intro l
  induction l with
  | nil =>
    intro i
    rfl
  | cons x rest ih =>
    intro i
    simp only [reindex, List.map_cons, List.length_cons, List.range'_succ]
    rw [ih (i + 1)]

theorem reindex_map_offsets {α : Type} (g : Nat → Nat → α) (n : Nat) :
    ∀ l i, (reindex n i l).map (fun c => g c.startOffset c.endOffset) =
      l.map (fun c => g c.startOffset c.endOffset) := by
  intro l
  induction l with
  | nil =>
    intro i
    rfl
  | cons x rest ih =>
    intro i
    simp only [reindex, List.map_cons]
    rw [ih (i + 1)]

theorem length_dropWhile_le (p : Char → Bool) (l : List Char) :
    (l.dropWhile p).length ≤ l.length := by
  induction l with
  | nil => simp
  | cons a t ih =>
    rw [List.dropWhile_cons]
    by_cases h : p a
    · simp only [h, if_true]
      simp only [List.length_cons]
      omega
    · simp [h]

theorem trim_length_le (s : List Char) : (trim s).length ≤ s.length := by
  unfold trim trimLeft
  have h1 := length_dropWhile_le isWs s
  have h2 := length_dropWhile_le isWs (s.dropWhile isWs).reverse
  simp only [List.length_reverse] at h2 ⊢
  omega

theorem chunkContent_empty {content : List Char} {cs ov : Nat} {seps : List (List Char)}
    (h : trim content = []) : chunkContent content cs ov seps = [] := by
  unfold chunkContent
  rw [if_pos h]

theorem chunkContent_single {content : List Char} {cs ov : Nat} {seps : List (List Char)}
    (h1 : trim content ≠ []) (h2 : (trim content).length ≤ cs) :
    chunkContent content cs ov seps =
      [⟨trim content, 0, 1, 0, (trim content).length⟩] := by
  unfold chunkContent
  rw [if_neg h1, if_pos h2]

theorem chunkContent_main {content : List Char} {cs ov : Nat} {seps : List (List Char)}
    (h1 : trim content ≠ []) (h2 : ¬ (trim content).length ≤ cs) :
    chunkContent content cs ov seps =
      reindex
        (buildChunks (addOverlap (splitText (trim content) (cs - ov) seps) ov).length 0 0
          ((addOverlap (splitText (trim content) (cs - ov) seps) ov).zip
            (splitText (trim content) (cs - ov) seps))).length 0
        (buildChunks (addOverlap (splitText (trim content) (cs - ov) seps) ov).length 0 0
          ((addOverlap (splitText (trim content) (cs - ov) seps) ov).zip
            (splitText (trim content) (cs - ov) seps))) := by
  unfold chunkContent
  rw [if_neg h1, if_neg h2]

/-- **C5** (chunk sizing): for every text and every `maxSize > overlap ≥ 0`,
*every* chunk returned by `chunkContent` has `text.length ≤ maxSize` — the
force-slice path slices at the packing budget `maxSize - overlap`, which is
even stricter, so the allowed exception for oversized atomic units never
fires; and since every raw chunk is bounded by `maxSize - overlap` and the
prepended overlap adds at most `overlap` characters, prepending the overlap
can never push a chunk past `maxSize`. -/
theorem chunk_sizing (content : List Char) (maxSize overlap : Nat)
    (h : overlap < maxSize) :
    ∀ c ∈ chunkContent content maxSize overlap DEFAULT_SEPARATORS,
      c.text.length ≤ maxSize := by
  by_cases h1 : trim content = []
  · rw [chunkContent_empty h1]
    intro c hc
    simp at hc
  · by_cases h2 : (trim content).length ≤ maxSize
    · rw [chunkContent_single h1 h2]
      intro c hc
      rcases List.mem_singleton.mp hc with rfl
      exact h2
    · rw [chunkContent_main h1 h2]
      intro c hc
      obtain ⟨c', hc', htext, _, _⟩ := reindex_mem _ _ _ c hc
      obtain ⟨p, hp, hpt⟩ := buildChunks_text_mem _ _ _ _ c' hc'
      have hw : p.1 ∈ addOverlap (splitText (trim content) (maxSize - overlap)
          DEFAULT_SEPARATORS) overlap := by
        obtain ⟨q1, q2⟩ := p
        exact (List.of_mem_zip hp).1
      have hwlen : p.1.length ≤ overlap + (maxSize - overlap) :=
        addOverlap_le _ overlap (maxSize - overlap)
          (splitText_le (maxSize - overlap) DEFAULT_SEPARATORS (trim content)) p.1 hw
      have htr := trim_length_le p.1
      rw [htext, hpt]
      omega

/-- Witness for `chunk_sizing` at a concrete input. -/
theorem chunk_sizing_witness :
    (0 : Nat) < 2 ∧
      ∀ c ∈ chunkContent (String.toList "ab  cd") 2 0 DEFAULT_SEPARATORS,
        c.text.length ≤ 2 :=
  ⟨by decide, chunk_sizing (String.toList "ab  cd") 2 0 (by decide)⟩

/-- **C9** (index contiguity): for every input text and options, the sequence
returned by `chunkContent` (after empty-after-trim chunks are dropped) has
`chunkIndex` values exactly `0..n-1` in order, and every element carries
`totalChunks = n`, where `n` is the length of the returned sequence. -/
theorem chunk_index_contiguous (content : List Char) (cs ov : Nat)
    (seps : List (List Char)) :
    ((chunkContent content cs ov seps).map (fun c => c.chunkIndex) =
      List.range (chunkContent content cs ov seps).length) ∧
    ∀ c ∈ chunkContent content cs ov seps,
      c.totalChunks = (chunkContent content cs ov seps).length := by
  by_cases h1 : trim content = []
  · rw [chunkContent_empty h1]
    exact ⟨rfl, by intro c hc; simp at hc⟩
  · by_cases h2 : (trim content).length ≤ cs
    · rw [chunkContent_single h1 h2]
      constructor
      · simp [List.range_succ]
      · intro c hc
        rcases List.mem_singleton.mp hc with rfl
        rfl
    · rw [chunkContent_main h1 h2]
      constructor
      · rw [reindex_map_chunkIndex, reindex_length]
        exact (List.range_eq_range' _).symm
      · intro c hc
        rw [reindex_length]
        exact reindex_total _ _ _ c hc

/-- Witness for `chunk_index_contiguous` at a concrete input (the membership
side instantiated at the second surviving chunk). -/
theorem chunk_index_contiguous_witness :
    ((chunkContent (String.toList "ab  cd") 2 0 DEFAULT_SEPARATORS).map
        (fun c => c.chunkIndex) =
      List.range (chunkContent (String.toList "ab  cd") 2 0 DEFAULT_SEPARATORS).length) ∧
    (⟨String.toList "cd", 1, 2, 4, 6⟩ : TextChunk).totalChunks =
      (chunkContent (String.toList "ab  cd") 2 0 DEFAULT_SEPARATORS).length :=
  ⟨(chunk_index_contiguous (String.toList "ab  cd") 2 0 DEFAULT_SEPARATORS).1,
    (chunk_index_contiguous (String.toList "ab  cd") 2 0 DEFAULT_SEPARATORS).2
      ⟨String.toList "cd", 1, 2, 4, 6⟩ (by decide)⟩

theorem flatten_length (L : List (List Char)) :
    L.flatten.length = (L.map (fun l => l.length)).sum := by
  induction L with
  | nil => rfl
  | cons x t ih => simp [ih]

theorem reindex_chain (p : Nat → Nat → Prop) (n : Nat) :
    ∀ l i, List.Chain' (fun a b => p a.endOffset b.startOffset) l →
      List.Chain' (fun a b => p a.endOffset b.startOffset) (reindex n i l) := by
  intro l
  induction l with
  | nil =>
    intro i _
    simp [reindex]
  | cons x t ih =>
    intro i hch
    rw [List.chain'_cons'] at hch
    show List.Chain' _ ({ x with chunkIndex := i, totalChunks := n } :: reindex n (i + 1) t)
    rw [List.chain'_cons']
    constructor
    · intro b hb
      cases t with
      | nil => simp [reindex] at hb
      | cons y t' =>
        have hb2 : b = { y with chunkIndex := i + 1, totalChunks := n } := by
          simp only [reindex, List.head?_cons, Option.mem_def, Option.some.injEq] at hb
          exact hb.symm
        subst hb2
        exact hch.1 y rfl
    · exact ih (i + 1) hch.2

/-- **C2 counterexample**: on `"ab  cd"` with `maxSize = 2 > overlap = 0`,
`chunkContent` drops two whitespace-only chunks, so the surviving offset
ranges are `[0,2)` and `[4,6)` — they have a gap, and concatenating the
trimmed input's substrings at those ranges gives `"abcd"`, not the trimmed
input `"ab  cd"`. -/
theorem chunk_coverage_counterexample :
    ((chunkContent (String.toList "ab  cd") 2 0 DEFAULT_SEPARATORS).map
      (fun c => (c.startOffset, c.endOffset)) = [(0, 2), (4, 6)]) ∧
    ¬ (((chunkContent (String.toList "ab  cd") 2 0 DEFAULT_SEPARATORS).map
        (fun c => ((trim (String.toList "ab  cd")).drop c.startOffset).take
          (c.endOffset - c.startOffset))).flatten =
      trim (String.toList "ab  cd")) := by
  constructor
  · decide
  · decide

/-- **C2 amended** (chunk coverage): for every text and every
`maxSize > overlap ≥ 0`, the offset ranges `[startOffset, endOffset)` of the
chunks returned by `chunkContent` are pairwise disjoint and in ascending
order (consecutive ranges satisfy `end ≤ start`, each range is non-empty and
lies inside the trimmed input); they are moreover gap-free and their
substrings concatenate back to the trimmed input *provided no chunk is
dropped as empty-after-trim* — a whitespace-only chunk is dropped while its
raw span is skipped, which can leave gaps (see
`chunk_coverage_counterexample`). -/
theorem chunk_coverage_amended (content : List Char) (maxSize overlap : Nat)
    (h : overlap < maxSize) :
    (List.Chain' (fun a b => a.endOffset ≤ b.startOffset)
        (chunkContent content maxSize overlap DEFAULT_SEPARATORS) ∧
      ∀ c ∈ chunkContent content maxSize overlap DEFAULT_SEPARATORS,
        c.startOffset < c.endOffset ∧ c.endOffset ≤ (trim content).length) ∧
    ((∀ w ∈ addOverlap (splitText (trim content) (maxSize - overlap) DEFAULT_SEPARATORS)
          overlap, trim w ≠ []) →
      ((chunkContent content maxSize overlap DEFAULT_SEPARATORS).map
          (fun c => ((trim content).drop c.startOffset).take
            (c.endOffset - c.startOffset))).flatten = trim content ∧
      List.Chain' (fun a b => a.endOffset = b.startOffset)
        (chunkContent content maxSize overlap DEFAULT_SEPARATORS) ∧
      (chunkContent content maxSize overlap DEFAULT_SEPARATORS ≠ [] →
        (chunkContent content maxSize overlap DEFAULT_SEPARATORS).head?.map
            (fun c => c.startOffset) = some 0 ∧
          (chunkContent content maxSize overlap DEFAULT_SEPARATORS).getLast?.map
            (fun c => c.endOffset) = some (trim content).length)) := by
  have hcs : maxSize - overlap ≠ 0 := by omega
  by_cases h1 : trim content = []
  · rw [chunkContent_empty h1]
    refine ⟨⟨List.chain'_nil, ?_⟩, ?_⟩
    · intro c hc
      simp at hc
    · intro _
      refine ⟨?_, List.chain'_nil, ?_⟩
      · rw [h1]
        rfl
      · intro hne
        exact absurd rfl hne
  · by_cases h2 : (trim content).length ≤ maxSize
    · rw [chunkContent_single h1 h2]
      have hpos : 0 < (trim content).length := List.length_pos.mpr h1
      refine ⟨⟨List.chain'_singleton _, ?_⟩, ?_⟩
      · intro c hc
        rcases List.mem_singleton.mp hc with rfl
        exact ⟨hpos, le_refl _⟩
      · intro _
        refine ⟨?_, List.chain'_singleton _, ?_⟩
        · simp
        · intro _
          constructor
          · rfl
          · rfl
    · rw [chunkContent_main h1 h2]
      set RAW := splitText (trim content) (maxSize - overlap) DEFAULT_SEPARATORS with hRAW
      set WO := addOverlap RAW overlap with hWO
      set P := WO.zip RAW with hP
      set PRE := buildChunks WO.length 0 0 P with hPRE
      have hraw_ne : ∀ r ∈ RAW, r ≠ [] :=
        splitText_ne_nil (maxSize - overlap) hcs DEFAULT_SEPARATORS (trim content) h1
      have hlen_eq : WO.length = RAW.length := addOverlap_length RAW overlap
      have hsnd : P.map (fun p => p.2) = RAW := by
        rw [hP]
        apply List.map_snd_zip
        omega
      have hr : ∀ p ∈ P, p.2 ≠ [] := by
        intro p hp
        obtain ⟨q1, q2⟩ := p
        exact hraw_ne _ (List.of_mem_zip hp).2
      have hflat : RAW.flatten = trim content :=
        splitText_flatten (maxSize - overlap) hcs DEFAULT_SEPARATORS (trim content)
      have hsum : (P.map (fun p => p.2.length)).sum = (trim content).length := by
        have hmm : P.map (fun p => p.2.length) =
            (P.map (fun p => p.2)).map (fun l => l.length) := by
          rw [List.map_map]
          rfl
        rw [hmm, hsnd, ← flatten_length, hflat]
      constructor
      · constructor
        · have hchain := buildChunks_chain WO.length P hr 0 0
          rw [← hPRE] at hchain
          exact reindex_chain (fun a b => a ≤ b) PRE.length PRE 0 hchain
        · intro c hc
          obtain ⟨c', hc', _, hs, he⟩ := reindex_mem PRE.length PRE 0 c hc
          have hb := buildChunks_bounds WO.length P hr 0 0 c' hc'
          rw [hs, he]
          refine ⟨hb.2.1, ?_⟩
          have h3 := hb.2.2
          omega
      · intro hnd
        have hnd' : ∀ p ∈ P, trim p.1 ≠ [] := by
          intro p hp
          obtain ⟨q1, q2⟩ := p
          exact hnd _ (List.of_mem_zip hp).1
        refine ⟨?_, ?_, ?_⟩
        · have hmap := reindex_map_offsets
            (fun a b => ((trim content).drop a).take (b - a)) PRE.length PRE 0
          rw [hmap]
          have hrec := buildChunks_reconstruct WO.length (trim content) P 0 0 [] hnd'
            (by rw [hsnd, hflat]; rfl) rfl
          rw [← hPRE] at hrec
          rw [hrec, hsnd, hflat]
        · have hchain := buildChunks_nodrop_chain WO.length P 0 0 hnd'
          rw [← hPRE] at hchain
          exact reindex_chain (fun a b => a = b) PRE.length PRE 0 hchain
        · intro hne
          have hpre_ne : PRE ≠ [] := by
            intro habs
            apply hne
            rw [habs]
            rfl
          have hP_ne : P ≠ [] := by
            intro habs
            apply hpre_ne
            rw [hPRE, habs]
            rfl
          constructor
          · obtain ⟨c, rest, hEq, hstart⟩ :=
              buildChunks_nodrop_head WO.length P 0 0 hnd' hP_ne
            have hmap := reindex_map_offsets (fun a _ => a) PRE.length PRE 0
            have hh : (reindex PRE.length 0 PRE).head?.map
                (fun c : TextChunk => c.startOffset) =
                ((reindex PRE.length 0 PRE).map
                  (fun c : TextChunk => c.startOffset)).head? := by
              rw [List.head?_map]
            rw [hh, hmap, hPRE, hEq]
            simp [hstart]
          · have hlast := buildChunks_nodrop_last WO.length P 0 0 hnd' hP_ne
            have hh : (reindex PRE.length 0 PRE).getLast?.map
                (fun c : TextChunk => c.endOffset) =
                ((reindex PRE.length 0 PRE).map
                  (fun c : TextChunk => c.endOffset)).getLast? := by
              rw [List.getLast?_map]
            have hmap := reindex_map_offsets (fun _ b => b) PRE.length PRE 0
            have hh2 : PRE.getLast?.map (fun c : TextChunk => c.endOffset) =
                (PRE.map (fun c : TextChunk => c.endOffset)).getLast? := by
              rw [List.getLast?_map]
            rw [hh, hmap, ← hh2, hPRE, hlast]
            rw [hsum, Nat.zero_add]

/-- Witness for `chunk_coverage_amended` at a concrete input on which no
chunk is dropped. -/
theorem chunk_coverage_amended_witness :
    (2 : Nat) < 8 ∧
    (∀ w ∈ addOverlap (splitText (trim (String.toList "hello world this is a test"))
        (8 - 2) DEFAULT_SEPARATORS) 2, trim w ≠ []) ∧
    ((chunkContent (String.toList "hello world this is a test") 8 2
        DEFAULT_SEPARATORS).map
      (fun c => ((trim (String.toList "hello world this is a test")).drop c.startOffset).take
        (c.endOffset - c.startOffset))).flatten =
      trim (String.toList "hello world this is a test") :=
  ⟨by decide, by decide,
    ((chunk_coverage_amended (String.toList "hello world this is a test") 8 2
      (by decide)).2 (by decide)).1⟩

theorem packStepF_some (cs : Nat) (handleF : List Char → Option (List (List Char)))
    (chs : List (List Char)) (cur split : List Char) :
    packStepF cs handleF (some (chs, cur)) split =
      if (cur ++ split).length ≤ cs then some (chs, cur ++ split)
      else if cs < split.length then
        (match handleF split with
         | none => none
         | some hs => some ((if cur = [] then chs else chs ++ [cur]) ++ hs, []))
      else some ((if cur = [] then chs else chs ++ [cur]), split) := rfl

theorem packStepF_none (cs : Nat) (handleF : List Char → Option (List (List Char)))
    (split : List Char) : packStepF cs handleF none split = none := rfl

theorem packStepF_foldl_none (cs : Nat) (handleF : List Char → Option (List (List Char))) :
    ∀ pieces : List (List Char), pieces.foldl (packStepF cs handleF) none = none := by
  intro pieces
  induction pieces with
  | nil => rfl
  | cons p ps ih =>
    simp only [List.foldl_cons, packStepF_none]
    exact ih

theorem packStepF_foldl_complete (cs : Nat)
    (handleF : List Char → Option (List (List Char)))
    (handle : List Char → List (List Char)) (pieces : List (List Char))
    (hh : ∀ s ∈ pieces, cs < s.length → handleF s = some (handle s)) :
    ∀ chs cur,
      pieces.foldl (packStepF cs handleF) (some (chs, cur)) =
        some (pieces.foldl (packStep cs handle) (chs, cur)) := by
  induction pieces with
  | nil =>
    intro chs cur
    rfl
  | cons p ps ih =>
    intro chs cur
    have hhps : ∀ s ∈ ps, cs < s.length → handleF s = some (handle s) := by
      intro s hs
      exact hh s (List.mem_cons_of_mem p hs)
    simp only [List.foldl_cons, packStepF_some]
    by_cases h1 : (cur ++ p).length ≤ cs
    · rw [if_pos h1, packStep_fits h1]
      exact ih hhps chs (cur ++ p)
    · rw [if_neg h1]
      by_cases h2 : cs < p.length
      · rw [if_pos h2, hh p (List.mem_cons_self p ps) h2, packStep_big h1 h2]
        exact ih hhps _ []
      · rw [if_neg h2, packStep_small h1 h2]
        exact ih hhps _ p

theorem packPiecesF_complete (cs : Nat)
    (handleF : List Char → Option (List (List Char)))
    (handle : List Char → List (List Char)) (pieces : List (List Char))
    (hh : ∀ s ∈ pieces, cs < s.length → handleF s = some (handle s)) :
    packPiecesF cs handleF pieces = some (packPieces cs handle pieces) := by
  unfold packPiecesF packPieces
  rw [packStepF_foldl_complete cs handleF handle pieces hh [] []]
  rfl

theorem forceSliceGo_none (s : List Char) :
    ∀ fuel i, i < s.length → forceSliceGo 0 s fuel i = none := by
  intro fuel
  induction fuel with
  | zero =>
    intro i _
    rfl
  | succ fuel ih =>
    intro i hi
    show (if i < s.length then (forceSliceGo 0 s fuel (i + 0)).map _ else some []) = none
    rw [if_pos hi]
    have : i + 0 = i := rfl
    rw [this, ih i hi]
    rfl

theorem forceSliceGo_complete (k : Nat) (hk : k ≠ 0) (s : List Char) :
    ∀ fuel i, s.length - i < fuel →
      forceSliceGo k s fuel i = some (forceSlice k (s.drop i)) := by
  intro fuel
  induction fuel with
  | zero =>
    intro i hi
    omega
  | succ fuel ih =>
    intro i hi
    show (if i < s.length then (forceSliceGo k s fuel (i + k)).map _ else some []) = _
    by_cases hlt : i < s.length
    · rw [if_pos hlt, ih (i + k) (by omega)]
      have hdp : (s.drop i) ≠ [] := by
        intro habs
        have := congrArg List.length habs
        simp only [List.length_drop, List.length_nil] at this
        omega
      conv_rhs => rw [forceSlice_eq]
      rw [if_neg hk, if_neg hdp]
      have hdd : (s.drop i).drop k = s.drop (i + k) := by
        rw [List.drop_drop]
      rw [hdd]
      rfl
    · rw [if_neg hlt]
      have hdp : s.drop i = [] := by
        apply List.drop_eq_nil_of_le
        omega
      rw [hdp, forceSlice_eq]
      rw [if_neg hk]
      simp

theorem forceSliceF_complete (k : Nat) (hk : k ≠ 0) (s : List Char) (fuel : Nat)
    (hfuel : s.length < fuel) : forceSliceF k s fuel = some (forceSlice k s) := by
  unfold forceSliceF
  rw [forceSliceGo_complete k hk s fuel 0 (by omega)]
  rfl

theorem splitTextF_complete (cs : Nat) (hcs : cs ≠ 0) (seps : List (List Char))
    (text : List Char) (lf : Nat) (hlf : text.length < lf) :
    splitTextF lf text cs seps = some (splitText text cs seps) := by
  rw [splitTextF_eq, splitText_eq]
  by_cases hb : text.length ≤ cs
  · rw [if_pos hb, if_pos hb]
  · rw [if_neg hb, if_neg hb]
    by_cases hr : (seps.drop (seps.indexOf (bestSep text seps) + 1)).length = 0
    · rw [if_pos hr, if_pos hr]
      apply packPiecesF_complete
      intro s hs _
      have hsl := splitWithSeparator_piece_le hs
      exact forceSliceF_complete cs hcs s lf (by omega)
    · rw [if_neg hr, if_neg hr]
      apply packPiecesF_complete
      intro s hs _
      have hsl := splitWithSeparator_piece_le hs
      exact splitTextF_complete cs hcs (seps.drop (seps.indexOf (bestSep text seps) + 1))
        s lf (by omega)
termination_by seps.length
decreasing_by
  exact splitText_rem_lt hr

theorem chunkContentF_empty {lf : Nat} {content : List Char} {cs ov : Nat}
    {seps : List (List Char)} (h : trim content = []) :
    chunkContentF lf content cs ov seps = some [] := by
  unfold chunkContentF
  rw [if_pos h]

theorem chunkContentF_single {lf : Nat} {content : List Char} {cs ov : Nat}
    {seps : List (List Char)} (h1 : trim content ≠ []) (h2 : (trim content).length ≤ cs) :
    chunkContentF lf content cs ov seps =
      some [⟨trim content, 0, 1, 0, (trim content).length⟩] := by
  unfold chunkContentF
  rw [if_neg h1, if_pos h2]

theorem chunkContentF_main {lf : Nat} {content : List Char} {cs ov : Nat}
    {seps : List (List Char)} (h1 : trim content ≠ []) (h2 : ¬ (trim content).length ≤ cs) :
    chunkContentF lf content cs ov seps =
      (splitTextF lf (trim content) (cs - ov) seps).map
        (fun rawChunks =>
          reindex
            (buildChunks (addOverlap rawChunks ov).length 0 0
              ((addOverlap rawChunks ov).zip rawChunks)).length 0
            (buildChunks (addOverlap rawChunks ov).length 0 0
              ((addOverlap rawChunks ov).zip rawChunks))) := by
  unfold chunkContentF
  rw [if_neg h1, if_neg h2]

/-- **C10** (chunker termination): with the loop fuel made explicit,
(1) whenever `maxSize > overlap ≥ 0`, fuel `(trim content).length + 1` is
enough for every force-slice loop, and the fueled pipeline computes exactly
`chunkContent` — the recursion is well-founded because each recursive
`splitText` call strictly shrinks the separator list and the force-slice
loop advances by a positive step; (2) for `maxSize ≤ overlap` (here
`maxSize = overlap = 1`, giving packing budget `0`) the configuration is not
rejected, the splitter reaches character-level splitting, and the
force-slice loop never terminates: no amount of fuel produces a result. -/
theorem chunker_termination :
    (∀ (content : List Char) (maxSize overlap : Nat), overlap < maxSize →
      chunkContentF ((trim content).length + 1) content maxSize overlap
          DEFAULT_SEPARATORS =
        some (chunkContent content maxSize overlap DEFAULT_SEPARATORS)) ∧
    (∀ fuel : Nat,
      chunkContentF fuel (String.toList "abc") 1 1 DEFAULT_SEPARATORS = none) := by
  constructor
  · intro content maxSize overlap h
    have hcs : maxSize - overlap ≠ 0 := by omega
    by_cases h1 : trim content = []
    · rw [chunkContentF_empty h1, chunkContent_empty h1]
    · by_cases h2 : (trim content).length ≤ maxSize
      · rw [chunkContentF_single h1 h2, chunkContent_single h1 h2]
      · rw [chunkContentF_main h1 h2, chunkContent_main h1 h2]
        rw [splitTextF_complete (maxSize - overlap) hcs DEFAULT_SEPARATORS (trim content)
          ((trim content).length + 1) (by omega)]
        rfl
  · intro fuel
    have h1 : trim (String.toList "abc") ≠ [] := by decide
    have h2 : ¬ (trim (String.toList "abc")).length ≤ 1 := by decide
    rw [chunkContentF_main h1 h2]
    have htrim : trim (String.toList "abc") = String.toList "abc" := by decide
    rw [htrim]
    have hnone : splitTextF fuel (String.toList "abc") (1 - 1) DEFAULT_SEPARATORS = none := by
      rw [splitTextF_eq]
      rw [if_neg (by decide)]
      have hbest : bestSep (String.toList "abc") DEFAULT_SEPARATORS = [] := by decide
      rw [hbest]
      rw [if_pos (by decide)]
      have hpieces : splitWithSeparator (String.toList "abc") [] =
          [['a'], ['b'], ['c']] := by decide
      rw [hpieces]
      unfold packPiecesF
      have hfs : forceSliceF (1 - 1) ['a'] fuel = none := by
        unfold forceSliceF
        exact forceSliceGo_none ['a'] fuel 0 (by decide)
      have h1step : packStepF (1 - 1) (fun s => forceSliceF (1 - 1) s fuel)
          (some ([], [])) ['a'] = none := by
        rw [packStepF_some]
        rw [if_neg (by decide), if_pos (by decide)]
        rw [hfs]
      simp only [List.foldl_cons, h1step, packStepF_none]
      rfl
    rw [hnone]
    rfl

/-- Witness for `chunker_termination` at a concrete configuration. -/
theorem chunker_termination_witness :
    ((0 : Nat) < 2 ∧
      chunkContentF ((trim (String.toList "ab  cd")).length + 1)
          (String.toList "ab  cd") 2 0 DEFAULT_SEPARATORS =
        some (chunkContent (String.toList "ab  cd") 2 0 DEFAULT_SEPARATORS)) ∧
    chunkContentF 7 (String.toList "abc") 1 1 DEFAULT_SEPARATORS = none :=
  ⟨⟨by decide, chunker_termination.1 (String.toList "ab  cd") 2 0 (by decide)⟩,
    chunker_termination.2 7⟩

end Chunking

namespace Sync

theorem lookup_foldl (d : String) :
    ∀ (l : List StrapiRec) (acc : Option StrapiRec),
      l.foldl (fun acc r => if r.documentId = d then some r else acc) acc =
        match strapiLookup l d with
        | some x => some x
        | none => acc := by
  intro l
  induction l with
  | nil =>
    intro acc
    rfl
  | cons r t ih =>
    intro acc
    show t.foldl _ (if r.documentId = d then some r else acc) = _
    rw [ih]
    have hr : strapiLookup (r :: t) d =
        match strapiLookup t d with
        | some x => some x
        | none => if r.documentId = d then some r else none := by
      show t.foldl _ (if r.documentId = d then some r else none) = _
      rw [ih]
    rw [hr]
    cases strapiLookup t d with
    | none =>
      by_cases h : r.documentId = d
      · simp [h]
      · simp [h]
    | some x => rfl

theorem lookup_cons (r : StrapiRec) (t : List StrapiRec) (d : String) :
    strapiLookup (r :: t) d =
      match strapiLookup t d with
      | some x => some x
      | none => if r.documentId = d then some r else none := by
  show t.foldl _ (if r.documentId = d then some r else none) = _
  rw [lookup_foldl]

theorem lookup_append_single (l : List StrapiRec) (r : StrapiRec) (d : String) :
    strapiLookup (l ++ [r]) d =
      if r.documentId = d then some r else strapiLookup l d := by
  unfold strapiLookup
  rw [List.foldl_append]
  show (if r.documentId = d then some r else _) = _
  rw [lookup_foldl]

theorem lookup_update (l : List StrapiRec) (d' : String) (f : StrapiRec → StrapiRec)
    (hf : ∀ r, (f r).documentId = r.documentId) (d : String) :
    strapiLookup (storeUpdate l d' f) d =
      if d = d' then (strapiLookup l d).map f else strapiLookup l d := by
  induction l with
  | nil =>
    by_cases h : d = d' <;> simp [storeUpdate, strapiLookup, h]
  | cons r t ih =>
    have hstep : storeUpdate (r :: t) d' f =
        (if r.documentId = d' then f r else r) :: storeUpdate t d' f := rfl
    have hdoc : (if r.documentId = d' then f r else r).documentId = r.documentId := by
      by_cases h : r.documentId = d'
      · rw [if_pos h, hf]
      · rw [if_neg h]
    rw [hstep, lookup_cons, ih, lookup_cons]
    by_cases hdd : d = d'
    · subst hdd
      simp only [if_pos rfl]
      cases h : strapiLookup t d with
      | some x => rfl
      | none =>
        by_cases hrd : r.documentId = d
        · simp [hrd, hf]
        · simp [hrd, hf]
    · simp only [if_neg hdd]
      cases h : strapiLookup t d with
      | some x => rfl
      | none =>
        by_cases hrd : r.documentId = d
        · have hnd' : ¬ r.documentId = d' := by
            rw [hrd]
            exact hdd
          rw [if_neg hnd']
        · simp [hrd, hdoc]

theorem lookup_delete (l : List StrapiRec) (d' d : String) :
    strapiLookup (storeDelete l d') d =
      if d = d' then none else strapiLookup l d := by
  induction l with
  | nil =>
    by_cases h : d = d' <;> simp [storeDelete, strapiLookup, h]
  | cons r t ih =>
    by_cases hkeep : r.documentId = d'
    · have hstep : storeDelete (r :: t) d' = storeDelete t d' := by
        unfold storeDelete
        simp [hkeep]
      rw [hstep, ih, lookup_cons]
      by_cases hdd : d = d'
      · simp [hdd]
      · simp only [if_neg hdd]
        cases h : strapiLookup t d with
        | some x => rfl
        | none =>
          have hrd : ¬ r.documentId = d := by
            rw [hkeep]
            exact fun hh => hdd hh.symm
          simp [hrd]
    · have hstep : storeDelete (r :: t) d' = r :: storeDelete t d' := by
        unfold storeDelete
        simp [hkeep]
      rw [hstep, lookup_cons, ih, lookup_cons]
      by_cases hdd : d = d'
      · simp only [if_pos hdd]
        have hrd : ¬ r.documentId = d := by
          rw [hdd]
          exact hkeep
        simp [hrd]
      · simp only [if_neg hdd]

theorem neonStep_dry_store (snap : List StrapiRec) (acc : Acc) (n : NeonRec) :
    (neonStep true snap acc n).store = acc.store := by
  unfold neonStep
  by_cases h1 : n.strapiId = ""
  · rw [if_pos h1]
  · rw [if_neg h1]
    cases hl : strapiLookup snap n.strapiId with
    | none => rfl
    | some ex =>
      cases hc : changed n ex <;> simp [hc]

theorem neonFold_dry_store (snap : List StrapiRec) (l : List NeonRec) :
    ∀ acc : Acc, (l.foldl (neonStep true snap) acc).store = acc.store := by
  induction l with
  | nil => intro acc; rfl
  | cons n t ih =>
    intro acc
    rw [List.foldl_cons, ih, neonStep_dry_store]

theorem orphanStep_dry_store (neon : List NeonRec) (acc : Acc) (r : StrapiRec) :
    (orphanStep true neon acc r).store = acc.store := by
  unfold orphanStep
  cases h1 : neonHas neon r.documentId <;> simp [h1]

theorem orphanFold_dry_store (neon : List NeonRec) (l : List StrapiRec) :
    ∀ acc : Acc, (l.foldl (orphanStep true neon) acc).store = acc.store := by
  induction l with
  | nil => intro acc; rfl
  | cons r t ih =>
    intro acc
    rw [List.foldl_cons, ih, orphanStep_dry_store]

theorem neonStep_acts_parity (d d' : Bool) (snap : List StrapiRec) (n : NeonRec)
    (acc acc' : Acc) (ha : acc.acts = acc'.acts) (he : acc.errs = acc'.errs) :
    (neonStep d snap acc n).acts = (neonStep d' snap acc' n).acts ∧
      (neonStep d snap acc n).errs = (neonStep d' snap acc' n).errs := by
  unfold neonStep
  by_cases h1 : n.strapiId = ""
  · simp [h1, ha, he]
  · rw [if_neg h1, if_neg h1]
    cases hl : strapiLookup snap n.strapiId with
    | none => cases d <;> cases d' <;> simp [ha, he]
    | some ex => cases hc : changed n ex <;> cases d <;> cases d' <;> simp [hc, ha, he]

theorem neonFold_acts_parity (d d' : Bool) (snap : List StrapiRec) (l : List NeonRec) :
    ∀ acc acc' : Acc, acc.acts = acc'.acts → acc.errs = acc'.errs →
      (l.foldl (neonStep d snap) acc).acts = (l.foldl (neonStep d' snap) acc').acts ∧
        (l.foldl (neonStep d snap) acc).errs = (l.foldl (neonStep d' snap) acc').errs := by
  induction l with
  | nil => intro acc acc' ha he; exact ⟨ha, he⟩
  | cons n t ih =>
    intro acc acc' ha he
    obtain ⟨ha2, he2⟩ := neonStep_acts_parity d d' snap n acc acc' ha he
    exact ih _ _ ha2 he2

theorem orphanStep_acts_parity (d d' : Bool) (neon : List NeonRec) (r : StrapiRec)
    (acc acc' : Acc) (ha : acc.acts = acc'.acts) (he : acc.errs = acc'.errs) :
    (orphanStep d neon acc r).acts = (orphanStep d' neon acc' r).acts ∧
      (orphanStep d neon acc r).errs = (orphanStep d' neon acc' r).errs := by
  unfold orphanStep
  cases h1 : neonHas neon r.documentId <;> cases d <;> cases d' <;> simp [h1, ha, he]

theorem orphanFold_acts_parity (d d' : Bool) (neon : List NeonRec) (l : List StrapiRec) :
    ∀ acc acc' : Acc, acc.acts = acc'.acts → acc.errs = acc'.errs →
      (l.foldl (orphanStep d neon) acc).acts = (l.foldl (orphanStep d' neon) acc').acts ∧
        (l.foldl (orphanStep d neon) acc).errs = (l.foldl (orphanStep d' neon) acc').errs := by
  induction l with
  | nil => intro acc acc' ha he; exact ⟨ha, he⟩
  | cons r t ih =>
    intro acc acc' ha he
    obtain ⟨ha2, he2⟩ := orphanStep_acts_parity d d' neon r acc acc' ha he
    exact ih _ _ ha2 he2

theorem syncFromNeon_eq (ro d : Bool) (st : SyncState) :
    syncFromNeon ro d st =
      (let acc1 := st.neon.foldl (neonStep d st.strapi) ⟨st.strapi, ⟨0, 0, 0⟩, 0⟩
       let acc2 := if ro then st.strapi.foldl (orphanStep d st.neon) acc1 else acc1
       ({ neon := st.neon, strapi := acc2.store }, acc2.acts, acc2.errs)) := rfl

/-- **C4** (dry-run frame): dry-run reconciliation is non-destructive and
classification-complete: for every pair of store snapshots, `syncFromNeon`
with `dryRun = true` leaves both stores unchanged (the returned state equals
the input state), while its reported action counts (and error count) equal
those of a non-dry run; on the fixture of 10 vector records and 8 mirror
records with 7 identical overlaps and one orphan,
`reconcile(removeOrphans := true, dryRun := true)` reports
`created = 3, updated = 0, orphansRemoved = 1` and returns the stores
unchanged. -/
theorem dry_run_frame :
    (∀ (ro : Bool) (st : SyncState), (syncFromNeon ro true st).1 = st)
    ∧ (∀ (ro : Bool) (st : SyncState),
        (syncFromNeon ro true st).2.1 = (syncFromNeon ro false st).2.1 ∧
          (syncFromNeon ro true st).2.2 = (syncFromNeon ro false st).2.2)
    ∧ (syncFromNeon true true
        ⟨[⟨"e0", "s0", "T0", "c0", "api::page.page", "content"⟩,
          ⟨"e1", "s1", "T1", "c1", "api::page.page", "content"⟩,
          ⟨"e2", "s2", "T2", "c2", "api::page.page", "content"⟩,
          ⟨"e3", "s3", "T3", "c3", "api::page.page", "content"⟩,
          ⟨"e4", "s4", "T4", "c4", "api::page.page", "content"⟩,
          ⟨"e5", "s5", "T5", "c5", "api::page.page", "content"⟩,
          ⟨"e6", "s6", "T6", "c6", "api::page.page", "content"⟩,
          ⟨"e7", "s7", "T7", "c7", "api::page.page", "content"⟩,
          ⟨"e8", "s8", "T8", "c8", "api::page.page", "content"⟩,
          ⟨"e9", "s9", "T9", "c9", "api::page.page", "content"⟩],
         [⟨"s0", "T0", "c0", "e0", "api::page.page", "content"⟩,
          ⟨"s1", "T1", "c1", "e1", "api::page.page", "content"⟩,
          ⟨"s2", "T2", "c2", "e2", "api::page.page", "content"⟩,
          ⟨"s3", "T3", "c3", "e3", "api::page.page", "content"⟩,
          ⟨"s4", "T4", "c4", "e4", "api::page.page", "content"⟩,
          ⟨"s5", "T5", "c5", "e5", "api::page.page", "content"⟩,
          ⟨"s6", "T6", "c6", "e6", "api::page.page", "content"⟩,
          ⟨"x8", "TX", "cx", "ex", "api::page.page", "content"⟩]⟩ =
        (⟨[⟨"e0", "s0", "T0", "c0", "api::page.page", "content"⟩,
           ⟨"e1", "s1", "T1", "c1", "api::page.page", "content"⟩,
           ⟨"e2", "s2", "T2", "c2", "api::page.page", "content"⟩,
           ⟨"e3", "s3", "T3", "c3", "api::page.page", "content"⟩,
           ⟨"e4", "s4", "T4", "c4", "api::page.page", "content"⟩,
           ⟨"e5", "s5", "T5", "c5", "api::page.page", "content"⟩,
           ⟨"e6", "s6", "T6", "c6", "api::page.page", "content"⟩,
           ⟨"e7", "s7", "T7", "c7", "api::page.page", "content"⟩,
           ⟨"e8", "s8", "T8", "c8", "api::page.page", "content"⟩,
           ⟨"e9", "s9", "T9", "c9", "api::page.page", "content"⟩],
          [⟨"s0", "T0", "c0", "e0", "api::page.page", "content"⟩,
           ⟨"s1", "T1", "c1", "e1", "api::page.page", "content"⟩,
           ⟨"s2", "T2", "c2", "e2", "api::page.page", "content"⟩,
           ⟨"s3", "T3", "c3", "e3", "api::page.page", "content"⟩,
           ⟨"s4", "T4", "c4", "e4", "api::page.page", "content"⟩,
           ⟨"s5", "T5", "c5", "e5", "api::page.page", "content"⟩,
           ⟨"s6", "T6", "c6", "e6", "api::page.page", "content"⟩,
           ⟨"x8", "TX", "cx", "ex", "api::page.page", "content"⟩]⟩,
         ⟨3, 0, 1⟩, 0)) := by
  refine ⟨?_, ?_, ?_⟩
  · intro ro st
    rw [syncFromNeon_eq]
    cases ro with
    | false =>
      show ({ neon := st.neon
            , strapi := (st.neon.foldl (neonStep true st.strapi)
                ⟨st.strapi, ⟨0, 0, 0⟩, 0⟩).store } : SyncState) = st
      rw [neonFold_dry_store]
    | true =>
      show ({ neon := st.neon
            , strapi := (st.strapi.foldl (orphanStep true st.neon)
                (st.neon.foldl (neonStep true st.strapi)
                  ⟨st.strapi, ⟨0, 0, 0⟩, 0⟩)).store } : SyncState) = st
      rw [orphanFold_dry_store, neonFold_dry_store]
  · intro ro st
    rw [syncFromNeon_eq, syncFromNeon_eq]
    have h1 := neonFold_acts_parity true false st.strapi st.neon
      ⟨st.strapi, ⟨0, 0, 0⟩, 0⟩ ⟨st.strapi, ⟨0, 0, 0⟩, 0⟩ rfl rfl
    cases ro with
    | false => exact h1
    | true =>
      exact orphanFold_acts_parity true false st.neon st.strapi _ _ h1.1 h1.2
  · decide

theorem updatedRec_documentId (n : NeonRec) (r : StrapiRec) :
    (updatedRec n r).documentId = r.documentId := rfl

theorem neonStep_lookup_other (d : Bool) (snap : List StrapiRec) (acc : Acc)
    (n : NeonRec) (q : String) (h : n.strapiId = "" ∨ n.strapiId ≠ q) :
    strapiLookup (neonStep d snap acc n).store q = strapiLookup acc.store q := by
  unfold neonStep
  by_cases h1 : n.strapiId = ""
  · rw [if_pos h1]
  · have hq : n.strapiId ≠ q := h.resolve_left h1
    rw [if_neg h1]
    split
    · split
      · rfl
      · show strapiLookup (storeCreate acc.store (createdRec n)) q = _
        unfold storeCreate
        rw [lookup_append_single]
        have hd : ¬ (createdRec n).documentId = q := hq
        rw [if_neg hd]
    · split
      · split
        · rfl
        · show strapiLookup (storeUpdate acc.store n.strapiId (updatedRec n)) q = _
          rw [lookup_update _ _ _ (fun r => updatedRec_documentId n r)]
          rw [if_neg (fun hh => hq hh.symm)]
      · rfl

theorem neonFold_lookup_other (d : Bool) (snap : List StrapiRec) (q : String)
    (l : List NeonRec) (h : ∀ m ∈ l, m.strapiId = "" ∨ m.strapiId ≠ q) :
    ∀ acc : Acc,
      strapiLookup ((l.foldl (neonStep d snap) acc).store) q = strapiLookup acc.store q := by
  induction l with
  | nil => intro acc; rfl
  | cons n t ih =>
    intro acc
    rw [List.foldl_cons,
      ih (fun m hm => h m (List.mem_cons_of_mem _ hm)),
      neonStep_lookup_other d snap acc n q (h n (List.mem_cons_self n t))]

theorem neonStep_lookup_self (snap : List StrapiRec) (acc : Acc) (n : NeonRec)
    (h1 : n.strapiId ≠ "") (hid : n.id ≠ "")
    (hacc : strapiLookup acc.store n.strapiId = strapiLookup snap n.strapiId) :
    ∃ ex, strapiLookup (neonStep false snap acc n).store n.strapiId = some ex ∧
      changed n ex = false := by
  unfold neonStep
  rw [if_neg h1]
  split
  · refine ⟨createdRec n, ?_, ?_⟩
    · show strapiLookup (storeCreate acc.store (createdRec n)) _ = _
      unfold storeCreate
      rw [lookup_append_single]
      have hd : (createdRec n).documentId = n.strapiId := rfl
      rw [if_pos hd]
    · simp [changed, createdRec, hid]
  · rename_i ex heq
    split
    · refine ⟨updatedRec n ex, ?_, ?_⟩
      · show strapiLookup (storeUpdate acc.store n.strapiId (updatedRec n)) _ = _
        rw [lookup_update _ _ _ (fun r => updatedRec_documentId n r), if_pos rfl,
          hacc, heq]
        rfl
      · simp [changed, updatedRec, hid]
    · rename_i hch
      refine ⟨ex, ?_, ?_⟩
      · show strapiLookup acc.store _ = _
        rw [hacc, heq]
      · revert hch
        cases changed n ex <;> simp

theorem orphanStep_lookup_has (d : Bool) (neon : List NeonRec) (acc : Acc)
    (r : StrapiRec) (q : String) (hq : neonHas neon q = true) :
    strapiLookup (orphanStep d neon acc r).store q = strapiLookup acc.store q := by
  unfold orphanStep
  cases h1 : neonHas neon r.documentId with
  | true => simp
  | false =>
    cases d with
    | true => simp
    | false =>
      simp only [Bool.false_eq_true, if_false, if_true]
      show strapiLookup (storeDelete acc.store r.documentId) q = _
      rw [lookup_delete]
      have hne : q ≠ r.documentId := by
        intro hh
        rw [hh] at hq
        rw [hq] at h1
        exact Bool.noConfusion h1
      rw [if_neg hne]

theorem orphanFold_lookup_has (d : Bool) (neon : List NeonRec) (q : String)
    (hq : neonHas neon q = true) (l : List StrapiRec) :
    ∀ acc : Acc,
      strapiLookup ((l.foldl (orphanStep d neon) acc).store) q = strapiLookup acc.store q := by
  induction l with
  | nil => intro acc; rfl
  | cons r t ih =>
    intro acc
    rw [List.foldl_cons, ih, orphanStep_lookup_has d neon acc r q hq]

theorem neonHas_self (l : List NeonRec) (n : NeonRec) (hn : n ∈ l)
    (h1 : n.strapiId ≠ "") : neonHas l n.strapiId = true := by
  unfold neonHas
  rw [List.any_eq_true]
  exact ⟨n, hn, by simp [h1]⟩

theorem run1_lookup (ro : Bool) (st : SyncState)
    (hdup : List.Pairwise (fun a b => a.strapiId = "" ∨ a.strapiId ≠ b.strapiId) st.neon)
    (hid : ∀ n ∈ st.neon, n.strapiId ≠ "" → n.id ≠ "") :
    ∀ n ∈ st.neon, n.strapiId ≠ "" →
      ∃ ex, strapiLookup (syncFromNeon ro false st).1.strapi n.strapiId = some ex ∧
        changed n ex = false := by
  intro n hn hne
  obtain ⟨l1, l2, hsplit⟩ := List.append_of_mem hn
  have hpair := hsplit ▸ hdup
  rw [List.pairwise_append] at hpair
  obtain ⟨hp1, hp2, hcross⟩ := hpair
  rw [List.pairwise_cons] at hp2
  obtain ⟨hhead, _⟩ := hp2
  rw [syncFromNeon_eq]
  show ∃ ex, strapiLookup
      (if ro then st.strapi.foldl (orphanStep false st.neon)
          (st.neon.foldl (neonStep false st.strapi) ⟨st.strapi, ⟨0, 0, 0⟩, 0⟩)
        else st.neon.foldl (neonStep false st.strapi) ⟨st.strapi, ⟨0, 0, 0⟩, 0⟩).store
      n.strapiId = some ex ∧ changed n ex = false
  have hfold : ∃ ex, strapiLookup
      ((st.neon.foldl (neonStep false st.strapi) ⟨st.strapi, ⟨0, 0, 0⟩, 0⟩).store)
      n.strapiId = some ex ∧ changed n ex = false := by
    rw [hsplit, List.foldl_append, List.foldl_cons]
    have hl2 : ∀ m ∈ l2, m.strapiId = "" ∨ m.strapiId ≠ n.strapiId := by
      intro m hm
      rcases hhead m hm with h | h
      · exact absurd h hne
      · exact Or.inr (fun hh => h hh.symm)
    rw [neonFold_lookup_other false st.strapi n.strapiId l2 hl2]
    apply neonStep_lookup_self st.strapi _ n hne (hid n hn hne)
    have hl1 : ∀ m ∈ l1, m.strapiId = "" ∨ m.strapiId ≠ n.strapiId := by
      intro m hm
      exact hcross m hm n (List.mem_cons_self n l2)
    rw [neonFold_lookup_other false st.strapi n.strapiId l1 hl1]
  cases ro with
  | false => exact hfold
  | true =>
    obtain ⟨ex, hex, hch⟩ := hfold
    refine ⟨ex, ?_, hch⟩
    have hhas : neonHas st.neon n.strapiId = true := neonHas_self st.neon n hn hne
    show strapiLookup ((st.strapi.foldl (orphanStep false st.neon) _).store) _ = _
    rw [orphanFold_lookup_has false st.neon n.strapiId hhas, hex]

theorem neonStep_store_mem (d : Bool) (snap : List StrapiRec) (acc : Acc) (n : NeonRec) :
    ∀ r' ∈ (neonStep d snap acc n).store,
      (∃ r0 ∈ acc.store, r'.documentId = r0.documentId) ∨
        (n.strapiId ≠ "" ∧ r'.documentId = n.strapiId) := by
  intro r' hr'
  unfold neonStep at hr'
  by_cases h1 : n.strapiId = ""
  · rw [if_pos h1] at hr'
    exact Or.inl ⟨r', hr', rfl⟩
  · rw [if_neg h1] at hr'
    revert hr'
    split
    · split
      · intro hr'
        exact Or.inl ⟨r', hr', rfl⟩
      · intro hr'
        rcases List.mem_append.mp hr' with hmem | hmem
        · exact Or.inl ⟨r', hmem, rfl⟩
        · rcases List.mem_singleton.mp hmem with rfl
          exact Or.inr ⟨h1, rfl⟩
    · split
      · split
        · intro hr'
          exact Or.inl ⟨r', hr', rfl⟩
        · intro hr'
          obtain ⟨r0, hr0, heq⟩ := List.mem_map.mp hr'
          refine Or.inl ⟨r0, hr0, ?_⟩
          rw [← heq]
          by_cases hd : r0.documentId = n.strapiId
          · rw [if_pos hd, updatedRec_documentId]
          · rw [if_neg hd]
      · intro hr'
        exact Or.inl ⟨r', hr', rfl⟩

theorem neonFold_store_mem (d : Bool) (snap : List StrapiRec) (l : List NeonRec) :
    ∀ acc : Acc, ∀ r' ∈ (l.foldl (neonStep d snap) acc).store,
      (∃ r0 ∈ acc.store, r'.documentId = r0.documentId) ∨
        (∃ m ∈ l, m.strapiId ≠ "" ∧ r'.documentId = m.strapiId) := by
  induction l with
  | nil =>
    intro acc r' hr'
    exact Or.inl ⟨r', hr', rfl⟩
  | cons n t ih =>
    intro acc r' hr'
    rw [List.foldl_cons] at hr'
    rcases ih (neonStep d snap acc n) r' hr' with ⟨r0, hr0, heq⟩ | ⟨m, hm, hms, heq⟩
    · rcases neonStep_store_mem d snap acc n r0 hr0 with ⟨r1, hr1, heq1⟩ | ⟨hne, heq1⟩
      · exact Or.inl ⟨r1, hr1, heq.trans heq1⟩
      · exact Or.inr ⟨n, List.mem_cons_self n t, hne, heq.trans heq1⟩
    · exact Or.inr ⟨m, List.mem_cons_of_mem _ hm, hms, heq⟩

theorem orphan_total (neon : List NeonRec) :
    ∀ (l : List StrapiRec) (acc : Acc),
      (∀ r' ∈ acc.store,
        neonHas neon r'.documentId = true ∨ ∃ rs ∈ l, rs.documentId = r'.documentId) →
      ∀ r' ∈ (l.foldl (orphanStep false neon) acc).store,
        neonHas neon r'.documentId = true := by
  intro l
  induction l with
  | nil =>
    intro acc h r' hr'
    rcases h r' hr' with hh | ⟨rs, hrs, _⟩
    · exact hh
    · exact absurd hrs (List.not_mem_nil rs)
  | cons rs t ih =>
    intro acc h r' hr'
    rw [List.foldl_cons] at hr'
    refine ih (orphanStep false neon acc rs) ?_ r' hr'
    intro r2 hr2
    unfold orphanStep at hr2
    revert hr2
    cases hhas : neonHas neon rs.documentId with
    | true =>
      intro hr2
      simp only [if_pos rfl] at hr2
      rcases h r2 hr2 with hh | ⟨rs', hrs', heq'⟩
      · exact Or.inl hh
      · rcases List.mem_cons.mp hrs' with rfl | hmem
        · rw [← heq']
          exact Or.inl hhas
        · exact Or.inr ⟨rs', hmem, heq'⟩
    | false =>
      intro hr2
      simp only [Bool.false_eq_true, if_false] at hr2
      have hr2' : r2 ∈ storeDelete acc.store rs.documentId := hr2
      unfold storeDelete at hr2'
      obtain ⟨hmem, hne⟩ := List.mem_filter.mp hr2'
      rcases h r2 hmem with hh | ⟨rs', hrs', heq'⟩
      · exact Or.inl hh
      · rcases List.mem_cons.mp hrs' with rfl | hmem'
        · exfalso
          rw [heq'] at hne
          simp at hne
        · exact Or.inr ⟨rs', hmem', heq'⟩

theorem second_neon_zero (d : Bool) (snap : List StrapiRec) (l : List NeonRec)
    (h : ∀ n ∈ l, n.strapiId = "" ∨
      ∃ ex, strapiLookup snap n.strapiId = some ex ∧ changed n ex = false) :
    ∀ acc : Acc, (l.foldl (neonStep d snap) acc).acts = acc.acts := by
  induction l with
  | nil => intro acc; rfl
  | cons n t ih =>
    intro acc
    rw [List.foldl_cons, ih (fun m hm => h m (List.mem_cons_of_mem _ hm))]
    unfold neonStep
    by_cases h1 : n.strapiId = ""
    · rw [if_pos h1]
    · rw [if_neg h1]
      rcases h n (List.mem_cons_self n t) with hh | ⟨ex, hex, hch⟩
      · exact absurd hh h1
      · simp only [hex, hch, Bool.false_eq_true, if_false]

theorem second_orphan_zero (d : Bool) (neon : List NeonRec) (l : List StrapiRec)
    (h : ∀ r ∈ l, neonHas neon r.documentId = true) :
    ∀ acc : Acc, l.foldl (orphanStep d neon) acc = acc := by
  induction l with
  | nil => intro acc; rfl
  | cons r t ih =>
    intro acc
    rw [List.foldl_cons]
    have hstep : orphanStep d neon acc r = acc := by
      unfold orphanStep
      rw [h r (List.mem_cons_self r t)]
      rfl
    rw [hstep, ih (fun m hm => h m (List.mem_cons_of_mem _ hm))]

/-- **C1** counterexample: reconciliation is *not* idempotent for every pair
of snapshots.  With two Neon records sharing `strapiId = "s1"` (and different
contents) against an empty mirror store, the first `dryRun = false` run
creates two mirror documents with the same `documentId`; on the second run
the snapshot map keeps only the *last* of them, so the first Neon record is
classified as an update again: the second report has `updated = 1 ≠ 0`. -/
theorem sync_idempotent_counterexample :
    (syncFromNeon false false (syncFromNeon false false
        ⟨[⟨"e1", "s1", "T", "a", "ct", "f"⟩, ⟨"e2", "s1", "T", "b", "ct", "f"⟩],
         []⟩).1).2.1 ≠ ⟨0, 0, 0⟩ := by decide

/-- **C1** (amended): reconciliation is idempotent *provided* no two Neon
records share a truthy `strapiId` and every Neon record with a truthy
`strapiId` has a truthy vector-store id: for every such pair of store
snapshots and either setting of `removeOrphans`, running
`syncFromNeon (dryRun := false)` twice in a row with no external writes in
between yields a second report whose `created`, `updated` and
`orphansRemoved` counts are all zero. -/
theorem sync_idempotent (ro : Bool) (st : SyncState)
    (hdup : List.Pairwise (fun a b => a.strapiId = "" ∨ a.strapiId ≠ b.strapiId) st.neon)
    (hid : ∀ n ∈ st.neon, n.strapiId ≠ "" → n.id ≠ "") :
    (syncFromNeon ro false (syncFromNeon ro false st).1).2.1 = ⟨0, 0, 0⟩ := by
  have hneon : (syncFromNeon ro false st).1.neon = st.neon := by
    cases ro <;> rfl
  have hsecond : ∀ n ∈ st.neon, n.strapiId = "" ∨
      ∃ ex, strapiLookup (syncFromNeon ro false st).1.strapi n.strapiId = some ex ∧
        changed n ex = false := by
    intro n hn
    by_cases hne : n.strapiId = ""
    · exact Or.inl hne
    · exact Or.inr (run1_lookup ro st hdup hid n hn hne)
  set st1 := (syncFromNeon ro false st).1 with hst1
  have hsecond' : ∀ n ∈ st1.neon, n.strapiId = "" ∨
      ∃ ex, strapiLookup st1.strapi n.strapiId = some ex ∧ changed n ex = false := by
    rw [hneon]
    exact hsecond
  cases ro with
  | false =>
    show (st1.neon.foldl (neonStep false st1.strapi)
        ⟨st1.strapi, ⟨0, 0, 0⟩, 0⟩).acts = (⟨0, 0, 0⟩ : Actions)
    rw [second_neon_zero false st1.strapi st1.neon hsecond']
  | true =>
    have hst1s : st1.strapi =
        (st.strapi.foldl (orphanStep false st.neon)
          (st.neon.foldl (neonStep false st.strapi) ⟨st.strapi, ⟨0, 0, 0⟩, 0⟩)).store := by
      rw [hst1]
      rfl
    have htotal : ∀ r ∈ st1.strapi, neonHas st1.neon r.documentId = true := by
      intro r hr
      rw [hneon]
      rw [hst1s] at hr
      refine orphan_total st.neon st.strapi _ ?_ r hr
      intro r' hr'
      rcases neonFold_store_mem false st.strapi st.neon ⟨st.strapi, ⟨0, 0, 0⟩, 0⟩ r' hr'
        with ⟨r0, hr0, heq⟩ | ⟨m, hm, hms, heq⟩
      · exact Or.inr ⟨r0, hr0, heq.symm⟩
      · rw [heq]
        exact Or.inl (neonHas_self st.neon m hm hms)
    show (st1.strapi.foldl (orphanStep false st1.neon)
        (st1.neon.foldl (neonStep false st1.strapi)
          ⟨st1.strapi, ⟨0, 0, 0⟩, 0⟩)).acts = (⟨0, 0, 0⟩ : Actions)
    rw [second_orphan_zero false st1.neon st1.strapi htotal,
      second_neon_zero false st1.strapi st1.neon hsecond']

theorem sync_idempotent_witness :
    List.Pairwise (fun a b => a.strapiId = "" ∨ a.strapiId ≠ b.strapiId)
        (SyncState.neon ⟨[⟨"e1", "s1", "T", "a", "ct", "f"⟩,
          ⟨"e2", "s2", "T", "b", "ct", "f"⟩],
         [⟨"s1", "T", "a", "", "ct", "f"⟩, ⟨"x9", "TX", "cx", "e", "ct", "f"⟩]⟩) ∧
    (∀ n ∈ SyncState.neon ⟨[⟨"e1", "s1", "T", "a", "ct", "f"⟩,
          ⟨"e2", "s2", "T", "b", "ct", "f"⟩],
         [⟨"s1", "T", "a", "", "ct", "f"⟩, ⟨"x9", "TX", "cx", "e", "ct", "f"⟩]⟩,
        n.strapiId ≠ "" → n.id ≠ "") ∧
    (syncFromNeon true false (syncFromNeon true false
        ⟨[⟨"e1", "s1", "T", "a", "ct", "f"⟩, ⟨"e2", "s2", "T", "b", "ct", "f"⟩],
         [⟨"s1", "T", "a", "", "ct", "f"⟩,
          ⟨"x9", "TX", "cx", "e", "ct", "f"⟩]⟩).1).2.1 = ⟨0, 0, 0⟩ :=
  ⟨by decide, by decide,
    sync_idempotent true
      ⟨[⟨"e1", "s1", "T", "a", "ct", "f"⟩, ⟨"e2", "s2", "T", "b", "ct", "f"⟩],
       [⟨"s1", "T", "a", "", "ct", "f"⟩, ⟨"x9", "TX", "cx", "e", "ct", "f"⟩]⟩
      (by decide) (by decide)⟩

end Sync

namespace Emb

theorem mem_insertSorted (x y : MRec) :
    ∀ l : List MRec, x ∈ insertSorted y l ↔ x = y ∨ x ∈ l := by
  intro l
  induction l with
  | nil => simp [insertSorted]
  | cons z zs ih =>
    unfold insertSorted
    by_cases h : chunkIndexKey y < chunkIndexKey z
    · rw [if_pos h]
      simp [List.mem_cons]
    · rw [if_neg h]
      simp only [List.mem_cons, ih]
      tauto

theorem mem_sortFold (l : List MRec) :
    ∀ (acc : List MRec) (x : MRec),
      x ∈ l.foldl (fun acc r => insertSorted r acc) acc ↔ x ∈ l ∨ x ∈ acc := by
  induction l with
  | nil => simp
  | cons r t ih =>
    intro acc x
    rw [List.foldl_cons, ih, mem_insertSorted]
    simp only [List.mem_cons]
    tauto

theorem mem_sortByChunkIndex (l : List MRec) (x : MRec) :
    x ∈ sortByChunkIndex l ↔ x ∈ l := by
  unfold sortByChunkIndex
  rw [mem_sortFold]
  simp

theorem findOne_documentId {store : List MRec} {d : Nat} {entry : MRec}
    (h : findOne store d = some entry) : entry.documentId = d := by
  have hp := List.find?_some h
  simpa using hp

theorem findRelatedChunks_covers (store : List MRec) (d : Nat) (entry : MRec)
    (hentry : findOne store d = some entry) :
    ∀ r' ∈ store,
      (r'.documentId = (metaParent entry).getD d ∨
        metaParent r' = some ((metaParent entry).getD d)) →
      ∃ c ∈ findRelatedChunks store d, c.documentId = r'.documentId := by
  intro r' hr' hdisj
  have hred : findRelatedChunks store d =
      (if metaIsChunk entry = false ∧ metaParent entry = none then
        (if (store.filter (fun r => metaParent r == some d)).length = 0 then [entry]
          else entry :: store.filter (fun r => metaParent r == some d))
      else sortByChunkIndex (store.filter (fun r =>
        r.documentId == (metaParent entry).getD d ||
          metaParent r == some ((metaParent entry).getD d)))) := by
    unfold findRelatedChunks
    rw [hentry]
  rw [hred]
  by_cases hstand : metaIsChunk entry = false ∧ metaParent entry = none
  · rw [if_pos hstand]
    have hp : (metaParent entry).getD d = d := by rw [hstand.2]; rfl
    rw [hp] at hdisj
    by_cases hch : (store.filter (fun r => metaParent r == some d)).length = 0
    · rw [if_pos hch]
      rcases hdisj with hdoc | hpar
      · exact ⟨entry, List.mem_singleton_self entry,
          (findOne_documentId hentry).trans hdoc.symm⟩
      · exfalso
        have hmem : r' ∈ store.filter (fun r => metaParent r == some d) :=
          List.mem_filter.mpr ⟨hr', by rw [hpar]; simp⟩
        rw [List.length_eq_zero] at hch
        rw [hch] at hmem
        exact List.not_mem_nil r' hmem
    · rw [if_neg hch]
      rcases hdisj with hdoc | hpar
      · exact ⟨entry, List.mem_cons_self _ _,
          (findOne_documentId hentry).trans hdoc.symm⟩
      · refine ⟨r', List.mem_cons_of_mem _ (List.mem_filter.mpr ⟨hr', ?_⟩), rfl⟩
        rw [hpar]
        simp
  · rw [if_neg hstand]
    refine ⟨r', ?_, rfl⟩
    rw [mem_sortByChunkIndex]
    refine List.mem_filter.mpr ⟨hr', ?_⟩
    rcases hdisj with hdoc | hpar
    · simp [hdoc]
    · simp [hpar]

theorem deleteLoop_cons (env : Env) (st : EmbState) (c : MRec) (rest : List MRec) :
    (deleteLoop env st (c :: rest)).1 =
      (deleteLoop env
        { st with
            vec := if env.initialized && !env.vdelFail c.documentId
              then vecDelete st.vec c.documentId else st.vec
            store := storeDelete st.store c.documentId }
        rest).1 ∧
    (deleteLoop env st (c :: rest)).2 =
      (if env.initialized then
        [Ev.vDelete c.documentId (!env.vdelFail c.documentId)] else []) ++
        [Ev.mDelete c.documentId] ++
        (deleteLoop env
          { st with
              vec := if env.initialized && !env.vdelFail c.documentId
                then vecDelete st.vec c.documentId else st.vec
              store := storeDelete st.store c.documentId }
          rest).2 := by
  cases hinit : env.initialized <;> cases hdel : env.vdelFail c.documentId <;>
    simp [deleteLoop, hinit, hdel]

theorem deleteLoop_store (env : Env) :
    ∀ (l : List MRec) (st : EmbState),
      ∀ r' ∈ (deleteLoop env st l).1.store,
        r' ∈ st.store ∧ ∀ c ∈ l, r'.documentId ≠ c.documentId := by
  intro l
  induction l with
  | nil =>
    intro st r' hr'
    exact ⟨hr', fun c hc => absurd hc (List.not_mem_nil c)⟩
  | cons c rest ih =>
    intro st r' hr'
    rw [(deleteLoop_cons env st c rest).1] at hr'
    obtain ⟨hmem, hall⟩ := ih _ r' hr'
    have hmem' : r' ∈ st.store.filter (fun r => r.documentId != c.documentId) := hmem
    obtain ⟨hin, hne⟩ := List.mem_filter.mp hmem'
    refine ⟨hin, ?_⟩
    intro c2 hc2
    rcases List.mem_cons.mp hc2 with rfl | hc2'
    · simpa using hne
    · exact hall c2 hc2'

theorem deleteLoop_nextId (env : Env) :
    ∀ (l : List MRec) (st : EmbState), (deleteLoop env st l).1.nextId = st.nextId := by
  intro l
  induction l with
  | nil => intro st; rfl
  | cons c rest ih =>
    intro st
    rw [(deleteLoop_cons env st c rest).1, ih]

theorem deleteLoop_trace (env : Env) (hinit : env.initialized = true) :
    ∀ (l : List MRec) (st : EmbState),
      (deleteLoop env st l).2 =
        (l.map (fun c =>
          [Ev.vDelete c.documentId (!env.vdelFail c.documentId),
            Ev.mDelete c.documentId])).flatten := by
  intro l
  induction l with
  | nil => intro st; rfl
  | cons c rest ih =>
    intro st
    rw [(deleteLoop_cons env st c rest).2, ih, hinit]
    simp

/-- **C6** (group deletion is total): starting from any one member of a
group — a record flagged `isChunk`, a record with a `parentDocumentId`, or
the group's anchor — the related-chunks deletion path removes from the
mirror store every record of that group (no record with the group's anchor
id, and none referencing the anchor through `parentDocumentId`, survives),
and the emitted operations are, member by member in chunk order, the
vector-store deletion (whose failure, oracle `vdelFail`, is tolerated)
followed by that member's mirror-store deletion. -/
theorem group_deletion_total (env : Env) (st : EmbState) (d : Nat) (entry : MRec)
    (hinit : env.initialized = true) (hentry : findOne st.store d = some entry) :
    (∀ r' ∈ (deleteRelatedChunks env st d).1.store,
        r'.documentId ≠ (metaParent entry).getD d ∧
          metaParent r' ≠ some ((metaParent entry).getD d)) ∧
      (deleteRelatedChunks env st d).2.2 =
        ((findRelatedChunks st.store d).map (fun c =>
          [Ev.vDelete c.documentId (!env.vdelFail c.documentId),
            Ev.mDelete c.documentId])).flatten := by
  constructor
  · intro r' hr'
    have hr2 : r' ∈ (deleteLoop env st (findRelatedChunks st.store d)).1.store := hr'
    obtain ⟨hmem, hall⟩ := deleteLoop_store env (findRelatedChunks st.store d) st r' hr2
    have hkey : ¬ (r'.documentId = (metaParent entry).getD d ∨
        metaParent r' = some ((metaParent entry).getD d)) := by
      intro hdisj
      obtain ⟨c, hc, hcd⟩ := findRelatedChunks_covers st.store d entry hentry r' hmem hdisj
      exact hall c hc hcd.symm
    exact ⟨fun h => hkey (Or.inl h), fun h => hkey (Or.inr h)⟩
  · exact deleteLoop_trace env hinit (findRelatedChunks st.store d) st

theorem group_deletion_total_witness :
    (Env.initialized ⟨true, fun _ => false, fun i => i == 6, fun _ => "E", fun c => c⟩
        = true) ∧
    findOne (EmbState.store
        ⟨[⟨5, "Doc [Part 1/2]", ['a'], "standalone", "content",
            some ⟨true, 0, 2, 0, 1, "Doc", none, 1⟩, some "e5", none⟩,
          ⟨6, "Doc [Part 2/2]", ['b'], "standalone", "content",
            some ⟨true, 1, 2, 1, 2, "Doc", some 5, 1⟩, some "e6", none⟩], [], 7⟩) 6 =
      some ⟨6, "Doc [Part 2/2]", ['b'], "standalone", "content",
        some ⟨true, 1, 2, 1, 2, "Doc", some 5, 1⟩, some "e6", none⟩ ∧
    ((∀ r' ∈ (deleteRelatedChunks
          ⟨true, fun _ => false, fun i => i == 6, fun _ => "E", fun c => c⟩
          ⟨[⟨5, "Doc [Part 1/2]", ['a'], "standalone", "content",
              some ⟨true, 0, 2, 0, 1, "Doc", none, 1⟩, some "e5", none⟩,
            ⟨6, "Doc [Part 2/2]", ['b'], "standalone", "content",
              some ⟨true, 1, 2, 1, 2, "Doc", some 5, 1⟩, some "e6", none⟩], [], 7⟩
          6).1.store,
        r'.documentId ≠ (metaParent ⟨6, "Doc [Part 2/2]", ['b'], "standalone", "content",
            some ⟨true, 1, 2, 1, 2, "Doc", some 5, 1⟩, some "e6", none⟩).getD 6 ∧
          metaParent r' ≠ some ((metaParent ⟨6, "Doc [Part 2/2]", ['b'], "standalone",
            "content", some ⟨true, 1, 2, 1, 2, "Doc", some 5, 1⟩,
            some "e6", none⟩).getD 6)) ∧
      (deleteRelatedChunks
          ⟨true, fun _ => false, fun i => i == 6, fun _ => "E", fun c => c⟩
          ⟨[⟨5, "Doc [Part 1/2]", ['a'], "standalone", "content",
              some ⟨true, 0, 2, 0, 1, "Doc", none, 1⟩, some "e5", none⟩,
            ⟨6, "Doc [Part 2/2]", ['b'], "standalone", "content",
              some ⟨true, 1, 2, 1, 2, "Doc", some 5, 1⟩, some "e6", none⟩], [], 7⟩
          6).2.2 =
        ((findRelatedChunks (EmbState.store
            ⟨[⟨5, "Doc [Part 1/2]", ['a'], "standalone", "content",
                some ⟨true, 0, 2, 0, 1, "Doc", none, 1⟩, some "e5", none⟩,
              ⟨6, "Doc [Part 2/2]", ['b'], "standalone", "content",
                some ⟨true, 1, 2, 1, 2, "Doc", some 5, 1⟩, some "e6", none⟩], [], 7⟩) 6).map
          (fun c =>
            [Ev.vDelete c.documentId
              (!Env.vdelFail ⟨true, fun _ => false, fun i => i == 6, fun _ => "E",
                fun c => c⟩ c.documentId),
              Ev.mDelete c.documentId])).flatten) :=
  ⟨rfl, rfl,
    group_deletion_total
      ⟨true, fun _ => false, fun i => i == 6, fun _ => "E", fun c => c⟩
      ⟨[⟨5, "Doc [Part 1/2]", ['a'], "standalone", "content",
          some ⟨true, 0, 2, 0, 1, "Doc", none, 1⟩, some "e5", none⟩,
        ⟨6, "Doc [Part 2/2]", ['b'], "standalone", "content",
          some ⟨true, 1, 2, 1, 2, "Doc", some 5, 1⟩, some "e6", none⟩], [], 7⟩
      6
      ⟨6, "Doc [Part 2/2]", ['b'], "standalone", "content",
        some ⟨true, 1, 2, 1, 2, "Doc", some 5, 1⟩, some "e6", none⟩
      rfl rfl⟩

theorem storeUpdate_no_match (l : List MRec) (d : Nat) (f : MRec → MRec)
    (h : ∀ r ∈ l, r.documentId ≠ d) : storeUpdate l d f = l := by
  show l.map (fun r => if r.documentId == d then f r else r) = l
  have h2 : ∀ r ∈ l, (if r.documentId == d then f r else r) = id r := by
    intro r hr
    have hb : (r.documentId == d) = false := by
      simp [h r hr]
    rw [hb]
    rfl
  rw [List.map_congr_left h2, List.map_id]

theorem storeUpdate_append (a b : List MRec) (d : Nat) (f : MRec → MRec) :
    storeUpdate (a ++ b) d f = storeUpdate a d f ++ storeUpdate b d f :=
  List.map_append _ a b

theorem storeUpdate_fresh (st : EmbState)
    (hfr : ∀ r0 ∈ st.store, r0.documentId < st.nextId) (f : MRec → MRec) (e : MRec)
    (he : e.documentId = st.nextId) :
    storeUpdate (st.store ++ [e]) st.nextId f = st.store ++ [f e] := by
  rw [storeUpdate_append,
    storeUpdate_no_match st.store st.nextId f (fun r hr => Nat.ne_of_lt (hfr r hr))]
  show st.store ++ [if e.documentId == st.nextId then f e else e] = _
  rw [he]
  simp

theorem chunkLoop_cons_zero (env : Env) (cd : CreateData) (st : EmbState)
    (pid : Option Nat) (c : Chunking.TextChunk) (rest : List Chunking.TextChunk)
    (hci : c.chunkIndex = 0)
    (hfr : ∀ r0 ∈ st.store, r0.documentId < st.nextId) :
    chunkLoop env cd st pid (c :: rest) =
      (let did := st.nextId
       let entity : MRec :=
         { documentId := did
         , title := Chunking.formatChunkTitle cd.title c.chunkIndex c.totalChunks
         , content := c.text
         , collectionType := cd.collectionType.getD "standalone"
         , fieldName := cd.fieldName.getD "content"
         , metadata := some
             { isChunk := true, chunkIndex := c.chunkIndex
             , totalChunks := c.totalChunks, startOffset := c.startOffset
             , endOffset := c.endOffset, originalTitle := cd.title
             , parentDocumentId := pid
             , estimatedTokens := Chunking.estimateTokens c.text }
         , embeddingId :=
             if env.initialized && !env.embedFail did
             then some (env.embedIdOf did) else none
         , related := if relatedValid cd.related then cd.related else none }
       let vec' :=
         if env.initialized && !env.embedFail did
         then st.vec ++ [⟨env.embedIdOf did, did,
           Chunking.formatChunkTitle cd.title c.chunkIndex c.totalChunks, c.text,
           cd.collectionType.getD "standalone", cd.fieldName.getD "content"⟩]
         else st.vec
       let evs : List Ev :=
         Ev.mCreate did ::
           (if env.initialized then
             (if env.embedFail did then [Ev.vCreate did false]
              else [Ev.vCreate did true, Ev.mUpdate did])
            else [])
       let R := chunkLoop env cd ⟨st.store ++ [entity], vec', did + 1⟩ (some did) rest
       (R.1, R.2.1, entity :: R.2.2.1, evs ++ R.2.2.2)) := by
  have hupd := storeUpdate_fresh st hfr
  cases hinit : env.initialized <;> cases hfail : env.embedFail st.nextId <;>
    simp [chunkLoop, hci, hinit, hfail, hupd]

theorem chunkLoop_cons_ne (env : Env) (cd : CreateData) (st : EmbState)
    (pid : Option Nat) (c : Chunking.TextChunk) (rest : List Chunking.TextChunk)
    (hci : c.chunkIndex ≠ 0)
    (hfr : ∀ r0 ∈ st.store, r0.documentId < st.nextId) :
    chunkLoop env cd st pid (c :: rest) =
      (let did := st.nextId
       let entity : MRec :=
         { documentId := did
         , title := Chunking.formatChunkTitle cd.title c.chunkIndex c.totalChunks
         , content := c.text
         , collectionType := cd.collectionType.getD "standalone"
         , fieldName := cd.fieldName.getD "content"
         , metadata := some
             { isChunk := true, chunkIndex := c.chunkIndex
             , totalChunks := c.totalChunks, startOffset := c.startOffset
             , endOffset := c.endOffset, originalTitle := cd.title
             , parentDocumentId := pid
             , estimatedTokens := Chunking.estimateTokens c.text }
         , embeddingId :=
             if env.initialized && !env.embedFail did
             then some (env.embedIdOf did) else none
         , related := none }
       let vec' :=
         if env.initialized && !env.embedFail did
         then st.vec ++ [⟨env.embedIdOf did, did,
           Chunking.formatChunkTitle cd.title c.chunkIndex c.totalChunks, c.text,
           cd.collectionType.getD "standalone", cd.fieldName.getD "content"⟩]
         else st.vec
       let evs : List Ev :=
         Ev.mCreate did :: Ev.mUpdate did ::
           (if env.initialized then
             (if env.embedFail did then [Ev.vCreate did false]
              else [Ev.vCreate did true, Ev.mUpdate did])
            else [])
       let R := chunkLoop env cd ⟨st.store ++ [entity], vec', did + 1⟩ pid rest
       (R.1, R.2.1, entity :: R.2.2.1, evs ++ R.2.2.2)) := by
  have hupd := storeUpdate_fresh st hfr
  have hb : (c.chunkIndex == 0) = false := by
    simp [hci]
  cases hinit : env.initialized <;> cases hfail : env.embedFail st.nextId <;>
    simp [chunkLoop, hci, hb, hinit, hfail, hupd]

theorem range_map_shift (a n : Nat) :
    (List.range (n + 1)).map (fun k => a + k) =
      a :: (List.range n).map (fun k => a + 1 + k) := by
  rw [List.range_succ_eq_map, List.map_cons, List.map_map]
  refine congrArg (fun t => (a + 0) :: t) ?_
  refine List.map_congr_left ?_
  intro k _
  show a + (k + 1) = a + 1 + k
  omega

theorem pairwise_le_const (i : Nat) : ∀ m : List Nat, (∀ x ∈ m, x = i) →
    m.Pairwise (fun a b => a ≤ b) := by
  intro m
  induction m with
  | nil => intro _; exact List.Pairwise.nil
  | cons a t ih =>
    intro h
    refine List.Pairwise.cons ?_ (ih fun x hx => h x (List.mem_cons_of_mem _ hx))
    intro b hb
    rw [h a (List.mem_cons_self a t), h b (List.mem_cons_of_mem _ hb)]

theorem evsTail_doc (i : Nat) (b1 b2 : Bool) :
    ∀ e ∈ (Ev.mCreate i :: Ev.mUpdate i ::
      (if b1 then (if b2 then [Ev.vCreate i false]
        else [Ev.vCreate i true, Ev.mUpdate i]) else [])), evDoc e = i := by
  cases b1 <;> cases b2 <;> intro e he <;> fin_cases he <;> rfl

theorem evsZero_doc (i : Nat) (b1 b2 : Bool) :
    ∀ e ∈ (Ev.mCreate i ::
      (if b1 then (if b2 then [Ev.vCreate i false]
        else [Ev.vCreate i true, Ev.mUpdate i]) else [])), evDoc e = i := by
  cases b1 <;> cases b2 <;> intro e he <;> fin_cases he <;> rfl

theorem evsTail_filterMap (i : Nat) (b1 b2 : Bool) :
    (Ev.mCreate i :: Ev.mUpdate i ::
      (if b1 then (if b2 then [Ev.vCreate i false]
        else [Ev.vCreate i true, Ev.mUpdate i]) else [])).filterMap evCreateId
      = [i] := by
  cases b1 <;> cases b2 <;> rfl

theorem evsZero_filterMap (i : Nat) (b1 b2 : Bool) :
    (Ev.mCreate i ::
      (if b1 then (if b2 then [Ev.vCreate i false]
        else [Ev.vCreate i true, Ev.mUpdate i]) else [])).filterMap evCreateId
      = [i] := by
  cases b1 <;> cases b2 <;> rfl

theorem sublist_block_ne (i : Nat) (b : Bool) :
    [Ev.mCreate i, Ev.vCreate i (!b)].Sublist
      (Ev.mCreate i :: Ev.mUpdate i :: (if b then [Ev.vCreate i false]
        else [Ev.vCreate i true, Ev.mUpdate i])) := by
  cases b
  · exact (((List.nil_sublist [Ev.mUpdate i]).cons₂ (Ev.vCreate i true)).cons
      (Ev.mUpdate i)).cons₂ (Ev.mCreate i)
  · exact (((List.nil_sublist []).cons₂ (Ev.vCreate i false)).cons
      (Ev.mUpdate i)).cons₂ (Ev.mCreate i)

theorem sublist_block_zero (i : Nat) (b : Bool) :
    [Ev.mCreate i, Ev.vCreate i (!b)].Sublist
      (Ev.mCreate i :: (if b then [Ev.vCreate i false]
        else [Ev.vCreate i true, Ev.mUpdate i])) := by
  cases b
  · exact (((List.nil_sublist [Ev.mUpdate i]).cons₂ (Ev.vCreate i true)).cons₂
      (Ev.mCreate i))
  · exact (((List.nil_sublist []).cons₂ (Ev.vCreate i false)).cons₂ (Ev.mCreate i))

theorem chunkLoop_cons_ne_spec (env : Env) (cd : CreateData) (st : EmbState)
    (pid : Option Nat) (c : Chunking.TextChunk) (rest : List Chunking.TextChunk)
    (hci : c.chunkIndex ≠ 0)
    (hfr : ∀ r0 ∈ st.store, r0.documentId < st.nextId) :
    ∃ (E : MRec) (V : List VRec) (evs : List Ev),
      chunkLoop env cd st pid (c :: rest) =
        ((chunkLoop env cd ⟨st.store ++ [E], V, st.nextId + 1⟩ pid rest).1,
         (chunkLoop env cd ⟨st.store ++ [E], V, st.nextId + 1⟩ pid rest).2.1,
         E :: (chunkLoop env cd ⟨st.store ++ [E], V, st.nextId + 1⟩ pid rest).2.2.1,
         evs ++ (chunkLoop env cd ⟨st.store ++ [E], V, st.nextId + 1⟩ pid rest).2.2.2) ∧
      E.documentId = st.nextId ∧
      metaParent E = pid ∧
      chunkIndexKey E = c.chunkIndex ∧
      E.embeddingId = (if env.initialized && !env.embedFail st.nextId
        then some (env.embedIdOf st.nextId) else none) ∧
      (∀ e ∈ evs, evDoc e = st.nextId) ∧
      evs.filterMap evCreateId = [st.nextId] ∧
      (env.initialized = true →
        [Ev.mCreate st.nextId,
          Ev.vCreate st.nextId (!env.embedFail st.nextId)].Sublist evs) := by
  refine ⟨{ documentId := st.nextId
          , title := Chunking.formatChunkTitle cd.title c.chunkIndex c.totalChunks
          , content := c.text
          , collectionType := cd.collectionType.getD "standalone"
          , fieldName := cd.fieldName.getD "content"
          , metadata := some
              { isChunk := true, chunkIndex := c.chunkIndex
              , totalChunks := c.totalChunks, startOffset := c.startOffset
              , endOffset := c.endOffset, originalTitle := cd.title
              , parentDocumentId := pid
              , estimatedTokens := Chunking.estimateTokens c.text }
          , embeddingId :=
              if env.initialized && !env.embedFail st.nextId
              then some (env.embedIdOf st.nextId) else none
          , related := none },
        (if env.initialized && !env.embedFail st.nextId
         then st.vec ++ [⟨env.embedIdOf st.nextId, st.nextId,
           Chunking.formatChunkTitle cd.title c.chunkIndex c.totalChunks, c.text,
           cd.collectionType.getD "standalone", cd.fieldName.getD "content"⟩]
         else st.vec),
        Ev.mCreate st.nextId :: Ev.mUpdate st.nextId ::
          (if env.initialized then
            (if env.embedFail st.nextId then [Ev.vCreate st.nextId false]
             else [Ev.vCreate st.nextId true, Ev.mUpdate st.nextId])
           else []),
        ?_, rfl, rfl, rfl, rfl,
        evsTail_doc st.nextId env.initialized (env.embedFail st.nextId),
        evsTail_filterMap st.nextId env.initialized (env.embedFail st.nextId),
        ?_⟩
  · exact chunkLoop_cons_ne env cd st pid c rest hci hfr
  · intro hinit
    rw [hinit]
    exact sublist_block_ne st.nextId (env.embedFail st.nextId)

theorem chunkLoop_cons_zero_spec (env : Env) (cd : CreateData) (st : EmbState)
    (pid : Option Nat) (c : Chunking.TextChunk) (rest : List Chunking.TextChunk)
    (hci : c.chunkIndex = 0)
    (hfr : ∀ r0 ∈ st.store, r0.documentId < st.nextId) :
    ∃ (E : MRec) (V : List VRec) (evs : List Ev),
      chunkLoop env cd st pid (c :: rest) =
        ((chunkLoop env cd ⟨st.store ++ [E], V, st.nextId + 1⟩ (some st.nextId) rest).1,
         (chunkLoop env cd ⟨st.store ++ [E], V, st.nextId + 1⟩ (some st.nextId) rest).2.1,
         E :: (chunkLoop env cd ⟨st.store ++ [E], V, st.nextId + 1⟩
           (some st.nextId) rest).2.2.1,
         evs ++ (chunkLoop env cd ⟨st.store ++ [E], V, st.nextId + 1⟩
           (some st.nextId) rest).2.2.2) ∧
      E.documentId = st.nextId ∧
      chunkIndexKey E = 0 ∧
      E.embeddingId = (if env.initialized && !env.embedFail st.nextId
        then some (env.embedIdOf st.nextId) else none) ∧
      (∀ e ∈ evs, evDoc e = st.nextId) ∧
      evs.filterMap evCreateId = [st.nextId] ∧
      (∃ evs', evs = Ev.mCreate st.nextId :: evs') ∧
      (env.initialized = true →
        [Ev.mCreate st.nextId,
          Ev.vCreate st.nextId (!env.embedFail st.nextId)].Sublist evs) := by
  refine ⟨{ documentId := st.nextId
          , title := Chunking.formatChunkTitle cd.title c.chunkIndex c.totalChunks
          , content := c.text
          , collectionType := cd.collectionType.getD "standalone"
          , fieldName := cd.fieldName.getD "content"
          , metadata := some
              { isChunk := true, chunkIndex := c.chunkIndex
              , totalChunks := c.totalChunks, startOffset := c.startOffset
              , endOffset := c.endOffset, originalTitle := cd.title
              , parentDocumentId := pid
              , estimatedTokens := Chunking.estimateTokens c.text }
          , embeddingId :=
              if env.initialized && !env.embedFail st.nextId
              then some (env.embedIdOf st.nextId) else none
          , related := if relatedValid cd.related then cd.related else none },
        (if env.initialized && !env.embedFail st.nextId
         then st.vec ++ [⟨env.embedIdOf st.nextId, st.nextId,
           Chunking.formatChunkTitle cd.title c.chunkIndex c.totalChunks, c.text,
           cd.collectionType.getD "standalone", cd.fieldName.getD "content"⟩]
         else st.vec),
        Ev.mCreate st.nextId ::
          (if env.initialized then
            (if env.embedFail st.nextId then [Ev.vCreate st.nextId false]
             else [Ev.vCreate st.nextId true, Ev.mUpdate st.nextId])
           else []),
        ?_, rfl, ?_, rfl,
        evsZero_doc st.nextId env.initialized (env.embedFail st.nextId),
        evsZero_filterMap st.nextId env.initialized (env.embedFail st.nextId),
        ⟨_, rfl⟩, ?_⟩
  · have h := chunkLoop_cons_zero env cd st pid c rest hci hfr
    rw [h]
  · show chunkIndexKey _ = 0
    unfold chunkIndexKey
    show c.chunkIndex = 0
    exact hci
  · intro hinit
    rw [hinit]
    exact sublist_block_zero st.nextId (env.embedFail st.nextId)

theorem chunkLoop_tail (env : Env) (cd : CreateData) (p : Nat) :
    ∀ l : List Chunking.TextChunk, (∀ c ∈ l, c.chunkIndex ≠ 0) →
    ∀ st : EmbState, (∀ r0 ∈ st.store, r0.documentId < st.nextId) →
      (chunkLoop env cd st (some p) l).1.nextId = st.nextId + l.length ∧
      (chunkLoop env cd st (some p) l).2.1 = some p ∧
      (chunkLoop env cd st (some p) l).2.2.1.map (fun r => r.documentId) =
        (List.range l.length).map (fun k => st.nextId + k) ∧
      (chunkLoop env cd st (some p) l).2.2.2.filterMap evCreateId =
        (List.range l.length).map (fun k => st.nextId + k) ∧
      (∀ e ∈ (chunkLoop env cd st (some p) l).2.2.2, st.nextId ≤ evDoc e) ∧
      ((chunkLoop env cd st (some p) l).2.2.2.map evDoc).Pairwise
        (fun a b => a ≤ b) ∧
      (∀ r' ∈ st.store, r' ∈ (chunkLoop env cd st (some p) l).1.store) ∧
      (∀ r' ∈ (chunkLoop env cd st (some p) l).1.store,
        r' ∈ st.store ∨
          (st.nextId ≤ r'.documentId ∧ r'.documentId < st.nextId + l.length ∧
            metaParent r' = some p ∧ 0 < chunkIndexKey r')) ∧
      (∀ r0 ∈ (chunkLoop env cd st (some p) l).1.store,
        r0.documentId < st.nextId + l.length) ∧
      (env.initialized = true → ∀ k, k < l.length →
        (∃ r' ∈ (chunkLoop env cd st (some p) l).1.store,
          r'.documentId = st.nextId + k ∧
            r'.embeddingId = (if env.embedFail (st.nextId + k) then none
              else some (env.embedIdOf (st.nextId + k)))) ∧
        [Ev.mCreate (st.nextId + k),
          Ev.vCreate (st.nextId + k) (!env.embedFail (st.nextId + k))].Sublist
          (chunkLoop env cd st (some p) l).2.2.2) := by
  intro l
  induction l with
  | nil =>
    intro _ st hfr
    refine ⟨rfl, rfl, rfl, rfl, ?_, List.Pairwise.nil, ?_, ?_, ?_, ?_⟩
    · intro e he
      exact absurd he (List.not_mem_nil e)
    · intro r' h
      exact h
    · intro r' h
      exact Or.inl h
    · intro r0 h
      simpa using hfr r0 h
    · intro _ k hk
      exact absurd hk (Nat.not_lt_zero k)
  | cons c rest ih =>
    intro hall st hfr
    have hcne : c.chunkIndex ≠ 0 := hall c (List.mem_cons_self c rest)
    obtain ⟨E, V, evs, heq, hEdoc, hEpar, hEidx, hEemb, hdocs, hfm, hsub⟩ :=
      chunkLoop_cons_ne_spec env cd st (some p) c rest hcne hfr
    have hfr2 : ∀ r0 ∈ (st.store ++ [E]), r0.documentId < st.nextId + 1 := by
      intro r0 hr0
      rcases List.mem_append.mp hr0 with h | h
      · exact Nat.lt_succ_of_lt (hfr r0 h)
      · rcases List.mem_singleton.mp h with rfl
        rw [hEdoc]
        exact Nat.lt_succ_self _
    obtain ⟨ih1, ih2, ih3, ih4, ih5, ih6, ih7, ih8, ih9, ih10⟩ :=
      ih (fun c' hc' => hall c' (List.mem_cons_of_mem _ hc'))
        ⟨st.store ++ [E], V, st.nextId + 1⟩ hfr2
    have hn2 : ((⟨st.store ++ [E], V, st.nextId + 1⟩ : EmbState)).nextId =
        st.nextId + 1 := rfl
    rw [hn2] at ih1 ih3 ih4 ih5 ih8 ih9 ih10
    rw [heq]
    refine ⟨?_, ih2, ?_, ?_, ?_, ?_, ?_, ?_, ?_, ?_⟩
    · show (chunkLoop env cd ⟨st.store ++ [E], V, st.nextId + 1⟩
          (some p) rest).1.nextId = st.nextId + (c :: rest).length
      rw [List.length_cons, ih1]
      show st.nextId + 1 + rest.length = _
      omega
    · show (E :: (chunkLoop env cd ⟨st.store ++ [E], V, st.nextId + 1⟩
          (some p) rest).2.2.1).map (fun r => r.documentId) =
        (List.range (c :: rest).length).map (fun k => st.nextId + k)
      rw [List.length_cons, range_map_shift, List.map_cons, hEdoc, ih3]
    · show (evs ++ (chunkLoop env cd ⟨st.store ++ [E], V, st.nextId + 1⟩
          (some p) rest).2.2.2).filterMap evCreateId =
        (List.range (c :: rest).length).map (fun k => st.nextId + k)
      rw [List.length_cons, range_map_shift, List.filterMap_append, hfm, ih4]
      rfl
    · intro e he
      rcases List.mem_append.mp he with h | h
      · rw [hdocs e h]
      · have := ih5 e h
        show st.nextId ≤ evDoc e
        omega
    · show ((evs ++ (chunkLoop env cd ⟨st.store ++ [E], V, st.nextId + 1⟩
          (some p) rest).2.2.2).map evDoc).Pairwise (fun a b => a ≤ b)
      rw [List.map_append, List.pairwise_append]
      refine ⟨pairwise_le_const st.nextId _ ?_, ih6, ?_⟩
      · intro x hx
        obtain ⟨e, he, hde⟩ := List.mem_map.mp hx
        rw [← hde]
        exact hdocs e he
      · intro a ha b hb
        obtain ⟨e1, he1, hde1⟩ := List.mem_map.mp ha
        obtain ⟨e2, he2, hde2⟩ := List.mem_map.mp hb
        have h1 : a = st.nextId := by rw [← hde1]; exact hdocs e1 he1
        have h2 := ih5 e2 he2
        rw [hde2] at h2
        omega
    · intro r' hr'
      exact ih7 r' (List.mem_append_left _ hr')
    · intro r' hr'
      rcases ih8 r' hr' with hmem | ⟨hge, hlt, hpar, hidx⟩
      · rcases List.mem_append.mp hmem with h | h
        · exact Or.inl h
        · rcases List.mem_singleton.mp h with rfl
          refine Or.inr ⟨Nat.le_of_eq hEdoc.symm, ?_, hEpar, ?_⟩
          · rw [hEdoc, List.length_cons]
            omega
          · rw [hEidx]
            exact Nat.pos_of_ne_zero hcne
      · refine Or.inr ⟨by omega, ?_, hpar, hidx⟩
        rw [List.length_cons]
        omega
    · intro r0 hr0
      have := ih9 r0 hr0
      rw [List.length_cons]
      omega
    · intro hinit k hk
      cases k with
      | zero =>
        constructor
        · refine ⟨E, ih7 E (List.mem_append_right _ (List.mem_singleton_self E)), ?_, ?_⟩
          · rw [hEdoc]
            rfl
          · rw [hEemb, hinit]
            cases hf : env.embedFail st.nextId <;> simp [hf]
        · show List.Sublist _ (evs ++ _)
          have h0 : st.nextId + 0 = st.nextId := rfl
          rw [h0]
          exact (hsub hinit).trans (List.sublist_append_left _ _)
      | succ j =>
        rw [List.length_cons] at hk
        obtain ⟨⟨r', hr', hdoc, hemb⟩, hsubl⟩ := ih10 hinit j (by omega)
        have harg : st.nextId + 1 + j = st.nextId + (j + 1) := by omega
        rw [harg] at hdoc hemb hsubl
        refine ⟨⟨r', hr', hdoc, hemb⟩, ?_⟩
        exact hsubl.trans (List.sublist_append_right _ _)

theorem chunkContent_map_chunkIndex (content : List Char) (cs ov : Nat)
    (seps : List (List Char)) :
    (Chunking.chunkContent content cs ov seps).map (fun c => c.chunkIndex) =
      List.range (Chunking.chunkContent content cs ov seps).length := by
  by_cases h1 : Chunking.trim content = []
  · rw [Chunking.chunkContent_empty h1]
    rfl
  · by_cases h2 : (Chunking.trim content).length ≤ cs
    · rw [Chunking.chunkContent_single h1 h2]
      rfl
    · rw [Chunking.chunkContent_main h1 h2, Chunking.reindex_map_chunkIndex,
        Chunking.reindex_length, List.range_eq_range']

theorem chunks_head_structure {L : List Chunking.TextChunk}
    (h : L.map (fun c => c.chunkIndex) = List.range L.length) (hlen : 2 ≤ L.length) :
    ∃ c0 rest, L = c0 :: rest ∧ c0.chunkIndex = 0 ∧ ∀ c ∈ rest, c.chunkIndex ≠ 0 := by
  cases L with
  | nil => simp at hlen
  | cons c0 rest =>
    rw [List.length_cons, List.range_succ_eq_map, List.map_cons] at h
    injection h with hh ht
    refine ⟨c0, rest, rfl, hh, ?_⟩
    intro c hc hzero
    have hmem : c.chunkIndex ∈ rest.map (fun c => c.chunkIndex) :=
      List.mem_map_of_mem _ hc
    rw [ht] at hmem
    obtain ⟨k, _, hk⟩ := List.mem_map.mp hmem
    rw [hzero] at hk
    exact Nat.succ_ne_zero k hk

theorem createChunkedEmbedding_multi (env : Env) (cfg : Config) (st : EmbState)
    (cd : CreateData)
    (hlen : 2 ≤ (Chunking.chunkContent cd.content (effChunkSize cfg) (effOverlap cfg)
      Chunking.DEFAULT_SEPARATORS).length) :
    createChunkedEmbedding env cfg st cd = Except.ok
      ((chunkLoop env cd st none
          (Chunking.chunkContent cd.content (effChunkSize cfg) (effOverlap cfg)
            Chunking.DEFAULT_SEPARATORS)).1,
       ⟨(chunkLoop env cd st none
          (Chunking.chunkContent cd.content (effChunkSize cfg) (effOverlap cfg)
            Chunking.DEFAULT_SEPARATORS)).2.2.1.headD dummyMRec,
        (chunkLoop env cd st none
          (Chunking.chunkContent cd.content (effChunkSize cfg) (effOverlap cfg)
            Chunking.DEFAULT_SEPARATORS)).2.2.1,
        (chunkLoop env cd st none
          (Chunking.chunkContent cd.content (effChunkSize cfg) (effOverlap cfg)
            Chunking.DEFAULT_SEPARATORS)).2.2.1.length, true⟩,
       (chunkLoop env cd st none
          (Chunking.chunkContent cd.content (effChunkSize cfg) (effOverlap cfg)
            Chunking.DEFAULT_SEPARATORS)).2.2.2) := by
  unfold createChunkedEmbedding
  rw [if_neg (by omega), if_neg (by omega)]

/-- **C7** (anchor-first write ordering): during chunked materialization of a
group with more than one chunk, the trace starts with the creation of the
chunk-0 mirror record (whose id, `st.nextId`, is the captured anchor), the
mirror records are created in ascending chunk order (documents
`st.nextId + 0, st.nextId + 1, …`), every event of the trace refers to
documents in non-decreasing order (writes are strictly sequential by chunk),
and in the final store no fresh record with a positive chunk index has an
unset `parentDocumentId` — each one points at the anchor `st.nextId`. -/
theorem anchor_first_ordering (env : Env) (cfg : Config) (st : EmbState)
    (cd : CreateData)
    (hfr : ∀ r0 ∈ st.store, r0.documentId < st.nextId)
    (hlen : 2 ≤ (Chunking.chunkContent cd.content (effChunkSize cfg) (effOverlap cfg)
      Chunking.DEFAULT_SEPARATORS).length) :
    ∀ st' res tr, createChunkedEmbedding env cfg st cd = Except.ok (st', res, tr) →
      (∃ tr', tr = Ev.mCreate st.nextId :: tr') ∧
      tr.filterMap evCreateId =
        (List.range (Chunking.chunkContent cd.content (effChunkSize cfg)
          (effOverlap cfg) Chunking.DEFAULT_SEPARATORS).length).map
          (fun k => st.nextId + k) ∧
      (tr.map evDoc).Pairwise (fun a b => a ≤ b) ∧
      (∀ r' ∈ st'.store, st.nextId ≤ r'.documentId → 0 < chunkIndexKey r' →
        metaParent r' = some st.nextId) := by
  intro st' res tr hok
  rw [createChunkedEmbedding_multi env cfg st cd hlen] at hok
  injection hok with htup
  injection htup with hA hBC
  injection hBC with hB hC
  subst hA
  subst hC
  obtain ⟨c0, rest, hL, hc0, hrest⟩ :=
    chunks_head_structure (chunkContent_map_chunkIndex cd.content (effChunkSize cfg)
      (effOverlap cfg) Chunking.DEFAULT_SEPARATORS) hlen
  rw [hL]
  obtain ⟨E, V, evs, heq, hEdoc, hEidx, hEemb, hdocs, hfm, ⟨evs2, hevs2⟩, hsubz⟩ :=
    chunkLoop_cons_zero_spec env cd st none c0 rest hc0 hfr
  have hfr2 : ∀ r0 ∈ (st.store ++ [E]), r0.documentId < st.nextId + 1 := by
    intro r0 hr0
    rcases List.mem_append.mp hr0 with h | h
    · exact Nat.lt_succ_of_lt (hfr r0 h)
    · rcases List.mem_singleton.mp h with rfl
      rw [hEdoc]
      exact Nat.lt_succ_self _
  obtain ⟨ih1, ih2, ih3, ih4, ih5, ih6, ih7, ih8, ih9, ih10⟩ :=
    chunkLoop_tail env cd st.nextId rest hrest
      ⟨st.store ++ [E], V, st.nextId + 1⟩ hfr2
  have hn2 : ((⟨st.store ++ [E], V, st.nextId + 1⟩ : EmbState)).nextId =
      st.nextId + 1 := rfl
  rw [hn2] at ih1 ih3 ih4 ih5 ih8 ih9 ih10
  rw [heq]
  refine ⟨?_, ?_, ?_, ?_⟩
  · refine ⟨evs2 ++ (chunkLoop env cd ⟨st.store ++ [E], V, st.nextId + 1⟩
      (some st.nextId) rest).2.2.2, ?_⟩
    rw [hevs2]
    rfl
  · show (evs ++ (chunkLoop env cd ⟨st.store ++ [E], V, st.nextId + 1⟩
        (some st.nextId) rest).2.2.2).filterMap evCreateId =
      (List.range (c0 :: rest).length).map (fun k => st.nextId + k)
    rw [List.length_cons, range_map_shift, List.filterMap_append, hfm, ih4]
    rfl
  · show ((evs ++ (chunkLoop env cd ⟨st.store ++ [E], V, st.nextId + 1⟩
        (some st.nextId) rest).2.2.2).map evDoc).Pairwise (fun a b => a ≤ b)
    rw [List.map_append, List.pairwise_append]
    refine ⟨pairwise_le_const st.nextId _ ?_, ih6, ?_⟩
    · intro x hx
      obtain ⟨e, he, hde⟩ := List.mem_map.mp hx
      rw [← hde]
      exact hdocs e he
    · intro a ha b hb
      obtain ⟨e1, he1, hde1⟩ := List.mem_map.mp ha
      obtain ⟨e2, he2, hde2⟩ := List.mem_map.mp hb
      have h1 : a = st.nextId := by rw [← hde1]; exact hdocs e1 he1
      have h2 := ih5 e2 he2
      rw [hde2] at h2
      omega
  · intro r' hr' hge hidx
    rcases ih8 r' hr' with hmem | ⟨_, _, hpar, _⟩
    · rcases List.mem_append.mp hmem with h | h
      · exact absurd hge (Nat.not_le_of_lt (hfr r' h))
      · rcases List.mem_singleton.mp h with rfl
        rw [hEidx] at hidx
        exact absurd hidx (Nat.lt_irrefl 0)
    · exact hpar

/-- **C8** (partial-failure tolerance in materialization): for every chunk of
a multi-chunk group, the mirror record is written before the embedding
creation is attempted (per chunk, `mCreate` precedes `vCreate` in the
trace), a chunk whose embedding write fails (oracle `embedFail`) leaves its
mirror record in the final store with a null `embeddingId` while a
successful one carries the vector reference, every chunk — including failed
ones — appears in the returned result in order, and every subsequent chunk
is still processed: one failing chunk never aborts the batch. -/
theorem partial_failure_tolerance (env : Env) (cfg : Config) (st : EmbState)
    (cd : CreateData)
    (hinit : env.initialized = true)
    (hfr : ∀ r0 ∈ st.store, r0.documentId < st.nextId)
    (hlen : 2 ≤ (Chunking.chunkContent cd.content (effChunkSize cfg) (effOverlap cfg)
      Chunking.DEFAULT_SEPARATORS).length) :
    ∀ st' res tr, createChunkedEmbedding env cfg st cd = Except.ok (st', res, tr) →
      res.chunks.map (fun r => r.documentId) =
        (List.range (Chunking.chunkContent cd.content (effChunkSize cfg)
          (effOverlap cfg) Chunking.DEFAULT_SEPARATORS).length).map
          (fun k => st.nextId + k) ∧
      (∀ k, k < (Chunking.chunkContent cd.content (effChunkSize cfg) (effOverlap cfg)
          Chunking.DEFAULT_SEPARATORS).length →
        [Ev.mCreate (st.nextId + k),
          Ev.vCreate (st.nextId + k) (!env.embedFail (st.nextId + k))].Sublist tr) ∧
      (∀ k, k < (Chunking.chunkContent cd.content (effChunkSize cfg) (effOverlap cfg)
          Chunking.DEFAULT_SEPARATORS).length →
        ∃ r' ∈ st'.store, r'.documentId = st.nextId + k ∧
          r'.embeddingId = (if env.embedFail (st.nextId + k) then none
            else some (env.embedIdOf (st.nextId + k)))) := by
  intro st' res tr hok
  rw [createChunkedEmbedding_multi env cfg st cd hlen] at hok
  injection hok with htup
  injection htup with hA hBC
  injection hBC with hB hC
  subst hA
  subst hB
  subst hC
  obtain ⟨c0, rest, hL, hc0, hrest⟩ :=
    chunks_head_structure (chunkContent_map_chunkIndex cd.content (effChunkSize cfg)
      (effOverlap cfg) Chunking.DEFAULT_SEPARATORS) hlen
  rw [hL]
  obtain ⟨E, V, evs, heq, hEdoc, hEidx, hEemb, hdocs, hfm, ⟨evs2, hevs2⟩, hsubz⟩ :=
    chunkLoop_cons_zero_spec env cd st none c0 rest hc0 hfr
  have hfr2 : ∀ r0 ∈ (st.store ++ [E]), r0.documentId < st.nextId + 1 := by
    intro r0 hr0
    rcases List.mem_append.mp hr0 with h | h
    · exact Nat.lt_succ_of_lt (hfr r0 h)
    · rcases List.mem_singleton.mp h with rfl
      rw [hEdoc]
      exact Nat.lt_succ_self _
  obtain ⟨ih1, ih2, ih3, ih4, ih5, ih6, ih7, ih8, ih9, ih10⟩ :=
    chunkLoop_tail env cd st.nextId rest hrest
      ⟨st.store ++ [E], V, st.nextId + 1⟩ hfr2
  have hn2 : ((⟨st.store ++ [E], V, st.nextId + 1⟩ : EmbState)).nextId =
      st.nextId + 1 := rfl
  rw [hn2] at ih1 ih3 ih4 ih5 ih8 ih9 ih10
  rw [heq]
  refine ⟨?_, ?_, ?_⟩
  · show (E :: (chunkLoop env cd ⟨st.store ++ [E], V, st.nextId + 1⟩
        (some st.nextId) rest).2.2.1).map (fun r => r.documentId) =
      (List.range (c0 :: rest).length).map (fun k => st.nextId + k)
    rw [List.length_cons, range_map_shift, List.map_cons, hEdoc, ih3]
  · intro k hk
    cases k with
    | zero =>
      show List.Sublist _ (evs ++ _)
      have h0 : st.nextId + 0 = st.nextId := rfl
      rw [h0]
      exact (hsubz hinit).trans (List.sublist_append_left _ _)
    | succ j =>
      rw [List.length_cons] at hk
      obtain ⟨_, hsubl⟩ := ih10 hinit j (by omega)
      have harg : st.nextId + 1 + j = st.nextId + (j + 1) := by omega
      rw [harg] at hsubl
      exact hsubl.trans (List.sublist_append_right _ _)
  · intro k hk
    cases k with
    | zero =>
      refine ⟨E, ih7 E (List.mem_append_right _ (List.mem_singleton_self E)), ?_, ?_⟩
      · rw [hEdoc]
        rfl
      · rw [hEemb, hinit]
        cases hf : env.embedFail st.nextId <;> simp [hf]
    | succ j =>
      rw [List.length_cons] at hk
      obtain ⟨⟨r', hr', hdoc, hemb⟩, _⟩ := ih10 hinit j (by omega)
      have harg : st.nextId + 1 + j = st.nextId + (j + 1) := by omega
      rw [harg] at hdoc hemb
      exact ⟨r', hr', hdoc, hemb⟩

set_option maxRecDepth 8000 in
theorem anchor_first_ordering_witness :
    (∀ r0 ∈ (EmbState.store ⟨[], [], 0⟩), r0.documentId < EmbState.nextId ⟨[], [], 0⟩) ∧
    2 ≤ (Chunking.chunkContent ['a', 'b', 'c', 'd'] (effChunkSize ⟨3, 1, true, false⟩)
      (effOverlap ⟨3, 1, true, false⟩) Chunking.DEFAULT_SEPARATORS).length ∧
    (∀ st' res tr, createChunkedEmbedding
        ⟨true, fun _ => false, fun _ => false, fun _ => "E", fun c => c⟩
        ⟨3, 1, true, false⟩ ⟨[], [], 0⟩
        ⟨"Doc", ['a', 'b', 'c', 'd'], none, none, none, none, none⟩ =
        Except.ok (st', res, tr) →
      (∃ tr', tr = Ev.mCreate 0 :: tr') ∧
      tr.filterMap evCreateId =
        (List.range (Chunking.chunkContent ['a', 'b', 'c', 'd']
          (effChunkSize ⟨3, 1, true, false⟩) (effOverlap ⟨3, 1, true, false⟩)
          Chunking.DEFAULT_SEPARATORS).length).map (fun k => 0 + k) ∧
      (tr.map evDoc).Pairwise (fun a b => a ≤ b) ∧
      (∀ r' ∈ st'.store, 0 ≤ r'.documentId → 0 < chunkIndexKey r' →
        metaParent r' = some 0)) :=
  ⟨by decide, by decide,
    anchor_first_ordering
      ⟨true, fun _ => false, fun _ => false, fun _ => "E", fun c => c⟩
      ⟨3, 1, true, false⟩ ⟨[], [], 0⟩
      ⟨"Doc", ['a', 'b', 'c', 'd'], none, none, none, none, none⟩
      (by decide) (by decide)⟩

set_option maxRecDepth 8000 in
theorem partial_failure_tolerance_witness :
    (Env.initialized ⟨true, fun i => i == 1, fun _ => false, fun _ => "E", fun c => c⟩
      = true) ∧
    (∀ r0 ∈ (EmbState.store ⟨[], [], 0⟩), r0.documentId < EmbState.nextId ⟨[], [], 0⟩) ∧
    2 ≤ (Chunking.chunkContent ['a', 'b', 'c', 'd'] (effChunkSize ⟨3, 1, true, false⟩)
      (effOverlap ⟨3, 1, true, false⟩) Chunking.DEFAULT_SEPARATORS).length ∧
    (∀ st' res tr, createChunkedEmbedding
        ⟨true, fun i => i == 1, fun _ => false, fun _ => "E", fun c => c⟩
        ⟨3, 1, true, false⟩ ⟨[], [], 0⟩
        ⟨"Doc", ['a', 'b', 'c', 'd'], none, none, none, none, none⟩ =
        Except.ok (st', res, tr) →
      res.chunks.map (fun r => r.documentId) =
        (List.range (Chunking.chunkContent ['a', 'b', 'c', 'd']
          (effChunkSize ⟨3, 1, true, false⟩) (effOverlap ⟨3, 1, true, false⟩)
          Chunking.DEFAULT_SEPARATORS).length).map (fun k => 0 + k) ∧
      (∀ k, k < (Chunking.chunkContent ['a', 'b', 'c', 'd']
          (effChunkSize ⟨3, 1, true, false⟩) (effOverlap ⟨3, 1, true, false⟩)
          Chunking.DEFAULT_SEPARATORS).length →
        [Ev.mCreate (0 + k),
          Ev.vCreate (0 + k)
            (!Env.embedFail ⟨true, fun i => i == 1, fun _ => false, fun _ => "E",
              fun c => c⟩ (0 + k))].Sublist tr) ∧
      (∀ k, k < (Chunking.chunkContent ['a', 'b', 'c', 'd']
          (effChunkSize ⟨3, 1, true, false⟩) (effOverlap ⟨3, 1, true, false⟩)
          Chunking.DEFAULT_SEPARATORS).length →
        ∃ r' ∈ st'.store, r'.documentId = 0 + k ∧
          r'.embeddingId =
            (if Env.embedFail ⟨true, fun i => i == 1, fun _ => false, fun _ => "E",
                fun c => c⟩ (0 + k)
             then none
             else some (Env.embedIdOf ⟨true, fun i => i == 1, fun _ => false,
               fun _ => "E", fun c => c⟩ (0 + k))))) :=
  ⟨rfl, by decide, by decide,
    partial_failure_tolerance
      ⟨true, fun i => i == 1, fun _ => false, fun _ => "E", fun c => c⟩
      ⟨3, 1, true, false⟩ ⟨[], [], 0⟩
      ⟨"Doc", ['a', 'b', 'c', 'd'], none, none, none, none, none⟩
      rfl (by decide) (by decide)⟩

theorem createEmbeddingCore_store_eq (env : Env) (st : EmbState) (cd : CreateData)
    (hfr : ∀ r0 ∈ st.store, r0.documentId < st.nextId) :
    (createEmbeddingCore env st cd).1.store =
      st.store ++ [(createEmbeddingCore env st cd).2.1] := by
  have hupd := storeUpdate_fresh st hfr
  cases hinit : env.initialized <;> cases hf : env.embedFail st.nextId <;>
    simp [createEmbeddingCore, hinit, hf, hupd]

theorem createEmbeddingCore_entity_doc (env : Env) (st : EmbState) (cd : CreateData) :
    (createEmbeddingCore env st cd).2.1.documentId = st.nextId := by
  cases hinit : env.initialized <;> cases hf : env.embedFail st.nextId <;>
    simp [createEmbeddingCore, hinit, hf]

theorem chunkLoop_store_mem (env : Env) (cd : CreateData) :
    ∀ (l : List Chunking.TextChunk) (st : EmbState) (pid : Option Nat),
      (∀ r0 ∈ st.store, r0.documentId < st.nextId) →
      ∀ r' ∈ (chunkLoop env cd st pid l).1.store,
        r' ∈ st.store ∨ st.nextId ≤ r'.documentId := by
  intro l
  induction l with
  | nil =>
    intro st pid hfr r' hr'
    exact Or.inl hr'
  | cons c rest ih =>
    intro st pid hfr r' hr'
    by_cases hci : c.chunkIndex = 0
    · obtain ⟨E, V, evs, heq, hEdoc, _, _, _, _, _, _⟩ :=
        chunkLoop_cons_zero_spec env cd st pid c rest hci hfr
      rw [heq] at hr'
      have hr2 : r' ∈ (chunkLoop env cd ⟨st.store ++ [E], V, st.nextId + 1⟩
          (some st.nextId) rest).1.store := hr'
      have hfr2 : ∀ r0 ∈ (st.store ++ [E]), r0.documentId < st.nextId + 1 := by
        intro r0 hr0
        rcases List.mem_append.mp hr0 with h | h
        · exact Nat.lt_succ_of_lt (hfr r0 h)
        · rcases List.mem_singleton.mp h with rfl
          rw [hEdoc]
          exact Nat.lt_succ_self _
      rcases ih ⟨st.store ++ [E], V, st.nextId + 1⟩ (some st.nextId) hfr2 r' hr2
        with hmem | hge
      · rcases List.mem_append.mp hmem with h | h
        · exact Or.inl h
        · rcases List.mem_singleton.mp h with rfl
          exact Or.inr (Nat.le_of_eq hEdoc.symm)
      · refine Or.inr ?_
        have h2 : st.nextId + 1 ≤ r'.documentId := hge
        omega
    · obtain ⟨E, V, evs, heq, hEdoc, _, _, _, _, _, _⟩ :=
        chunkLoop_cons_ne_spec env cd st pid c rest hci hfr
      rw [heq] at hr'
      have hr2 : r' ∈ (chunkLoop env cd ⟨st.store ++ [E], V, st.nextId + 1⟩
          pid rest).1.store := hr'
      have hfr2 : ∀ r0 ∈ (st.store ++ [E]), r0.documentId < st.nextId + 1 := by
        intro r0 hr0
        rcases List.mem_append.mp hr0 with h | h
        · exact Nat.lt_succ_of_lt (hfr r0 h)
        · rcases List.mem_singleton.mp h with rfl
          rw [hEdoc]
          exact Nat.lt_succ_self _
      rcases ih ⟨st.store ++ [E], V, st.nextId + 1⟩ pid hfr2 r' hr2 with hmem | hge
      · rcases List.mem_append.mp hmem with h | h
        · exact Or.inl h
        · rcases List.mem_singleton.mp h with rfl
          exact Or.inr (Nat.le_of_eq hEdoc.symm)
      · refine Or.inr ?_
        have h2 : st.nextId + 1 ≤ r'.documentId := hge
        omega

theorem createChunkedEmbedding_store_mem (env : Env) (cfg : Config) (st : EmbState)
    (cd : CreateData)
    (hfr : ∀ r0 ∈ st.store, r0.documentId < st.nextId) :
    ∀ st' res tr, createChunkedEmbedding env cfg st cd = Except.ok (st', res, tr) →
      ∀ r' ∈ st'.store, r' ∈ st.store ∨ st.nextId ≤ r'.documentId := by
  intro st' res tr hok r' hr'
  simp only [createChunkedEmbedding] at hok
  revert hok
  split
  · intro h
    exact Except.noConfusion h
  · split
    · intro h
      injection h with h2
      injection h2 with hA hBC
      subst hA
      rw [createEmbeddingCore_store_eq env st _ hfr] at hr'
      rcases List.mem_append.mp hr' with hm | hm
      · exact Or.inl hm
      · rcases List.mem_singleton.mp hm with rfl
        exact Or.inr (Nat.le_of_eq (createEmbeddingCore_entity_doc env st _).symm)
    · intro h
      injection h with h2
      injection h2 with hA hBC
      subst hA
      exact chunkLoop_store_mem env cd _ st none hfr r' hr'

theorem createEmbedding_store_mem (env : Env) (cfg : Config) (st : EmbState)
    (cd : CreateData)
    (hfr : ∀ r0 ∈ st.store, r0.documentId < st.nextId) :
    ∀ st' e tr, createEmbedding env cfg st cd = Except.ok (st', e, tr) →
      ∀ r' ∈ st'.store, r' ∈ st.store ∨ st.nextId ≤ r'.documentId := by
  intro st' e tr hok r' hr'
  simp only [createEmbedding] at hok
  revert hok
  split
  · split
    · intro h
      exact Except.noConfusion h
    · rename_i heq
      intro h
      injection h with h2
      injection h2 with hA hBC
      subst hA
      exact createChunkedEmbedding_store_mem env cfg st cd hfr _ _ _ heq r' hr'
  · intro h
    injection h with h2
    injection h2 with hA hBC
    subst hA
    rw [createEmbeddingCore_store_eq env st _ hfr] at hr'
    rcases List.mem_append.mp hr' with hm | hm
    · exact Or.inl hm
    · rcases List.mem_singleton.mp hm with rfl
      exact Or.inr (Nat.le_of_eq (createEmbeddingCore_entity_doc env st _).symm)

theorem updateChunkedEmbedding_old_records (env : Env) (cfg : Config) (st : EmbState)
    (id : Nat) (data : UpdateData) (entry : MRec)
    (hfr : ∀ r0 ∈ st.store, r0.documentId < st.nextId)
    (hentry : findOne st.store id = some entry) :
    ∀ st' res tr, updateChunkedEmbedding env cfg st id data = Except.ok (st', res, tr) →
      ∀ r' ∈ st'.store, r'.documentId < st.nextId →
        r'.documentId ≠ (metaParent entry).getD id ∧
          metaParent r' ≠ some ((metaParent entry).getD id) := by
  intro st' res tr hok r' hr' hlt
  simp only [updateChunkedEmbedding, hentry] at hok
  have hdel_sub := deleteLoop_store env (findRelatedChunks st.store id) st
  have hdel_nid : (deleteRelatedChunks env st id).1.nextId = st.nextId :=
    deleteLoop_nextId env (findRelatedChunks st.store id) st
  have hdelfr : ∀ r0 ∈ (deleteRelatedChunks env st id).1.store,
      r0.documentId < (deleteRelatedChunks env st id).1.nextId := by
    intro r0 h0
    rw [hdel_nid]
    exact hfr r0 (hdel_sub r0 h0).1
  have hmain : ∀ r2 ∈ (deleteRelatedChunks env st id).1.store,
      r2.documentId ≠ (metaParent entry).getD id ∧
        metaParent r2 ≠ some ((metaParent entry).getD id) := by
    intro r2 h2
    obtain ⟨hmem, hall⟩ := hdel_sub r2 h2
    have hkey : ¬ (r2.documentId = (metaParent entry).getD id ∨
        metaParent r2 = some ((metaParent entry).getD id)) := by
      intro hdisj
      obtain ⟨c, hc, hcd⟩ :=
        findRelatedChunks_covers st.store id entry hentry r2 hmem hdisj
      exact hall c hc hcd.symm
    exact ⟨fun h => hkey (Or.inl h), fun h => hkey (Or.inr h)⟩
  revert hok
  split
  · split
    · intro h
      exact Except.noConfusion h
    · rename_i heq
      intro h
      injection h with h2
      injection h2 with hA hBC
      subst hA
      rcases createChunkedEmbedding_store_mem env cfg _ _ hdelfr _ _ _ heq r' hr'
        with hm | hge
      · exact hmain r' hm
      · exfalso
        have hge2 : (deleteRelatedChunks env st id).1.nextId ≤ r'.documentId := hge
        rw [hdel_nid] at hge2
        omega
  · split
    · intro h
      exact Except.noConfusion h
    · rename_i heq
      intro h
      injection h with h2
      injection h2 with hA hBC
      subst hA
      rcases createEmbedding_store_mem env cfg _ _ hdelfr _ _ _ heq r' hr'
        with hm | hge
      · exact hmain r' hm
      · exfalso
        have hge2 : (deleteRelatedChunks env st id).1.nextId ≤ r'.documentId := hge
        rw [hdel_nid] at hge2
        omega

theorem storeUpdate_length (l : List MRec) (d : Nat) (f : MRec → MRec) :
    (storeUpdate l d f).length = l.length :=
  List.length_map l _

theorem storeUpdate_mem_of_ne (l : List MRec) (d : Nat) (f : MRec → MRec) (r0 : MRec)
    (h : r0 ∈ l) (hne : r0.documentId ≠ d) : r0 ∈ storeUpdate l d f := by
  have hfx : (if r0.documentId == d then f r0 else r0) = r0 := by
    have hb : (r0.documentId == d) = false := by simp [hne]
    rw [hb]
    rfl
  exact List.mem_map.mpr ⟨r0, h, hfx⟩

theorem storeUpdate_mem_rev (l : List MRec) (d : Nat) (f : MRec → MRec) (r' : MRec)
    (h : r' ∈ storeUpdate l d f)
    (hpres : ∀ r, (f r).documentId = r.documentId)
    (hne : r'.documentId ≠ d) : r' ∈ l := by
  obtain ⟨r0, hr0, heq⟩ := List.mem_map.mp h
  have hff : ¬ (false = true) := fun hh => Bool.noConfusion hh
  by_cases hb : r0.documentId = d
  · exfalso
    have hb1 : (r0.documentId == d) = true := by simp [hb]
    rw [hb1, if_pos rfl] at heq
    apply hne
    rw [← heq, hpres, hb]
  · have hb1 : (r0.documentId == d) = false := by simp [hb]
    rw [hb1, if_neg hff] at heq
    rw [← heq]
    exact hr0

theorem storeUpdate_comp (l : List MRec) (d : Nat) (f g : MRec → MRec)
    (hf : ∀ r, (f r).documentId = r.documentId) :
    storeUpdate (storeUpdate l d f) d g = storeUpdate l d (fun r => g (f r)) := by
  show (l.map _).map _ = l.map _
  rw [List.map_map]
  apply List.map_congr_left
  intro r _
  by_cases hb : r.documentId = d
  · have hb1 : (r.documentId == d) = true := by simp [hb]
    have hb2 : ((f r).documentId == d) = true := by simp [hf r, hb]
    simp only [Function.comp_apply, hb1, if_true, hb2]
  · have hb1 : (r.documentId == d) = false := by simp [hb]
    simp only [Function.comp_apply, hb1, Bool.false_eq_true, if_false]

theorem alt_update_frame (env : Env) (st : EmbState) (id : Nat) (data : UpdateData)
    (entry : MRec) (hentry : findOne st.store id = some entry) :
    ∀ st' res tr, Alt.updateChunkedEmbedding env st id data = Except.ok (st', res, tr) →
      st'.store.length = st.store.length ∧
      (∀ r0 ∈ st.store, r0.documentId ≠ id → r0 ∈ st'.store) ∧
      (∀ r' ∈ st'.store, r'.documentId ≠ id → r' ∈ st.store) := by
  intro st' res tr hok
  simp only [Alt.updateChunkedEmbedding, hentry] at hok
  injection hok with h2
  injection h2 with hA hBC
  subst hA
  split
  · split
    · exact ⟨storeUpdate_length _ _ _,
        fun r0 h0 hne => storeUpdate_mem_of_ne _ _ _ r0 h0 hne,
        fun r' h' hne => storeUpdate_mem_rev _ _ _ r' h' (fun r => rfl) hne⟩
    · split
      · exact ⟨storeUpdate_length _ _ _,
          fun r0 h0 hne => storeUpdate_mem_of_ne _ _ _ r0 h0 hne,
          fun r' h' hne => storeUpdate_mem_rev _ _ _ r' h' (fun r => rfl) hne⟩
      · exact ⟨(storeUpdate_length _ _ _).trans (storeUpdate_length _ _ _),
          fun r0 h0 hne => storeUpdate_mem_of_ne _ _ _ r0
            (storeUpdate_mem_of_ne _ _ _ r0 h0 hne) hne,
          fun r' h' hne => storeUpdate_mem_rev _ _ _ r'
            (storeUpdate_mem_rev _ _ _ r' h' (fun r => rfl) hne)
            (fun r => rfl) hne⟩
  · exact ⟨storeUpdate_length _ _ _,
      fun r0 h0 hne => storeUpdate_mem_of_ne _ _ _ r0 h0 hne,
      fun r' h' hne => storeUpdate_mem_rev _ _ _ r' h' (fun r => rfl) hne⟩

theorem alt_update_entity (env : Env) (st : EmbState) (id : Nat) (data : UpdateData)
    (entry : MRec) (hentry : findOne st.store id = some entry) :
    ∀ st' res tr, Alt.updateChunkedEmbedding env st id data = Except.ok (st', res, tr) →
      ∀ t, data.title = some t →
        res.entity.title =
          (match (partSuffixSplit entry.title.data).2 with
           | some suf => t ++ String.mk suf
           | none => t) := by
  intro st' res tr hok t ht
  simp only [Alt.updateChunkedEmbedding, hentry] at hok
  injection hok with h2
  injection h2 with hA hBC
  injection hBC with hB hC
  subst hB
  cases hsuf : (partSuffixSplit entry.title.data).2 <;> simp [ht, hsuf]

/-- **C3** (amended): the two update paths differ from the claimed
fits-in-place/re-chunk split.  In the primary service, *every* update of a
chunk-group member — whether or not the new content fits the existing chunk
boundaries — deletes the entire old group and re-materializes from scratch:
after a successful `updateEmbedding` on a group member no surviving
pre-existing record belongs to the old group (none carries the old anchor id
and none references it), the replacement records being freshly created.  In
the alternate service, `updateChunkedEmbedding` instead *always* updates the
single targeted record in place: the store keeps its length, every
non-targeted record survives unchanged, no new record appears, and a title
update preserves the `[Part i/N]` suffix of the targeted chunk. -/
theorem update_group_semantics (env : Env) (cfg : Config) (st : EmbState) (id : Nat)
    (data : UpdateData) (entry : MRec)
    (hfr : ∀ r0 ∈ st.store, r0.documentId < st.nextId)
    (hentry : findOne st.store id = some entry)
    (hgrp : ((metaParent entry).isSome || metaIsChunk entry) = true) :
    (∀ st' e tr, updateEmbedding env cfg st id data = Except.ok (st', e, tr) →
      ∀ r' ∈ st'.store, r'.documentId < st.nextId →
        r'.documentId ≠ (metaParent entry).getD id ∧
          metaParent r' ≠ some ((metaParent entry).getD id)) ∧
    (∀ st' res tr,
      Alt.updateChunkedEmbedding env st id data = Except.ok (st', res, tr) →
      st'.store.length = st.store.length ∧
      (∀ r0 ∈ st.store, r0.documentId ≠ id → r0 ∈ st'.store) ∧
      (∀ r' ∈ st'.store, r'.documentId ≠ id → r' ∈ st.store) ∧
      (∀ t, data.title = some t →
        res.entity.title =
          (match (partSuffixSplit entry.title.data).2 with
           | some suf => t ++ String.mk suf
           | none => t))) := by
  constructor
  · intro st' e tr hok r' hr' hlt
    simp only [updateEmbedding, hentry] at hok
    rw [hgrp, Bool.true_or, if_pos rfl] at hok
    revert hok
    split
    · intro h
      exact Except.noConfusion h
    · rename_i heq
      intro h
      injection h with h2
      injection h2 with hA hBC
      subst hA
      exact updateChunkedEmbedding_old_records env cfg st id data entry hfr hentry
        _ _ _ heq r' hr' hlt
  · intro st' res tr hok
    obtain ⟨hlen, hfwd, hbwd⟩ := alt_update_frame env st id data entry hentry
      st' res tr hok
    exact ⟨hlen, hfwd, hbwd,
      alt_update_entity env st id data entry hentry st' res tr hok⟩

/-- **C3** counterexample: in the primary service an update of a chunk-group
member whose new content is far below the chunking threshold (so it
trivially "fits") does *not* modify the targeted record in place: the whole
group (anchor 5 and targeted chunk 6) is deleted and a fresh document is
created, so afterwards no record with the old ids survives. -/
theorem update_in_place_counterexample :
    (match updateEmbedding
        ⟨true, fun _ => false, fun _ => false, fun _ => "E", fun c => c⟩
        ⟨0, 0, true, false⟩
        ⟨[⟨5, "Doc [Part 1/2]", ['a'], "standalone", "content",
            some ⟨true, 0, 2, 0, 1, "Doc", none, 1⟩, some "e5", none⟩,
          ⟨6, "Doc [Part 2/2]", ['b'], "standalone", "content",
            some ⟨true, 1, 2, 1, 2, "Doc", some 5, 1⟩, some "e6", none⟩], [], 7⟩
        6 ⟨none, some ['x'], none, none⟩ with
      | Except.ok (st', _, _) =>
        st'.store.all (fun r => r.documentId != 5 && r.documentId != 6)
      | Except.error _ => false) = true := by decide

theorem update_group_semantics_witness :
    (∀ r0 ∈ EmbState.store
        ⟨[⟨5, "Doc [Part 1/2]", ['a'], "standalone", "content",
            some ⟨true, 0, 2, 0, 1, "Doc", none, 1⟩, some "e5", none⟩,
          ⟨6, "Doc [Part 2/2]", ['b'], "standalone", "content",
            some ⟨true, 1, 2, 1, 2, "Doc", some 5, 1⟩, some "e6", none⟩], [], 7⟩,
        r0.documentId < 7) ∧
    findOne (EmbState.store
        ⟨[⟨5, "Doc [Part 1/2]", ['a'], "standalone", "content",
            some ⟨true, 0, 2, 0, 1, "Doc", none, 1⟩, some "e5", none⟩,
          ⟨6, "Doc [Part 2/2]", ['b'], "standalone", "content",
            some ⟨true, 1, 2, 1, 2, "Doc", some 5, 1⟩, some "e6", none⟩], [], 7⟩) 6 =
      some ⟨6, "Doc [Part 2/2]", ['b'], "standalone", "content",
        some ⟨true, 1, 2, 1, 2, "Doc", some 5, 1⟩, some "e6", none⟩ ∧
    ((∀ st' e tr, updateEmbedding
        ⟨true, fun _ => false, fun _ => false, fun _ => "E", fun c => c⟩
        ⟨0, 0, true, false⟩
        ⟨[⟨5, "Doc [Part 1/2]", ['a'], "standalone", "content",
            some ⟨true, 0, 2, 0, 1, "Doc", none, 1⟩, some "e5", none⟩,
          ⟨6, "Doc [Part 2/2]", ['b'], "standalone", "content",
            some ⟨true, 1, 2, 1, 2, "Doc", some 5, 1⟩, some "e6", none⟩], [], 7⟩
        6 ⟨some "New", none, none, none⟩ = Except.ok (st', e, tr) →
      ∀ r' ∈ st'.store, r'.documentId < 7 →
        r'.documentId ≠ (metaParent ⟨6, "Doc [Part 2/2]", ['b'], "standalone",
            "content", some ⟨true, 1, 2, 1, 2, "Doc", some 5, 1⟩,
            some "e6", none⟩).getD 6 ∧
          metaParent r' ≠ some ((metaParent ⟨6, "Doc [Part 2/2]", ['b'],
            "standalone", "content", some ⟨true, 1, 2, 1, 2, "Doc", some 5, 1⟩,
            some "e6", none⟩).getD 6)) ∧
    (∀ st' res tr, Alt.updateChunkedEmbedding
        ⟨true, fun _ => false, fun _ => false, fun _ => "E", fun c => c⟩
        ⟨[⟨5, "Doc [Part 1/2]", ['a'], "standalone", "content",
            some ⟨true, 0, 2, 0, 1, "Doc", none, 1⟩, some "e5", none⟩,
          ⟨6, "Doc [Part 2/2]", ['b'], "standalone", "content",
            some ⟨true, 1, 2, 1, 2, "Doc", some 5, 1⟩, some "e6", none⟩], [], 7⟩
        6 ⟨some "New", none, none, none⟩ = Except.ok (st', res, tr) →
      st'.store.length = (EmbState.store
        ⟨[⟨5, "Doc [Part 1/2]", ['a'], "standalone", "content",
            some ⟨true, 0, 2, 0, 1, "Doc", none, 1⟩, some "e5", none⟩,
          ⟨6, "Doc [Part 2/2]", ['b'], "standalone", "content",
            some ⟨true, 1, 2, 1, 2, "Doc", some 5, 1⟩, some "e6", none⟩], [], 7⟩).length ∧
      (∀ r0 ∈ EmbState.store
        ⟨[⟨5, "Doc [Part 1/2]", ['a'], "standalone", "content",
            some ⟨true, 0, 2, 0, 1, "Doc", none, 1⟩, some "e5", none⟩,
          ⟨6, "Doc [Part 2/2]", ['b'], "standalone", "content",
            some ⟨true, 1, 2, 1, 2, "Doc", some 5, 1⟩, some "e6", none⟩], [], 7⟩,
        r0.documentId ≠ 6 → r0 ∈ st'.store) ∧
      (∀ r' ∈ st'.store, r'.documentId ≠ 6 → r' ∈ EmbState.store
        ⟨[⟨5, "Doc [Part 1/2]", ['a'], "standalone", "content",
            some ⟨true, 0, 2, 0, 1, "Doc", none, 1⟩, some "e5", none⟩,
          ⟨6, "Doc [Part 2/2]", ['b'], "standalone", "content",
            some ⟨true, 1, 2, 1, 2, "Doc", some 5, 1⟩, some "e6", none⟩], [], 7⟩) ∧
      (∀ t, (some "New" : Option String) = some t →
        res.entity.title =
          (match (partSuffixSplit (MRec.title ⟨6, "Doc [Part 2/2]", ['b'],
              "standalone", "content", some ⟨true, 1, 2, 1, 2, "Doc", some 5, 1⟩,
              some "e6", none⟩).data).2 with
           | some suf => t ++ String.mk suf
           | none => t)))) :=
  ⟨by decide, rfl,
    update_group_semantics
      ⟨true, fun _ => false, fun _ => false, fun _ => "E", fun c => c⟩
      ⟨0, 0, true, false⟩
      ⟨[⟨5, "Doc [Part 1/2]", ['a'], "standalone", "content",
          some ⟨true, 0, 2, 0, 1, "Doc", none, 1⟩, some "e5", none⟩,
        ⟨6, "Doc [Part 2/2]", ['b'], "standalone", "content",
          some ⟨true, 1, 2, 1, 2, "Doc", some 5, 1⟩, some "e6", none⟩], [], 7⟩
      6 ⟨some "New", none, none, none⟩
      ⟨6, "Doc [Part 2/2]", ['b'], "standalone", "content",
        some ⟨true, 1, 2, 1, 2, "Doc", some 5, 1⟩, some "e6", none⟩
      (by decide) rfl rfl⟩

end Emb
